import Mathlib

/-!
Verification of the grammar-composer core (top-down parser, grammar builder,
optionality analyzer, left-recursion detector) against its specification.

The TypeScript source is shallowly embedded:
* grammar nodes form a store indexed by natural-number ids (object identity
  in the source becomes id equality here);
* the mutable per-parse state (packrat cache, best-failed-match record)
  is threaded explicitly;
* the external regular-expression engine (out of scope per the spec) is
  modelled as an opaque result function carried inside each pattern node;
* recursion is fuel-indexed: `PRes.out` marks fuel exhaustion, so genuine
  divergence of the source is expressed as `out` for every fuel.
-/

namespace GrammarComposer

/-- Parse-tree node (`ParseTreeNode` in TopDownParser.ts).  `children` is
`none` when the source stores `undefined`. -/
inductive PTNode where
  | mk (name : String) (startOffset : Nat) (endOffset : Nat)
       (sourceText : String) (children : Option (List PTNode))

def PTNode.name : PTNode → String
  | .mk n _ _ _ _ => n

def PTNode.startOffset : PTNode → Nat
  | .mk _ s _ _ _ => s

def PTNode.endOffset : PTNode → Nat
  | .mk _ _ e _ _ => e

def PTNode.sourceText : PTNode → String
  | .mk _ _ _ t _ => t

def PTNode.children : PTNode → Option (List PTNode)
  | .mk _ _ _ _ c => c

/-- Internal parse result (`ParseResult` in TopDownParser.ts). -/
structure ParseResult where
  endOffset : Nat
  nodes : Option (List PTNode)

/-- Capture-group index data of one regular-expression match
(`matchResults.indices`).  `spans` is the whole indices array, entry 0 being
the overall match; an entry is `none` for a group that did not participate.
`groups` is `Object.keys(indices.groups)` when the expression has named
groups, `none` otherwise. -/
structure GroupIndices where
  spans : List (Option (Nat × Nat))
  groups : Option (List String)

/-- One regular-expression match result, relative to the string the
expression was executed on. -/
structure RegExpMatch where
  index : Nat
  matchLength : Nat
  indices : Option GroupIndices

/-- The compiled regular expression of a pattern terminal.  The engine
itself is an external collaborator, so it is modelled as a result
function. -/
structure JsRegExp where
  source : String
  exec : String → Option RegExpMatch

/-- The payload of a prepared grammar node; sub-nodes are referred to by
their id in the grammar's node store. -/
inductive GKind where
  | stringTerminal (content : String)
  | patternTerminal (pname : String) (regExp : JsRegExp)
  | nonterminal (nname : String) (content : Nat)
  | sequence (members : List Nat)
  | repetition (content : Nat)
  | choice (members : List Nat) (exhaustive : Bool)

/-- A prepared grammar node: payload plus the `optional` header flag. -/
structure GNode where
  kind : GKind
  optional : Bool

/-- A prepared grammar as consumed by `parse`: the node store (indexed by
id) and the root element's id. -/
structure PGrammar where
  nodes : List GNode
  root : Nat

def PGrammar.node? (g : PGrammar) (nid : Nat) : Option GNode :=
  g.nodes.get? nid

/-- `element.optional` as read by the sequence interpreter. -/
def PGrammar.nodeOptional (g : PGrammar) (nid : Nat) : Bool :=
  ((g.node? nid).map GNode.optional).getD false

/-- JavaScript `String.prototype.substring` (two arguments): clamps both
indices to the string length and swaps them when out of order. -/
def jsSubstring (s : String) (a b : Nat) : String :=
  let a' := min a s.data.length
  let b' := min b s.data.length
  let lo := min a' b'
  let hi := max a' b'
  ⟨(s.data.drop lo).take (hi - lo)⟩

/-- JavaScript `String.prototype.substring` with one argument: the suffix
from the given position. -/
def jsSuffix (s : String) (a : Nat) : String :=
  ⟨s.data.drop a⟩

/-- Association-list read; models both `Map.get` and JavaScript sparse
array indexing. -/
def assocGet {α : Type} : List (Nat × α) → Nat → Option α
  | [], _ => none
  | (k, v) :: rest, key => if key = k then some v else assocGet rest key

/-- Association-list write; models `Map.set` (update in place when the key
exists, append otherwise). -/
def assocSet {α : Type} : List (Nat × α) → Nat → α → List (Nat × α)
  | [], key, v => [(key, v)]
  | (k, v0) :: rest, key, v =>
    if key = k then (key, v) :: rest else (k, v0) :: assocSet rest key v

/-- One packrat-cache slot: node id to stored result (a stored result may
itself be `none`, standing for the source's cached `null`). -/
abbrev CacheSlot := List (Nat × Option ParseResult)

/-- The mutable per-parse state of `parse`:  the lazily created cache
slots (`cachedParseResults`), and the best-failed-match record.
`bestFailedMatches` stores node ids of failed terminals. -/
structure PState where
  cache : List (Nat × CacheSlot)
  bestFailedMatchesOffset : Int
  bestFailedMatches : List Nat

def initialPState : PState :=
  { cache := [], bestFailedMatchesOffset := -1, bestFailedMatches := [] }

/-- `updateBestFailedMatchesIfNeeded` of TopDownParser.ts. -/
def updateBestFailed (nid : Nat) (startOffset : Nat) (st : PState) : PState :=
  if (startOffset : Int) ≥ st.bestFailedMatchesOffset then
    if (startOffset : Int) > st.bestFailedMatchesOffset then
      { st with bestFailedMatchesOffset := (startOffset : Int),
                bestFailedMatches := [nid] }
    else
      { st with bestFailedMatches := st.bestFailedMatches ++ [nid] }
  else
    st

/-- Store a freshly computed result in the cache slot of `startOffset`
(the slot is created when absent). -/
def cacheStore (st : PState) (startOffset nid : Nat) (r : Option ParseResult) : PState :=
  let slot := (assocGet st.cache startOffset).getD []
  { st with cache := assocSet st.cache startOffset (assocSet slot nid r) }

/-- Outcome of a fuel-indexed run: a value, a thrown error, or fuel
exhaustion (`out`), the latter standing for non-termination of the
source. -/
inductive PRes (α : Type) where
  | ok (value : α)
  | err (msg : String)
  | out

/-- The type of the recursive parse callback: node id, start offset,
state in; optional parse result and state out. -/
abbrev Step := Nat → Nat → PState → PRes (Option ParseResult × PState)

/-- The capture-group loop of the pattern-terminal interpreter
(`for (let i = 1; i < groupsIndices.length; i++) ...`); `i` is the current
group number and the list is the remaining `groupsIndices` entries. -/
def buildGroupChildren (input : String) (startOffset : Nat)
    (names : Option (List String)) : Nat → List (Option (Nat × Nat)) → List PTNode
  | _, [] => []
  | i, none :: rest => buildGroupChildren input startOffset names (i + 1) rest
  | i, some gi :: rest =>
    let groupStartOffset := startOffset + gi.1
    let groupEndOffset := startOffset + gi.2
    let childName : String :=
      match names with
      | some ns => ns.getD (i - 1) "undefined"
      | none => toString i
    PTNode.mk childName groupStartOffset groupEndOffset
        (jsSubstring input groupStartOffset groupEndOffset) none
      :: buildGroupChildren input startOffset names (i + 1) rest

/-- The error thrown on a pattern mixing named and unnamed capture
groups. -/
def mixedGroupsMessage (src : String) : String :=
  s!"The regular expression /{src}/ contains a combination of named and unnamed groups. Due to limitations of the JavaScript RegExp engine, it is impossible to reliably identify the ordering of this combination, please use either all unnamed or named groups, but not both."

/-- The error thrown by the interpreter's default case; in this model it
is reached exactly when a node id is absent from the store. -/
def unsupportedMessage : String :=
  "Unsupported grammar element type 'undefined'."

/-- The parse-tree node built for a successful pattern-terminal match that
carries index data. -/
def mkPatternNode (input : String) (pname : String)
    (startOffset matchStartOffset matchEndOffset : Nat)
    (gi : GroupIndices) : PTNode :=
  PTNode.mk pname matchStartOffset matchEndOffset
    (jsSubstring input matchStartOffset matchEndOffset)
    (some (buildGroupChildren input startOffset gi.groups 1 (gi.spans.drop 1)))

/-- The member loop of the sequence interpreter: walks members at the
moving read offset, collecting successful results; a failing non-optional
member fails the whole sequence (`none` outcome). -/
def sequenceLoop (g : PGrammar) (step : Step) :
    List Nat → Nat → List ParseResult → PState →
    PRes (Option (Nat × List ParseResult) × PState)
  | [], readOffset, acc, st => .ok (some (readOffset, acc), st)
  | m :: rest, readOffset, acc, st =>
    match step m readOffset st with
    | .out => .out
    | .err e => .err e
    | .ok (some r, st') => sequenceLoop g step rest r.endOffset (acc ++ [r]) st'
    | .ok (none, st') =>
      if g.nodeOptional m = false then .ok (none, st')
      else sequenceLoop g step rest readOffset acc st'

/-- `nodes` accumulation over the successful member results of a
sequence. -/
def flattenNodes (results : List ParseResult) : List PTNode :=
  results.foldl (fun acc r => acc ++ r.nodes.getD []) []

/-- The `while (true)` loop of the repetition interpreter.  The fuel
argument counts loop iterations; the source has no bound, so divergence of
the source shows up as `out` for every fuel. -/
def repetitionLoop (step : Nat → PState → PRes (Option ParseResult × PState)) :
    Nat → Nat → List PTNode → PState → PRes ((Nat × List PTNode) × PState)
  | 0, _, _, _ => .out
  | fuel + 1, readOffset, nodes, st =>
    match step readOffset st with
    | .out => .out
    | .err e => .err e
    | .ok (none, st') => .ok ((readOffset, nodes), st')
    | .ok (some r, st') =>
      repetitionLoop step fuel r.endOffset (nodes ++ r.nodes.getD []) st'

/-- The acceptance test of the choice loop:
`bestResult === null || result.endOffset > bestResult.endOffset`. -/
def isBetter (best : Option ParseResult) (result : ParseResult) : Bool :=
  match best with
  | none => true
  | some b => decide (result.endOffset > b.endOffset)

/-- The member loop of the choice interpreter, carrying `bestResult`.  A
non-exhaustive choice stops at the first accepted result. -/
def choiceLoop (step : Step) (startOffset : Nat) (exhaustive : Bool) :
    List Nat → Option ParseResult → PState →
    PRes (Option ParseResult × PState)
  | [], best, st => .ok (best, st)
  | m :: rest, best, st =>
    match step m startOffset st with
    | .out => .out
    | .err e => .err e
    | .ok (none, st') => choiceLoop step startOffset exhaustive rest best st'
    | .ok (some result, st') =>
      if isBetter best result then
        if exhaustive = false then .ok (some result, st')
        else choiceLoop step startOffset exhaustive rest (some result) st'
      else choiceLoop step startOffset exhaustive rest best st'

/-- `tryParseUncached` of TopDownParser.ts: the per-variant interpreter.
`rec` is the recursive dispatcher (`tryParse`), `fuelRep` bounds the
repetition loop of this invocation. -/
def tryParseStep (g : PGrammar) (input : String) (rec : Step) (fuelRep : Nat)
    (nid : Nat) (node : GNode) (startOffset : Nat) (st : PState) :
    PRes (Option ParseResult × PState) :=
  match node.kind with
  | .stringTerminal target =>
    let endOffset := startOffset + target.length
    if endOffset > input.length then
      .ok (none, updateBestFailed nid startOffset st)
    else if jsSubstring input startOffset endOffset = target then
      .ok (some ⟨endOffset, none⟩, st)
    else
      .ok (none, updateBestFailed nid startOffset st)
  | .patternTerminal pname rx =>
    if startOffset ≥ input.length then
      .ok (none, updateBestFailed nid startOffset st)
    else
      match rx.exec (jsSuffix input startOffset) with
      | none => .ok (none, updateBestFailed nid startOffset st)
      | some m =>
        let matchStartOffset := startOffset + m.index
        let matchEndOffset := matchStartOffset + m.matchLength
        match m.indices with
        | none => .ok (some ⟨matchEndOffset, none⟩, st)
        | some gi =>
          match gi.groups with
          | some ns =>
            if ns.length = gi.spans.length - 1 then
              .ok (some ⟨matchEndOffset,
                some [mkPatternNode input pname startOffset matchStartOffset matchEndOffset gi]⟩, st)
            else
              .err (mixedGroupsMessage rx.source)
          | none =>
            .ok (some ⟨matchEndOffset,
              some [mkPatternNode input pname startOffset matchStartOffset matchEndOffset gi]⟩, st)
  | .nonterminal nname content =>
    match rec content startOffset st with
    | .out => .out
    | .err e => .err e
    | .ok (none, st') => .ok (none, st')
    | .ok (some r, st') =>
      let newNode := PTNode.mk nname startOffset r.endOffset
        (jsSubstring input startOffset r.endOffset) r.nodes
      .ok (some ⟨r.endOffset, some [newNode]⟩, st')
  | .sequence members =>
    match sequenceLoop g rec members startOffset [] st with
    | .out => .out
    | .err e => .err e
    | .ok (none, st') => .ok (none, st')
    | .ok (some (readOffset, results), st') =>
      let ns := flattenNodes results
      .ok (some ⟨readOffset, if ns.length > 0 then some ns else none⟩, st')
  | .repetition content =>
    match repetitionLoop (fun off st => rec content off st) fuelRep startOffset [] st with
    | .out => .out
    | .err e => .err e
    | .ok ((readOffset, ns), st') =>
      if readOffset > startOffset then
        .ok (some ⟨readOffset, if ns.length > 0 then some ns else none⟩, st')
      else
        .ok (none, st')
  | .choice members exhaustive =>
    choiceLoop rec startOffset exhaustive members none st

/-- `tryParse` of TopDownParser.ts: the dispatcher, consulting the packrat
cache when the node's `cached` flag (`cf`) is set.  Fuel decreases on every
dispatch. -/
def tryParse (g : PGrammar) (cf : Nat → Bool) (input : String) : Nat → Step
  | 0 => fun _ _ _ => .out
  | fuel + 1 => fun nid startOffset st =>
    match g.node? nid with
    | none => .err unsupportedMessage
    | some node =>
      if cf nid then
        match assocGet st.cache startOffset with
        | some slot =>
          match assocGet slot nid with
          | some cachedResult => .ok (cachedResult, st)
          | none =>
            match tryParseStep g input (tryParse g cf input fuel) fuel nid node startOffset st with
            | .ok (r, st') => .ok (r, cacheStore st' startOffset nid r)
            | .err e => .err e
            | .out => .out
        | none =>
          let st1 := { st with cache := assocSet st.cache startOffset [] }
          match tryParseStep g input (tryParse g cf input fuel) fuel nid node startOffset st1 with
          | .ok (r, st') => .ok (r, cacheStore st' startOffset nid r)
          | .err e => .err e
          | .out => .out
      else
        tryParseStep g input (tryParse g cf input fuel) fuel nid node startOffset st

/-- Failure-message formatting of a best-failed terminal: quoted content
for string terminals, the element's name otherwise. -/
def formatTerminal (g : PGrammar) (nid : Nat) : String :=
  match g.node? nid with
  | some node =>
    match node.kind with
    | .stringTerminal c => "'" ++ c ++ "'"
    | .patternTerminal nm _ => nm
    | .nonterminal nm _ => nm
    | _ => "undefined"
  | none => "undefined"

/-- `[...new Set(xs)]`: duplicate removal keeping the first occurrence. -/
def dedupFirstAux : List String → List String → List String
  | _, [] => []
  | seen, x :: xs =>
    if x ∈ seen then dedupFirstAux seen xs
    else x :: dedupFirstAux (x :: seen) xs

def dedupFirst (l : List String) : List String :=
  dedupFirstAux [] l

/-- The `Expected ... at position ...` failure message. -/
def expectedMessage (possibleMatchesString : String) (offset : Int) : String :=
  let off := toString offset
  s!"Failed parsing the input text. Expected {possibleMatchesString} at position {off}."

/-- The `Parsed length was ...` failure message. -/
def lengthMessage (parsedLength inputLength : Nat) : String :=
  let p := toString parsedLength
  let n := toString inputLength
  s!"Failed parsing the input text. Parsed length was {p}. Input length was {n}."

/-- The `Expected` list formatting: map each best-failed terminal to its
display string, remove duplicates keeping first occurrences, and join with
`any of` when more than one remains. -/
def possibleMatchesStringOf (g : PGrammar) (ts : List Nat) : String :=
  let possibleMatches := ts.map (formatTerminal g)
  let possibleMatchesWithoutDuplicates := dedupFirst possibleMatches
  if possibleMatchesWithoutDuplicates.length > 1 then
    "any of " ++ String.intercalate ", " possibleMatchesWithoutDuplicates
  else
    possibleMatchesWithoutDuplicates.headD "undefined"

/-- The failure branch of `parse` (its two `throw new Error(...)` sites). -/
def failureMessage (g : PGrammar) (input : String) (st : PState)
    (lastNode : Option PTNode) : String :=
  if st.bestFailedMatches.length > 0 then
    expectedMessage (possibleMatchesStringOf g st.bestFailedMatches)
      st.bestFailedMatchesOffset
  else
    lengthMessage ((lastNode.map PTNode.endOffset).getD 0) input.length

/-- `parse` of TopDownParser.ts: run the root element at offset 0 from the
initial state; succeed with `result.nodes` when the last produced node
reaches the end of the input, raise a failure message otherwise. -/
def parse (g : PGrammar) (cf : Nat → Bool) (fuel : Nat) (input : String) :
    PRes (List PTNode) :=
  match tryParse g cf input fuel g.root 0 initialPState with
  | .out => .out
  | .err e => .err e
  | .ok (result, st) =>
    match result with
    | some r =>
      match r.nodes with
      | some ns =>
        match ns.getLast? with
        | some lastNode =>
          if lastNode.endOffset ≥ input.length then .ok ns
          else .err (failureMessage g input st (some lastNode))
        | none => .err (failureMessage g input st none)
      | none => .err (failureMessage g input st none)
    | none => .err (failureMessage g input st none)

/-! ### Concrete grammars used by witnesses and counterexamples -/

/-- Disable caching on every node. -/
def cfFalse : Nat → Bool := fun _ => false

/-- Enable caching on every node. -/
def cfTrue : Nat → Bool := fun _ => true

/-- A minimal grammar: the start production `x` with body `'a'`
(node 0 is the string terminal, node 1 the root nonterminal). -/
def gStr : PGrammar :=
  { nodes := [⟨.stringTerminal "a", false⟩, ⟨.nonterminal "x" 0, false⟩],
    root := 1 }

/-- The prepared graph of `x = () => [possibly('a')]` wrapped in
`zeroOrMore`: node 0 is the optional terminal `'a'`, node 1 the sequence
`[0]` (optional after analysis), node 2 the repetition over it, node 3 the
root nonterminal.  The repetition body can succeed consuming nothing. -/
def gRep : PGrammar :=
  { nodes := [⟨.stringTerminal "a", true⟩, ⟨.sequence [0], true⟩,
              ⟨.repetition 1, true⟩, ⟨.nonterminal "x" 2, false⟩],
    root := 3 }

/-- `DivergesAt g cf input nid off`: the interpreter never returns from
evaluating node `nid` at `off`, whatever the fuel and the starting
state — the model's rendering of an infinite loop in the source. -/
def DivergesAt (g : PGrammar) (cf : Nat → Bool) (input : String)
    (nid off : Nat) : Prop :=
  ∀ fuel st, tryParse g cf input fuel nid off st = .out

/-- A pattern-terminal node used by the end-of-input witness; its pattern
is nullable (it matches the empty suffix). -/
def rxNullable : JsRegExp :=
  { source := "a*",
    exec := fun _ => some { index := 0, matchLength := 0, indices := none } }

/-- A pattern-terminal grammar node that is nullable and marked
optional. -/
def nodePatOpt : GNode :=
  ⟨.patternTerminal "p" rxNullable, true⟩

/-- A recursive callback that never returns; terminals never invoke it. -/
def stepDummy : Step := fun _ _ _ => .out

/-- A two-member choice grammar (`anyOf('a', 'ab')` as the start
production's body). -/
def gChoice : PGrammar :=
  { nodes := [⟨.stringTerminal "a", false⟩, ⟨.stringTerminal "ab", false⟩,
              ⟨.choice [0, 1] false, false⟩],
    root := 2 }

/-! ### Pure big-step semantics

`EvalR` is a state-free, fuel-free rendering of the interpreter: it relates
a configuration (a node at an offset, or one of the three member loops in
mid-flight) to its outcome, mirroring `tryParseUncached` branch by branch.
It is the reference the stateful, memoizing interpreter is proved to
refine; memoization neutrality (C4) and the tree invariants (C8) are
established through it. -/

/-- A configuration of the pure semantics: a node dispatch or one of the
three loops with its accumulated data. -/
inductive EConf where
  | node (nid off : Nat)
  | seqc (members : List Nat) (off : Nat) (acc : List ParseResult)
  | repc (content off : Nat) (ns : List PTNode)
  | choicec (members : List Nat) (off : Nat) (exhaustive : Bool)
      (best : Option ParseResult)

/-- An outcome of the pure semantics, one variant per configuration
family. -/
inductive EOut where
  | res (o : Except String (Option ParseResult))
  | seqo (o : Except String (Option (Nat × List ParseResult)))
  | repo (o : Except String (Nat × List PTNode))

/-- The pure big-step evaluation relation of the interpreter. -/
inductive EvalR (g : PGrammar) (input : String) : EConf → EOut → Prop where
  | notFound (nid off : Nat) :
      g.node? nid = none →
      EvalR g input (.node nid off) (.res (.error unsupportedMessage))
  | strFailLong (nid off : Nat) (t : String) (opt : Bool) :
      g.node? nid = some ⟨.stringTerminal t, opt⟩ →
      off + t.length > input.length →
      EvalR g input (.node nid off) (.res (.ok none))
  | strOk (nid off : Nat) (t : String) (opt : Bool) :
      g.node? nid = some ⟨.stringTerminal t, opt⟩ →
      ¬ (off + t.length > input.length) →
      jsSubstring input off (off + t.length) = t →
      EvalR g input (.node nid off) (.res (.ok (some ⟨off + t.length, none⟩)))
  | strFailNe (nid off : Nat) (t : String) (opt : Bool) :
      g.node? nid = some ⟨.stringTerminal t, opt⟩ →
      ¬ (off + t.length > input.length) →
      jsSubstring input off (off + t.length) ≠ t →
      EvalR g input (.node nid off) (.res (.ok none))
  | patFailEnd (nid off : Nat) (pn : String) (rx : JsRegExp) (opt : Bool) :
      g.node? nid = some ⟨.patternTerminal pn rx, opt⟩ →
      off ≥ input.length →
      EvalR g input (.node nid off) (.res (.ok none))
  | patFailNoMatch (nid off : Nat) (pn : String) (rx : JsRegExp) (opt : Bool) :
      g.node? nid = some ⟨.patternTerminal pn rx, opt⟩ →
      ¬ (off ≥ input.length) →
      rx.exec (jsSuffix input off) = none →
      EvalR g input (.node nid off) (.res (.ok none))
  | patOkPlain (nid off : Nat) (pn : String) (rx : JsRegExp) (opt : Bool)
      (m : RegExpMatch) :
      g.node? nid = some ⟨.patternTerminal pn rx, opt⟩ →
      ¬ (off ≥ input.length) →
      rx.exec (jsSuffix input off) = some m →
      m.indices = none →
      EvalR g input (.node nid off)
        (.res (.ok (some ⟨off + m.index + m.matchLength, none⟩)))
  | patOkNamed (nid off : Nat) (pn : String) (rx : JsRegExp) (opt : Bool)
      (m : RegExpMatch) (gi : GroupIndices) (nsn : List String) :
      g.node? nid = some ⟨.patternTerminal pn rx, opt⟩ →
      ¬ (off ≥ input.length) →
      rx.exec (jsSuffix input off) = some m →
      m.indices = some gi →
      gi.groups = some nsn →
      nsn.length = gi.spans.length - 1 →
      EvalR g input (.node nid off)
        (.res (.ok (some ⟨off + m.index + m.matchLength,
          some [mkPatternNode input pn off (off + m.index)
            (off + m.index + m.matchLength) gi]⟩)))
  | patOkUnnamed (nid off : Nat) (pn : String) (rx : JsRegExp) (opt : Bool)
      (m : RegExpMatch) (gi : GroupIndices) :
      g.node? nid = some ⟨.patternTerminal pn rx, opt⟩ →
      ¬ (off ≥ input.length) →
      rx.exec (jsSuffix input off) = some m →
      m.indices = some gi →
      gi.groups = none →
      EvalR g input (.node nid off)
        (.res (.ok (some ⟨off + m.index + m.matchLength,
          some [mkPatternNode input pn off (off + m.index)
            (off + m.index + m.matchLength) gi]⟩)))
  | patMixed (nid off : Nat) (pn : String) (rx : JsRegExp) (opt : Bool)
      (m : RegExpMatch) (gi : GroupIndices) (nsn : List String) :
      g.node? nid = some ⟨.patternTerminal pn rx, opt⟩ →
      ¬ (off ≥ input.length) →
      rx.exec (jsSuffix input off) = some m →
      m.indices = some gi →
      gi.groups = some nsn →
      nsn.length ≠ gi.spans.length - 1 →
      EvalR g input (.node nid off) (.res (.error (mixedGroupsMessage rx.source)))
  | ntOk (nid off : Nat) (nm : String) (c : Nat) (opt : Bool) (r : ParseResult) :
      g.node? nid = some ⟨.nonterminal nm c, opt⟩ →
      EvalR g input (.node c off) (.res (.ok (some r))) →
      EvalR g input (.node nid off)
        (.res (.ok (some ⟨r.endOffset,
          some [PTNode.mk nm off r.endOffset
            (jsSubstring input off r.endOffset) r.nodes]⟩)))
  | ntNone (nid off : Nat) (nm : String) (c : Nat) (opt : Bool) :
      g.node? nid = some ⟨.nonterminal nm c, opt⟩ →
      EvalR g input (.node c off) (.res (.ok none)) →
      EvalR g input (.node nid off) (.res (.ok none))
  | ntErr (nid off : Nat) (nm : String) (c : Nat) (opt : Bool) (e : String) :
      g.node? nid = some ⟨.nonterminal nm c, opt⟩ →
      EvalR g input (.node c off) (.res (.error e)) →
      EvalR g input (.node nid off) (.res (.error e))
  | seqDone (nid off : Nat) (ms : List Nat) (opt : Bool) (ro : Nat)
      (results : List ParseResult) :
      g.node? nid = some ⟨.sequence ms, opt⟩ →
      EvalR g input (.seqc ms off []) (.seqo (.ok (some (ro, results)))) →
      EvalR g input (.node nid off)
        (.res (.ok (some ⟨ro,
          if (flattenNodes results).length > 0
          then some (flattenNodes results) else none⟩)))
  | seqNone (nid off : Nat) (ms : List Nat) (opt : Bool) :
      g.node? nid = some ⟨.sequence ms, opt⟩ →
      EvalR g input (.seqc ms off []) (.seqo (.ok none)) →
      EvalR g input (.node nid off) (.res (.ok none))
  | seqErr (nid off : Nat) (ms : List Nat) (opt : Bool) (e : String) :
      g.node? nid = some ⟨.sequence ms, opt⟩ →
      EvalR g input (.seqc ms off []) (.seqo (.error e)) →
      EvalR g input (.node nid off) (.res (.error e))
  | repAdv (nid off : Nat) (c : Nat) (opt : Bool) (ro : Nat) (ns : List PTNode) :
      g.node? nid = some ⟨.repetition c, opt⟩ →
      EvalR g input (.repc c off []) (.repo (.ok (ro, ns))) →
      ro > off →
      EvalR g input (.node nid off)
        (.res (.ok (some ⟨ro, if ns.length > 0 then some ns else none⟩)))
  | repNoAdv (nid off : Nat) (c : Nat) (opt : Bool) (ro : Nat) (ns : List PTNode) :
      g.node? nid = some ⟨.repetition c, opt⟩ →
      EvalR g input (.repc c off []) (.repo (.ok (ro, ns))) →
      ¬ (ro > off) →
      EvalR g input (.node nid off) (.res (.ok none))
  | repErr (nid off : Nat) (c : Nat) (opt : Bool) (e : String) :
      g.node? nid = some ⟨.repetition c, opt⟩ →
      EvalR g input (.repc c off []) (.repo (.error e)) →
      EvalR g input (.node nid off) (.res (.error e))
  | choiceStart (nid off : Nat) (ms : List Nat) (exh : Bool) (opt : Bool)
      (o : Except String (Option ParseResult)) :
      g.node? nid = some ⟨.choice ms exh, opt⟩ →
      EvalR g input (.choicec ms off exh none) (.res o) →
      EvalR g input (.node nid off) (.res o)
  | seqNil (off : Nat) (acc : List ParseResult) :
      EvalR g input (.seqc [] off acc) (.seqo (.ok (some (off, acc))))
  | seqConsOk (m : Nat) (rest : List Nat) (off : Nat) (acc : List ParseResult)
      (r : ParseResult) (o : Except String (Option (Nat × List ParseResult))) :
      EvalR g input (.node m off) (.res (.ok (some r))) →
      EvalR g input (.seqc rest r.endOffset (acc ++ [r])) (.seqo o) →
      EvalR g input (.seqc (m :: rest) off acc) (.seqo o)
  | seqConsFail (m : Nat) (rest : List Nat) (off : Nat) (acc : List ParseResult) :
      EvalR g input (.node m off) (.res (.ok none)) →
      g.nodeOptional m = false →
      EvalR g input (.seqc (m :: rest) off acc) (.seqo (.ok none))
  | seqConsSkip (m : Nat) (rest : List Nat) (off : Nat) (acc : List ParseResult)
      (o : Except String (Option (Nat × List ParseResult))) :
      EvalR g input (.node m off) (.res (.ok none)) →
      ¬ (g.nodeOptional m = false) →
      EvalR g input (.seqc rest off acc) (.seqo o) →
      EvalR g input (.seqc (m :: rest) off acc) (.seqo o)
  | seqConsErr (m : Nat) (rest : List Nat) (off : Nat) (acc : List ParseResult)
      (e : String) :
      EvalR g input (.node m off) (.res (.error e)) →
      EvalR g input (.seqc (m :: rest) off acc) (.seqo (.error e))
  | repStop (c off : Nat) (ns : List PTNode) :
      EvalR g input (.node c off) (.res (.ok none)) →
      EvalR g input (.repc c off ns) (.repo (.ok (off, ns)))
  | repStep (c off : Nat) (ns : List PTNode) (r : ParseResult)
      (o : Except String (Nat × List PTNode)) :
      EvalR g input (.node c off) (.res (.ok (some r))) →
      EvalR g input (.repc c r.endOffset (ns ++ r.nodes.getD [])) (.repo o) →
      EvalR g input (.repc c off ns) (.repo o)
  | repLoopErr (c off : Nat) (ns : List PTNode) (e : String) :
      EvalR g input (.node c off) (.res (.error e)) →
      EvalR g input (.repc c off ns) (.repo (.error e))
  | chNil (off : Nat) (exh : Bool) (best : Option ParseResult) :
      EvalR g input (.choicec [] off exh best) (.res (.ok best))
  | chConsNone (m : Nat) (rest : List Nat) (off : Nat) (exh : Bool)
      (best : Option ParseResult) (o : Except String (Option ParseResult)) :
      EvalR g input (.node m off) (.res (.ok none)) →
      EvalR g input (.choicec rest off exh best) (.res o) →
      EvalR g input (.choicec (m :: rest) off exh best) (.res o)
  | chConsStop (m : Nat) (rest : List Nat) (off : Nat)
      (best : Option ParseResult) (result : ParseResult) :
      EvalR g input (.node m off) (.res (.ok (some result))) →
      isBetter best result = true →
      EvalR g input (.choicec (m :: rest) off false best) (.res (.ok (some result)))
  | chConsBetter (m : Nat) (rest : List Nat) (off : Nat)
      (best : Option ParseResult) (result : ParseResult)
      (o : Except String (Option ParseResult)) :
      EvalR g input (.node m off) (.res (.ok (some result))) →
      isBetter best result = true →
      EvalR g input (.choicec rest off true (some result)) (.res o) →
      EvalR g input (.choicec (m :: rest) off true best) (.res o)
  | chConsWorse (m : Nat) (rest : List Nat) (off : Nat) (exh : Bool)
      (best : Option ParseResult) (result : ParseResult)
      (o : Except String (Option ParseResult)) :
      EvalR g input (.node m off) (.res (.ok (some result))) →
      isBetter best result = false →
      EvalR g input (.choicec rest off exh best) (.res o) →
      EvalR g input (.choicec (m :: rest) off exh best) (.res o)
  | chConsErr (m : Nat) (rest : List Nat) (off : Nat) (exh : Bool)
      (best : Option ParseResult) (e : String) :
      EvalR g input (.node m off) (.res (.error e)) →
      EvalR g input (.choicec (m :: rest) off exh best) (.res (.error e))

/-- Pure evaluation of a single node at an offset. -/
def Eval (g : PGrammar) (input : String) (nid off : Nat)
    (o : Except String (Option ParseResult)) : Prop :=
  EvalR g input (.node nid off) (.res o)

/-- Cache coherence: every stored cache entry is certified by the pure
semantics. -/
def Coherent (g : PGrammar) (input : String) (st : PState) : Prop :=
  ∀ off nid slot r, assocGet st.cache off = some slot →
    assocGet slot nid = some r → Eval g input nid off (.ok r)

/-- One fuelled interpreter step simulates the pure semantics: converging
runs from coherent states produce certified results and coherent states. -/
def StepSim (g : PGrammar) (input : String) (step : Step) : Prop :=
  ∀ nid off st, Coherent g input st →
    (∀ r st', step nid off st = .ok (r, st') →
      Eval g input nid off (.ok r) ∧ Coherent g input st') ∧
    (∀ e, step nid off st = .err e → Eval g input nid off (.error e))

/-- A member fails outright at an offset. -/
def FailsAt (g : PGrammar) (input : String) (off m : Nat) : Prop :=
  Eval g input m off (.ok none)

/-- A member either fails or succeeds without exceeding the given bound. -/
def WeakEntry (g : PGrammar) (input : String) (off : Nat)
    (b : Option ParseResult) (q : Nat) : Prop :=
  Eval g input q off (.ok none) ∨
  ∃ rq bb, b = some bb ∧ Eval g input q off (.ok (some rq)) ∧
    rq.endOffset ≤ bb.endOffset

/-- A member either fails or succeeds strictly shorter than `r`. -/
def LtEntry (g : PGrammar) (input : String) (off : Nat)
    (r : ParseResult) (p : Nat) : Prop :=
  Eval g input p off (.ok none) ∨
  ∃ rp, Eval g input p off (.ok (some rp)) ∧ rp.endOffset < r.endOffset

/-- `r` strictly improves on the running best. -/
def Beats (r : ParseResult) (b : Option ParseResult) : Prop :=
  ∀ bb, b = some bb → bb.endOffset < r.endOffset

/-- Recursive well-formedness of a parse-tree node: its `sourceText` is
the input slice between its offsets, its offsets are ordered, every child
lies within its span and is itself well-formed, and its children are
listed in non-decreasing start-offset order. -/
inductive NodeOk (input : String) : PTNode → Prop where
  | intro (nm : String) (s e : Nat) (t : String) (ch : Option (List PTNode)) :
      t = jsSubstring input s e →
      s ≤ e →
      (∀ c ∈ ch.getD [], NodeOk input c) →
      (∀ c ∈ ch.getD [], s ≤ c.startOffset ∧ c.endOffset ≤ e) →
      (ch.getD []).Pairwise (fun a b => a.startOffset ≤ b.startOffset) →
      NodeOk input (.mk nm s e t ch)

/-- A list of well-formed nodes confined to `[lo, hi]` in non-decreasing
start-offset order. -/
def NodesOk (input : String) (lo hi : Nat) (ns : List PTNode) : Prop :=
  (∀ n ∈ ns, NodeOk input n ∧ lo ≤ n.startOffset ∧ n.endOffset ≤ hi) ∧
  ns.Pairwise (fun a b => a.startOffset ≤ b.startOffset)

/-- A capture-group span (when present) confined to `[lo, hi]`. -/
def SpanWf (lo hi : Nat) (sp : Option (Nat × Nat)) : Prop :=
  ∀ a b, sp = some (a, b) → lo ≤ a ∧ a ≤ b ∧ b ≤ hi

/-- Well-formedness of a regular-expression match: all capture-group
spans lie inside the overall match span and are listed in non-decreasing
start order.  This holds for every regular expression without lookaround
captures and is assumed of the out-of-scope engine. -/
def MatchWf (m : RegExpMatch) : Prop :=
  ∀ gi, m.indices = some gi →
    (∀ sp ∈ gi.spans.drop 1, SpanWf m.index (m.index + m.matchLength) sp) ∧
    ((gi.spans.drop 1).filterMap id).Pairwise (fun a b => a.1 ≤ b.1)

/-- Every pattern terminal of the grammar only produces well-formed
matches. -/
def RegexWf (g : PGrammar) : Prop :=
  ∀ nid pn rx opt, g.node? nid = some ⟨.patternTerminal pn rx, opt⟩ →
    ∀ s m, rx.exec s = some m → MatchWf m

/-- The induction motive for the parse-tree invariants: a successful node
evaluation never moves backwards and produces well-formed nodes confined
to the consumed span; the loop configurations thread the same fact
through their accumulators. -/
def C8Motive (input : String) : EConf → EOut → Prop
  | .node _ off, .res (.ok (some r)) =>
      off ≤ r.endOffset ∧ NodesOk input off r.endOffset (r.nodes.getD [])
  | .node _ _, _ => True
  | .seqc _ off acc, .seqo (.ok (some (ro, results))) =>
      off ≤ ro ∧ ∀ lo, lo ≤ off → NodesOk input lo off (flattenNodes acc) →
        NodesOk input lo ro (flattenNodes results)
  | .seqc _ _ _, _ => True
  | .repc _ off ns, .repo (.ok (ro, ns')) =>
      off ≤ ro ∧ ∀ lo, lo ≤ off → NodesOk input lo off ns →
        NodesOk input lo ro ns'
  | .repc _ _ _, _ => True
  | .choicec _ off _ best, .res (.ok o) =>
      (∀ b, best = some b → off ≤ b.endOffset ∧
        NodesOk input off b.endOffset (b.nodes.getD [])) →
      ∀ r, o = some r → off ≤ r.endOffset ∧
        NodesOk input off r.endOffset (r.nodes.getD [])
  | .choicec _ _ _ _, _ => True

/-- The sub-node ids a grammar node refers to. -/
def ChildIds : GKind → List Nat
  | .nonterminal _ c => [c]
  | .sequence ms => ms
  | .repetition c => [c]
  | .choice ms _ => ms
  | _ => []

/-- A grammar whose root and all referenced sub-node ids resolve in the
node store (always true of the object graphs the source builds). -/
def ClosedGrammar (g : PGrammar) : Prop :=
  g.root < g.nodes.length ∧
  ∀ nid node, g.node? nid = some node →
    ∀ c ∈ ChildIds node.kind, c < g.nodes.length

/-- All ids of a configuration resolve in the node store. -/
def ValidConf (g : PGrammar) : EConf → Prop
  | .node nid _ => nid < g.nodes.length
  | .seqc ms _ _ => ∀ m ∈ ms, m < g.nodes.length
  | .repc c _ _ => c < g.nodes.length
  | .choicec ms _ _ _ => ∀ m ∈ ms, m < g.nodes.length

/-- The error carried by an outcome, when it is one. -/
def ErrOf : EOut → Option String
  | .res (.error e) => some e
  | .seqo (.error e) => some e
  | .repo (.error e) => some e
  | _ => none

/-- A pattern whose matches report two named groups against a single
recorded span: the named/unnamed mix the interpreter rejects. -/
def rxMixed : JsRegExp :=
  { source := "mx",
    exec := fun _ => some
      { index := 0, matchLength := 1,
        indices := some { spans := [some (0, 1), some (0, 1)],
                          groups := some ["a", "b"] } } }

/-- A grammar whose start production is the mixed-group pattern. -/
def gMixed : PGrammar :=
  { nodes := [⟨.patternTerminal "p" rxMixed, false⟩,
              ⟨.nonterminal "x" 0, false⟩],
    root := 1 }

/-! ### Build-phase model (GrammarComposer.ts: buildGrammar and analyses) -/

/-- A grammar-element tree as produced by the builder functions, before
`prepareGrammarElement` interns it into the node store. A
`NonterminalReference` carries the index of the referenced production
function. -/
inductive GETree where
  | stringT (content : String) (optional : Bool)
  | patternT (nm : String) (optional : Bool)
  | ntRef (f : Nat) (optional : Bool)
  | seq (ms : List GETree) (optional : Bool)
  | choice (ms : List GETree) (exhaustive : Bool) (optional : Bool)
  | rep (c : GETree) (optional : Bool)

/-- A raw production value: a string, an array, a function reference to
another production (by index), or an already-built grammar element. -/
inductive Production where
  | str (s : String)
  | arr (ms : List Production)
  | fn (f : Nat)
  | elem (e : GETree)

mutual
/-- `productionToGrammarElement`: a string becomes a `StringTerminal`
(via `stringTerminal`, which rejects the empty string), an array a
`Sequence`, a function a `NonterminalReference`; elements pass through. -/
def productionToGrammarElement : Production → Except String GETree
  | .str s =>
    if s.length < 1 then
      .error "A string terminal must have a length of at least 1 character"
    else
      .ok (.stringT s false)
  | .arr ms => do
    let es ← productionsToGrammarElements ms
    .ok (.seq es false)
  | .fn f => .ok (.ntRef f false)
  | .elem e => .ok e

/-- Maps `productionToGrammarElement` over a member list. -/
def productionsToGrammarElements : List Production → Except String (List GETree)
  | [] => .ok []
  | p :: ps => do
    let e ← productionToGrammarElement p
    let es ← productionsToGrammarElements ps
    .ok (e :: es)
end

/-- Kinds of nodes in the build-phase store. Object identity in the
source (shared, mutable `GrammarElement` objects) is modeled by indices
into a store list; `nt` holds the store index of its content. -/
inductive BKind where
  | stringT (content : String)
  | patternT (nm : String)
  | nt (nm : String) (content : Nat)
  | seq (ms : List Nat)
  | choice (ms : List Nat) (exhaustive : Bool)
  | rep (c : Nat)

/-- A build-phase grammar node: kind plus the mutable `optional` and
`uniqueId` fields. -/
structure BNode where
  kind : BKind
  optional : Bool
  uniqueId : Option Nat

/-- The store of build-phase nodes, indexed by position. -/
abbrev BStore := List BNode

/-! `prepareGrammarElement` layout: for a grammar of `P` productions, the
plain nonterminal wrapper of production `f` is store node `f` and its
optional twin is store node `P + f`. -/
mutual
/-- The recursive `prepare` of `prepareGrammarElement`: interns a tree
into the store, assigning unique ids from the counter (children before
the parent, matching the source's evaluation order), and resolving a
`NonterminalReference` to the shared plain or optional nonterminal
wrapper, assigning that wrapper an id on first reference only. Returns
the grown store, the new counter, and the interned node's index. -/
def prepare (P : Nat) : GETree → BStore → Nat → Except String (BStore × Nat × Nat)
  | .stringT s opt, st, ctr => .ok (st ++ [⟨.stringT s, opt, some ctr⟩], ctr + 1, st.length)
  | .patternT nm opt, st, ctr => .ok (st ++ [⟨.patternT nm, opt, some ctr⟩], ctr + 1, st.length)
  | .rep c opt, st, ctr => do
    let (st2, ctr2, cid) ← prepare P c st ctr
    .ok (st2 ++ [⟨.rep cid, opt, some ctr2⟩], ctr2 + 1, st2.length)
  | .seq ms opt, st, ctr => do
    let (st2, ctr2, mids) ← prepareMembers P ms st ctr
    .ok (st2 ++ [⟨.seq mids, opt, some ctr2⟩], ctr2 + 1, st2.length)
  | .choice ms exh opt, st, ctr => do
    let (st2, ctr2, mids) ← prepareMembers P ms st ctr
    .ok (st2 ++ [⟨.choice mids exh, opt, some ctr2⟩], ctr2 + 1, st2.length)
  | .ntRef f opt, st, ctr =>
    if f < P then
      let tid := if opt then P + f else f
      match st.get? tid with
      | some nd =>
        match nd.uniqueId with
        | none => .ok (st.set tid ⟨nd.kind, nd.optional, some ctr⟩, ctr + 1, tid)
        | some _ => .ok (st, ctr, tid)
      | none => .ok (st, ctr, tid)
    else
      .error "Couldn't resolve function reference in grammar element."

/-- Interns a member list in order, threading store and counter. -/
def prepareMembers (P : Nat) : List GETree → BStore → Nat → Except String (BStore × Nat × List Nat)
  | [], st, ctr => .ok (st, ctr, [])
  | t :: ts, st, ctr => do
    let (st2, ctr2, tid) ← prepare P t st ctr
    let (st3, ctr3, tids) ← prepareMembers P ts st2 ctr2
    .ok (st3, ctr3, tid :: tids)
end

/-- Sets the content index of the nonterminal wrapper at store index `i`
(models `nonterminal.content = preparedContent`). -/
def setContent (st : BStore) (i cid : Nat) : BStore :=
  match st.get? i with
  | some nd =>
    match nd.kind with
    | .nt nm _ => st.set i ⟨.nt nm cid, nd.optional, nd.uniqueId⟩
    | _ => st
  | none => st

/-- The second loop of `buildGrammar`: prepares each production's content
tree in order and stores the shared prepared content into both the plain
wrapper `i` and its optional twin `P + i`. -/
def buildLoop (P : Nat) : List (Nat × GETree) → BStore → Nat → Except String (BStore × Nat)
  | [], st, ctr => .ok (st, ctr)
  | (i, t) :: rest, st, ctr => do
    let (st2, ctr2, cid) ← prepare P t st ctr
    buildLoop P rest (setContent (setContent st2 i cid) (P + i) cid) ctr2

/-- The mutable state of `detectAndAnnotateOptionalNodes`:
`visitedNodes`, `resolvedNodes` and `unresolvedNodes`, keyed by store
index. -/
structure OptState where
  visited : List Nat
  resolved : List (Nat × Bool)
  unresolved : List (Nat × List Nat)

/-- The analyzer's initial state. -/
def emptyOptState : OptState := ⟨[], [], []⟩

/-- The member loop of the `Sequence`/`Choice` case of
`processDepthFirst`, parametrized by the recursive visit callback: visits
each member, collecting unresolved members as dependencies (a `Set`, so
deduplicated) and tracking whether all resolved members are optional. -/
def pmLoop (step : Nat → OptState → Option (OptState × Option Bool)) :
    List Nat → OptState → List Nat → Bool → Option (OptState × List Nat × Bool)
  | [], s, deps, allOpt => some (s, deps, allOpt)
  | m :: rest, s, deps, allOpt =>
    match step m s with
    | none => none
    | some (s2, r) =>
      match r with
      | some b => pmLoop step rest s2 deps (allOpt && b)
      | none => pmLoop step rest s2 (if deps.contains m then deps else deps ++ [m]) allOpt

/-- `processDepthFirst` of `detectAndAnnotateOptionalNodes`, fuel-indexed
(`none` = fuel exhausted). Returns the updated state and the resolved
optionality of the node, `none` standing for `undefined`. -/
def processDepthFirst (store : BStore) : Nat → Nat → OptState → Option (OptState × Option Bool)
  | 0 => fun _ _ => none
  | fuel + 1 => fun nid s =>
    if s.visited.contains nid then
      some (s, assocGet s.resolved nid)
    else
      let s1 : OptState := ⟨nid :: s.visited, s.resolved, s.unresolved⟩
      match store.get? nid with
      | none => some (s1, none)
      | some nd =>
        match nd.kind with
        | .stringT _ =>
          some (⟨s1.visited, assocSet s1.resolved nid nd.optional, s1.unresolved⟩, some nd.optional)
        | .patternT _ =>
          some (⟨s1.visited, assocSet s1.resolved nid nd.optional, s1.unresolved⟩, some nd.optional)
        | .nt _ c =>
          match processDepthFirst store fuel c s1 with
          | none => none
          | some (s2, r) =>
            if nd.optional then
              some (⟨s2.visited, assocSet s2.resolved nid true, s2.unresolved⟩, some true)
            else
              match r with
              | some b => some (⟨s2.visited, assocSet s2.resolved nid b, s2.unresolved⟩, some b)
              | none => some (⟨s2.visited, s2.resolved, assocSet s2.unresolved nid [c]⟩, none)
        | .rep c =>
          match processDepthFirst store fuel c s1 with
          | none => none
          | some (s2, r) =>
            if nd.optional then
              some (⟨s2.visited, assocSet s2.resolved nid true, s2.unresolved⟩, some true)
            else
              match r with
              | some b => some (⟨s2.visited, assocSet s2.resolved nid b, s2.unresolved⟩, some b)
              | none => some (⟨s2.visited, s2.resolved, assocSet s2.unresolved nid [c]⟩, none)
        | .seq ms =>
          match pmLoop (processDepthFirst store fuel) ms s1 [] true with
          | none => none
          | some (s2, deps, allOpt) =>
            if nd.optional then
              some (⟨s2.visited, assocSet s2.resolved nid true, s2.unresolved⟩, some true)
            else if deps.isEmpty || !allOpt then
              some (⟨s2.visited, assocSet s2.resolved nid allOpt, s2.unresolved⟩, some allOpt)
            else
              some (⟨s2.visited, s2.resolved, assocSet s2.unresolved nid deps⟩, none)
        | .choice ms _ =>
          match pmLoop (processDepthFirst store fuel) ms s1 [] true with
          | none => none
          | some (s2, deps, allOpt) =>
            if nd.optional then
              some (⟨s2.visited, assocSet s2.resolved nid true, s2.unresolved⟩, some true)
            else if deps.isEmpty || !allOpt then
              some (⟨s2.visited, assocSet s2.resolved nid allOpt, s2.unresolved⟩, some allOpt)
            else
              some (⟨s2.visited, s2.resolved, assocSet s2.unresolved nid deps⟩, none)

/-- The inner dependency scan of the elimination loop: walks a node's
dependency list against the current resolutions; a `false` dependency
stops the scan (the node must be non-optional), a `true` dependency is
deleted, an unresolved one is kept. Returns the remaining dependencies,
whether a non-optional dependency was found, and the updated progress
flag. -/
def scanDeps (resolved : List (Nat × Bool)) : List Nat → List Nat → Bool → List Nat × Bool × Bool
  | [], acc, prog => (acc, false, prog)
  | d :: rest, acc, prog =>
    match assocGet resolved d with
    | some false => (acc ++ d :: rest, true, true)
    | some true => scanDeps resolved rest acc true
    | none => scanDeps resolved rest (acc ++ [d]) prog

/-- One pass of the elimination loop over the unresolved entries:
resolves a node when a non-optional dependency was found (to `false`) or
all its dependencies are gone (to `true`), and keeps it with its pruned
dependencies otherwise. -/
def elimPass : List (Nat × List Nat) → List (Nat × Bool) → Bool → List (Nat × List Nat) × List (Nat × Bool) × Bool
  | [], resolved, prog => ([], resolved, prog)
  | (n, deps) :: rest, resolved, prog =>
    match scanDeps resolved deps [] prog with
    | (deps2, nonOpt, prog2) =>
      if nonOpt || deps2.isEmpty then
        elimPass rest (assocSet resolved n (!nonOpt)) prog2
      else
        match elimPass rest resolved prog2 with
        | (rest2, resolved2, prog3) => ((n, deps2) :: rest2, resolved2, prog3)

/-- The closing loop: all still-unresolved nodes are mutually cyclic with
optional-only resolved parts, so they are resolved to optional. -/
def residualResolve (unresolved : List (Nat × List Nat)) (resolved : List (Nat × Bool)) : List (Nat × Bool) :=
  unresolved.foldl (fun r e => assocSet r e.1 true) resolved

/-- The `while (unresolvedNodes.size > 0)` loop of
`detectAndAnnotateOptionalNodes`, fuel-indexed: iterates elimination
passes until no entries remain or a pass makes no progress, then applies
the residual resolution. -/
def elimLoop : Nat → List (Nat × List Nat) → List (Nat × Bool) → Option (List (Nat × Bool))
  | 0, _, _ => none
  | fuel + 1, unresolved, resolved =>
    if unresolved.isEmpty then
      some resolved
    else
      match elimPass unresolved resolved false with
      | (u2, r2, prog) =>
        if prog then elimLoop fuel u2 r2
        else some (residualResolve u2 r2)

/-- The final loop of the analyzer: writes each detected optionality into
the node's `optional` field. -/
def applyResolved (store : BStore) (resolved : List (Nat × Bool)) : BStore :=
  resolved.foldl
    (fun st e =>
      match st.get? e.1 with
      | some nd => st.set e.1 ⟨nd.kind, e.2, nd.uniqueId⟩
      | none => st)
    store

/-- `detectAndAnnotateOptionalNodes`, also exposing the final resolution
map (internal state the source does not return, used to state which
nodes the analyzer marked). -/
def annotateOptional (store : BStore) (root fuel : Nat) : Option (BStore × List (Nat × Bool)) :=
  match processDepthFirst store fuel root emptyOptState with
  | none => none
  | some (s, _) =>
    match elimLoop fuel s.unresolved s.resolved with
    | none => none
    | some resolvedF => some (applyResolved store resolvedF, resolvedF)

/-- `detectAndAnnotateOptionalNodes` proper: the annotated store. -/
def detectAndAnnotateOptionalNodes (store : BStore) (root fuel : Nat) : Option BStore :=
  (annotateOptional store root fuel).map (fun p => p.1)

/-- The nonterminal form of the left-recursion error. -/
def leftRecursionMessage (nm : String) : String :=
  "Detected left recursion for nonterminal '" ++ nm ++ "'."

/-- The non-nonterminal form of the left-recursion error (the source
serializes the node with `JSON.stringify`; the serialization itself is
not modeled and no theorem depends on this string's contents). -/
def leftRecursionNodeMessage : String :=
  "Detected left recursion for node."

/-- The `Sequence` member loop of `detect`, parametrized by the
recursive callback: stops after the first non-optional member. -/
def detectSeqLoop (store : BStore) (step : Nat → List Nat → PRes Unit) :
    List Nat → List Nat → PRes Unit
  | [], _ => .ok ()
  | m :: rest, path =>
    match step m path with
    | .out => .out
    | .err e => .err e
    | .ok _ =>
      match store.get? m with
      | some nd => if nd.optional then detectSeqLoop store step rest path else .ok ()
      | none => .ok ()

/-- The `Choice` member loop of `detect`, parametrized by the recursive
callback: visits every member. -/
def detectChoiceLoop (step : Nat → List Nat → PRes Unit) :
    List Nat → List Nat → PRes Unit
  | [], _ => .ok ()
  | m :: rest, path =>
    match step m path with
    | .out => .out
    | .err e => .err e
    | .ok _ => detectChoiceLoop step rest path

/-- The recursive `detect` of `detectAndErrorOnLeftRecursion`:
`currentlyIteratedNodes` is the path list (most recent first); a node
already on the path raises the left-recursion error. Descends into
`Nonterminal`/`Repetition` content, `Sequence` members up to and
including the first non-optional member, and every `Choice` member. -/
def detect (store : BStore) : Nat → Nat → List Nat → PRes Unit
  | 0 => fun _ _ => .out
  | fuel + 1 => fun nid path =>
    if path.contains nid then
      match store.get? nid with
      | some nd =>
        match nd.kind with
        | .nt nm _ => .err (leftRecursionMessage nm)
        | _ => .err leftRecursionNodeMessage
      | none => .err leftRecursionNodeMessage
    else
      match store.get? nid with
      | none => .ok ()
      | some nd =>
        match nd.kind with
        | .stringT _ => .ok ()
        | .patternT _ => .ok ()
        | .nt _ c => detect store fuel c (nid :: path)
        | .rep c => detect store fuel c (nid :: path)
        | .seq ms => detectSeqLoop store (detect store fuel) ms (nid :: path)
        | .choice ms _ => detectChoiceLoop (detect store fuel) ms (nid :: path)

/-- `detectAndErrorOnLeftRecursion`: runs `detect` from the root with an
empty path. -/
def detectAndErrorOnLeftRecursion (store : BStore) (root fuel : Nat) : PRes Unit :=
  detect store fuel root []

/-- The built grammar: the final node store, the root nonterminal's store
index, and `maxElementId` (the final unique-id counter). -/
structure BuiltGrammar where
  store : BStore
  root : Nat
  maxElementId : Nat

/-- A user grammar definition object: its function-valued properties in
key order, each paired with its production value. -/
structure BGrammarDef where
  prods : List (String × Production)

/-- The missing-start-production error of `buildGrammar`. -/
def startNotFoundMessage (nm : String) : String :=
  "Couldn't find a start production named '" ++ nm ++ "'."

/-- `buildGrammar`: normalises each production, allocates the plain and
optional nonterminal wrappers, prepares every production's content
(assigning unique ids), locates the start production, runs the
optionality analysis and the left-recursion check, and returns the built
grammar with `maxElementId`. -/
def buildGrammar (gd : BGrammarDef) (startName : String) (fuel : Nat) : PRes BuiltGrammar :=
  match productionsToGrammarElements (gd.prods.map (fun p => p.2)) with
  | .error e => .err e
  | .ok trees =>
    let P := gd.prods.length
    let names := gd.prods.map (fun p => p.1)
    let init : BStore :=
      (names.map fun nm => ⟨.nt nm 0, false, none⟩) ++
      (names.map fun nm => ⟨.nt nm 0, true, none⟩)
    match buildLoop P trees.enum init 0 with
    | .error e => .err e
    | .ok (st, ctr) =>
      match names.findIdx? (fun nm => nm == startName) with
      | none => .err (startNotFoundMessage startName)
      | some s =>
        match detectAndAnnotateOptionalNodes st s fuel with
        | none => .out
        | some st2 =>
          match detectAndErrorOnLeftRecursion st2 s fuel with
          | .out => .out
          | .err e => .err e
          | .ok _ => .ok ⟨st2, s, ctr⟩

/-- The unique ids assigned across a store, in position order. -/
def assignedIds (st : BStore) : List Nat :=
  st.filterMap (fun nd => nd.uniqueId)

/-- The child store indices of a build-phase node kind. -/
def BMembers : BKind → List Nat
  | .stringT _ => []
  | .patternT _ => []
  | .nt _ c => [c]
  | .seq ms => ms
  | .choice ms _ => ms
  | .rep c => [c]

/-- A closed store: every child index of every node is a valid store
index. -/
def ClosedB (st : BStore) : Prop :=
  ∀ n nd, st.get? n = some nd → ∀ c ∈ BMembers nd.kind, c < st.length

/-- The final acceptance test of `parse` on a root result: the nodes list
when the last node reaches the input length, `none` otherwise. -/
def successNodes (input : String) (r : Option ParseResult) : Option (List PTNode) :=
  match r with
  | some rr =>
    match rr.nodes with
    | some ns =>
      match ns.getLast? with
      | some ln => if ln.endOffset ≥ input.length then some ns else none
      | none => none
    | none => none
  | none => none

/-- C3's grammar object: `{ x: () => ['a'] }` — a start production that no
`NonterminalReference` ever points to. -/
def c3gd : BGrammarDef := ⟨[("x", .arr [.str "a"])]⟩

/-- C7's left-recursive grammar object: `{ x: () => [x, 'a'] }`. -/
def c7gdLeft : BGrammarDef := ⟨[("x", .arr [.fn 0, .str "a"])]⟩

/-- C7's right-recursive grammar object: `{ x: () => ['a', x] }`. -/
def c7gdRight : BGrammarDef := ⟨[("x", .arr [.str "a", .fn 0])]⟩

/-- C6's concrete store: a choice of an optional string terminal and a
non-optional string terminal. -/
def c6Store : BStore :=
  [⟨.stringT "a", true, none⟩, ⟨.stringT "b", false, none⟩,
   ⟨.choice [0, 1] false, false, none⟩]

/-- The assigned unique ids of a store are exactly `[0, ctr)`, each id on
exactly one node. -/
def IdsExact (st : BStore) (ctr : Nat) : Prop :=
  ∀ id, (assignedIds st).count id = if id < ctr then 1 else 0

/-- Every store node outside the initial `2 * P` nonterminal wrappers
carries a unique id. -/
def SuffixIds (st : BStore) (P : Nat) : Prop :=
  ∀ i nd, 2 * P ≤ i → st.get? i = some nd → nd.uniqueId ≠ none

/-- A store node that is present and marked optional. -/
def OptionalAt (st : BStore) (m : Nat) : Prop :=
  ∃ nd, st.get? m = some nd ∧ nd.optional = true

/-- Membership in the leftmost part of a sequence's member list: the
members up to and including the first non-optional one. -/
inductive SeqPrefixMem (st : BStore) : List Nat → Nat → Prop where
  | head (m : Nat) (rest : List Nat) : SeqPrefixMem st (m :: rest) m
  | tail (m2 : Nat) (rest : List Nat) (m : Nat) :
      OptionalAt st m2 → SeqPrefixMem st rest m → SeqPrefixMem st (m2 :: rest) m

/-- A leftmost-descent edge: exactly the edges the left-recursion
detector follows (`Nonterminal`/`Repetition` content, `Sequence` members
up to and including the first non-optional member, every `Choice`
member). -/
inductive LMEdge (st : BStore) : Nat → Nat → Prop where
  | nt (n c : Nat) (nm : String) (nd : BNode) :
      st.get? n = some nd → nd.kind = .nt nm c → LMEdge st n c
  | rep (n c : Nat) (nd : BNode) :
      st.get? n = some nd → nd.kind = .rep c → LMEdge st n c
  | seq (n m : Nat) (ms : List Nat) (nd : BNode) :
      st.get? n = some nd → nd.kind = .seq ms → SeqPrefixMem st ms m → LMEdge st n m
  | choice (n m : Nat) (ms : List Nat) (exh : Bool) (nd : BNode) :
      st.get? n = some nd → nd.kind = .choice ms exh → m ∈ ms → LMEdge st n m

/-- A walk along leftmost-descent edges, listing the nodes visited after
the start node. -/
inductive EdgeWalk (st : BStore) : Nat → List Nat → Nat → Prop where
  | refl (n : Nat) : EdgeWalk st n [] n
  | step (n m : Nat) (l : List Nat) (e : Nat) :
      LMEdge st n m → EdgeWalk st m l e → EdgeWalk st n (m :: l) e

/-- Reachability along leftmost-descent edges. -/
def LMReach (st : BStore) (a b : Nat) : Prop := ∃ l, EdgeWalk st a l b

/-- A leftmost cycle at a node: a nonempty leftmost walk from the node
back to itself. -/
def LMCycle (st : BStore) (c : Nat) : Prop :=
  ∃ m l, LMEdge st c m ∧ EdgeWalk st m l c

/-- The detector's path list is a chain of leftmost edges descending from
the root (most recent entry first). -/
def StackOK (st : BStore) (root : Nat) : List Nat → Nat → Prop
  | [], n => n = root
  | q :: qs, n => LMEdge st q n ∧ StackOK st root qs q

/-- A node kind the analyzer can leave unresolved (has dependencies). -/
def CompositeKind : BKind → Prop
  | .stringT _ => False
  | .patternT _ => False
  | _ => True

/-- What a resolution entry `n ↦ b` guarantees, relative to the store and
the current resolution map: terminals carry their flag; a composite is
`true` only by header flag or all-children-true, and `false` only with a
`false` child and no header flag. -/
def ResolvedOK (ST : BStore) (R : List (Nat × Bool)) (n : Nat) (b : Bool) : Prop :=
  ∃ nd, ST.get? n = some nd ∧
    match nd.kind with
    | .stringT _ => b = nd.optional
    | .patternT _ => b = nd.optional
    | .nt _ c =>
        (b = true ∧ (nd.optional = true ∨ assocGet R c = some true)) ∨
        (b = false ∧ nd.optional = false ∧ assocGet R c = some false)
    | .rep c =>
        (b = true ∧ (nd.optional = true ∨ assocGet R c = some true)) ∨
        (b = false ∧ nd.optional = false ∧ assocGet R c = some false)
    | .seq ms =>
        (b = true ∧ (nd.optional = true ∨ ∀ m ∈ ms, assocGet R m = some true)) ∨
        (b = false ∧ nd.optional = false ∧ ∃ m ∈ ms, assocGet R m = some false)
    | .choice ms _ =>
        (b = true ∧ (nd.optional = true ∨ ∀ m ∈ ms, assocGet R m = some true)) ∨
        (b = false ∧ nd.optional = false ∧ ∃ m ∈ ms, assocGet R m = some false)

/-- What an unresolved entry's dependency list guarantees: dependencies
are children, and every child is either already resolved optional or
among the dependencies. -/
def DepsOK (R : List (Nat × Bool)) (nd : BNode) (deps : List Nat) : Prop :=
  (∀ d ∈ deps, d ∈ BMembers nd.kind) ∧
  (∀ m ∈ BMembers nd.kind, assocGet R m = some true ∨ m ∈ deps)

/-- Monotone extension of a resolution map. -/
def RSub (R R2 : List (Nat × Bool)) : Prop :=
  ∀ n b, assocGet R n = some b → assocGet R2 n = some b

/-- The analyzer-state invariant carried through `processDepthFirst`. -/
structure OptInv (ST : BStore) (s : OptState) : Prop where
  rok : ∀ n b, assocGet s.resolved n = some b → ResolvedOK ST s.resolved n b
  uok : ∀ p ∈ s.unresolved, ∃ nd, ST.get? p.1 = some nd ∧ nd.optional = false ∧
          CompositeKind nd.kind ∧ DepsOK s.resolved nd p.2
  dis : ∀ p ∈ s.unresolved, assocGet s.resolved p.1 = none
  und : (s.unresolved.map Prod.fst).Nodup
  rvis : ∀ n, assocGet s.resolved n ≠ none → n ∈ s.visited
  uvis : ∀ p ∈ s.unresolved, p.1 ∈ s.visited
  dvis : ∀ p ∈ s.unresolved, ∀ d ∈ p.2, d ∈ s.visited

/-- The postcondition of one analyzer visit of `nid`. -/
structure PdfPost (ST : BStore) (s s2 : OptState) (nid : Nat) (r : Option Bool) : Prop where
  inv : OptInv ST s2
  rsub : RSub s.resolved s2.resolved
  usub : ∀ p ∈ s.unresolved, p ∈ s2.unresolved
  vsub : ∀ x ∈ s.visited, x ∈ s2.visited
  rval : ∀ b, r = some b → assocGet s2.resolved nid = some b
  rfresh : ∀ n ∈ s.visited, assocGet s2.resolved n = assocGet s.resolved n
  ufresh : ∀ n ∈ s.visited, assocGet s2.unresolved n = assocGet s.unresolved n
  vmem : nid ∈ s2.visited
  vtrack : ∀ n ∈ s2.visited, n ∈ s.visited ∨
      assocGet s2.resolved n ≠ none ∨ assocGet s2.unresolved n ≠ none

/-- The postcondition of the analyzer's member loop. -/
structure PmPost (ST : BStore) (s s2 : OptState) (ms deps deps2 : List Nat)
    (allOpt allOpt2 : Bool) : Prop where
  inv : OptInv ST s2
  rsub : RSub s.resolved s2.resolved
  usub : ∀ p ∈ s.unresolved, p ∈ s2.unresolved
  vsub : ∀ x ∈ s.visited, x ∈ s2.visited
  rfresh : ∀ n ∈ s.visited, assocGet s2.resolved n = assocGet s.resolved n
  ufresh : ∀ n ∈ s.visited, assocGet s2.unresolved n = assocGet s.unresolved n
  dsub : ∀ d ∈ deps2, d ∈ deps ∨ d ∈ ms
  dkeep : ∀ d ∈ deps, d ∈ deps2
  dvis2 : ∀ d ∈ deps2, d ∈ s2.visited
  allMono : allOpt2 = true → allOpt = true
  allTrue : allOpt2 = true → ∀ m ∈ ms, assocGet s2.resolved m = some true ∨ m ∈ deps2
  allFalse : allOpt2 = false → allOpt = false ∨ ∃ m ∈ ms, assocGet s2.resolved m = some false
  vtrack : ∀ n ∈ s2.visited, n ∈ s.visited ∨
      assocGet s2.resolved n ≠ none ∨ assocGet s2.unresolved n ≠ none

/-- The well-formedness of the elimination loop's state. -/
def EOk (ST : BStore) (R : List (Nat × Bool)) (U : List (Nat × List Nat)) : Prop :=
  (∀ n b, assocGet R n = some b → ResolvedOK ST R n b) ∧
  (∀ p ∈ U, ∃ nd, ST.get? p.1 = some nd ∧ nd.optional = false ∧
    CompositeKind nd.kind ∧ DepsOK R nd p.2) ∧
  (∀ p ∈ U, assocGet R p.1 = none) ∧
  (U.map Prod.fst).Nodup

/-- The postcondition of one elimination pass. -/
structure EPPost (ST : BStore) (U : List (Nat × List Nat)) (R : List (Nat × Bool))
    (prog : Bool) (U2 : List (Nat × List Nat)) (R2 : List (Nat × Bool))
    (prog2 : Bool) : Prop where
  eok : EOk ST R2 U2
  rsub : RSub R R2
  ukeys : ∀ n ∈ U2.map Prod.fst, n ∈ U.map Prod.fst
  resokeys : ∀ n b, assocGet R2 n = some b → assocGet R n = some b ∨ n ∈ U.map Prod.fst
  uresolved : ∀ n ∈ U.map Prod.fst, n ∈ U2.map Prod.fst ∨ assocGet R2 n ≠ none
  progmono : prog = true → prog2 = true
  newtrue : prog2 = false → ∀ n b, assocGet R2 n = some b →
      assocGet R n = some b ∨ b = true
  keptnone : prog2 = false → ∀ p ∈ U2, ∀ d ∈ p.2, assocGet R d = none
  depsub : ∀ p ∈ U2, ∃ q ∈ U, q.1 = p.1 ∧ ∀ d ∈ p.2, d ∈ q.2

/-! ### Theorems -/

/-- Helper: a successful `tryParseUncached` at a `Nonterminal` node wraps
the content's nodes in a single fresh parse-tree node named after the
nonterminal. -/
theorem tryParseStep_nonterminal_ok (g : PGrammar) (input : String) (rec : Step)
    (fuelRep nid : Nat) (nm : String) (c : Nat) (opt : Bool) (off : Nat)
    (st : PState) (r : ParseResult) (st' : PState)
    (h : tryParseStep g input rec fuelRep nid ⟨.nonterminal nm c, opt⟩ off st
          = .ok (some r, st')) :
    ∃ e ch, r = ⟨e, some [PTNode.mk nm off e (jsSubstring input off e) ch]⟩ := by
  unfold tryParseStep at h
  dsimp only at h
  cases hrec : rec c off st with
  | out => rw [hrec] at h; simp at h
  | err e => rw [hrec] at h; simp at h
  | ok p =>
    obtain ⟨ro, st₁⟩ := p
    cases ro with
    | none => rw [hrec] at h; simp at h
    | some r₁ =>
      rw [hrec] at h
      simp only [PRes.ok.injEq, Prod.mk.injEq, Option.some.injEq] at h
      exact ⟨r₁.endOffset, r₁.nodes, h.1.symm⟩

/-- Helper: a converging root evaluation from the initial state, when the
root is a `Nonterminal`, produces a single wrapper node. -/
theorem tryParse_root_of_ok (g : PGrammar) (cf : Nat → Bool) (input : String)
    (nm : String) (c : Nat) (opt : Bool)
    (hroot : g.node? g.root = some ⟨.nonterminal nm c, opt⟩)
    (fuel : Nat) (r : ParseResult) (st : PState)
    (htp : tryParse g cf input fuel g.root 0 initialPState = .ok (some r, st)) :
    ∃ e ch, r = ⟨e, some [PTNode.mk nm 0 e (jsSubstring input 0 e) ch]⟩ := by
  cases fuel with
  | zero => simp [tryParse] at htp
  | succ f =>
    simp only [tryParse] at htp
    rw [hroot] at htp
    simp only at htp
    cases hcf : cf g.root with
    | false =>
      rw [hcf] at htp
      simp only [Bool.false_eq_true, if_false] at htp
      exact tryParseStep_nonterminal_ok _ _ _ _ _ _ _ _ _ _ _ _ htp
    | true =>
      rw [hcf] at htp
      simp only [if_true] at htp
      have hget : assocGet initialPState.cache 0 = (none : Option CacheSlot) := rfl
      rw [hget] at htp
      simp only at htp
      cases hstep : tryParseStep g input (tryParse g cf input f) f g.root
          ⟨.nonterminal nm c, opt⟩ 0
          { initialPState with cache := assocSet initialPState.cache 0 [] } with
      | out => rw [hstep] at htp; simp at htp
      | err e => rw [hstep] at htp; simp at htp
      | ok p =>
        obtain ⟨r₂, st₂⟩ := p
        rw [hstep] at htp
        simp only [PRes.ok.injEq, Prod.mk.injEq] at htp
        cases r₂ with
        | none => simp at htp
        | some r₃ =>
          obtain ⟨hr, -⟩ := htp
          obtain ⟨e, ch, h3⟩ := tryParseStep_nonterminal_ok _ _ _ _ _ _ _ _ _ _ _ _ hstep
          injection hr with hr'
          exact ⟨e, ch, hr'.symm.trans h3⟩

/-- C1 (counterexample): on the grammar `x = 'a'` and input `"a"`, `parse`
returns a one-element array holding the root nonterminal's wrapper node
(named `x` after the start production) — the wrapper is NOT unwrapped and
the returned array is not the wrapper's `children` (which is
`undefined`). -/
theorem c1_counterexample :
    parse gStr cfFalse 10 "a" = .ok [PTNode.mk "x" 0 1 "a" none] := by
  rfl

/-- C1 (amended): whenever `parse` succeeds and the grammar's root is a
`Nonterminal`, the returned array is the root result's `nodes` list: the
singleton of the root wrapper node, named after the start production,
spanning from offset 0 to an end offset reaching the input length, with
the sub-results as its children. -/
theorem c1_amended (g : PGrammar) (cf : Nat → Bool) (fuel : Nat) (input : String)
    (nm : String) (c : Nat) (opt : Bool) (ns : List PTNode)
    (hroot : g.node? g.root = some ⟨.nonterminal nm c, opt⟩)
    (h : parse g cf fuel input = .ok ns) :
    ∃ e ch, input.length ≤ e ∧
      ns = [PTNode.mk nm 0 e (jsSubstring input 0 e) ch] := by
  unfold parse at h
  cases htp : tryParse g cf input fuel g.root 0 initialPState with
  | out => rw [htp] at h; simp at h
  | err e => rw [htp] at h; simp at h
  | ok p =>
    obtain ⟨res, st⟩ := p
    rw [htp] at h
    cases res with
    | none => simp at h
    | some r =>
      obtain ⟨e, ch, hr⟩ := tryParse_root_of_ok g cf input nm c opt hroot fuel r st htp
      subst hr
      dsimp only at h
      have hgl : ([PTNode.mk nm 0 e (jsSubstring input 0 e) ch]).getLast?
          = some (PTNode.mk nm 0 e (jsSubstring input 0 e) ch) := rfl
      rw [hgl] at h
      dsimp only at h
      simp only [PTNode.endOffset] at h
      by_cases hlen : e ≥ input.length
      · rw [if_pos hlen] at h
        simp only [PRes.ok.injEq] at h
        exact ⟨e, ch, hlen, h.symm⟩
      · rw [if_neg hlen] at h
        simp at h

/-- C1 (amended, witness): the amended statement evaluated on the concrete
grammar `x = 'a'` with input `"a"`. -/
theorem c1_amended_witness :
    ∃ e ch, ("a" : String).length ≤ e ∧
      [PTNode.mk "x" 0 1 "a" none] = [PTNode.mk "x" 0 e (jsSubstring "a" 0 e) ch] :=
  c1_amended gStr cfFalse 10 "a" "x" 0 false [PTNode.mk "x" 0 1 "a" none] rfl
    c1_counterexample

/-- C10: evaluating a `PatternTerminal` at a start offset at or past the
end of the input fails immediately (with the best-failed record updated),
whatever the pattern's nullability or the node's `optional` flag; and when
the current offset is at least the recorded best, the terminal is indeed
recorded. -/
theorem c10_pattern_at_end (g : PGrammar) (input : String) (rec : Step)
    (fuelRep nid : Nat) (node : GNode) (pname : String) (rx : JsRegExp)
    (off : Nat) (st : PState)
    (hkind : node.kind = .patternTerminal pname rx)
    (hoff : off ≥ input.length) :
    tryParseStep g input rec fuelRep nid node off st
        = .ok (none, updateBestFailed nid off st) ∧
    (st.bestFailedMatchesOffset ≤ (off : Int) →
      nid ∈ (updateBestFailed nid off st).bestFailedMatches) := by
  constructor
  · unfold tryParseStep
    rw [hkind]
    simp [hoff]
  · intro hle
    unfold updateBestFailed
    rw [if_pos hle]
    split
    · simp
    · simp


/-- Helper: in `gRep` on empty input, the repetition body (the sequence of
one optional terminal) either runs out of fuel or succeeds consuming
nothing: the terminal fails, is skipped as optional, and the sequence
returns `endOffset = 0`. -/
theorem gRep_body_eval (f : Nat) (st : PState) :
    tryParse gRep cfFalse "" f 1 0 st = .out ∨
    tryParse gRep cfFalse "" f 1 0 st
      = .ok (some ⟨0, none⟩, updateBestFailed 0 0 st) := by
  match f with
  | 0 => exact Or.inl rfl
  | 1 => exact Or.inl rfl
  | f + 2 => exact Or.inr rfl

/-- Helper: the repetition loop over the empty-matching body of `gRep`
never terminates — every iteration succeeds at the same offset, so the
loop exhausts any fuel. -/
theorem gRep_loop_out (k : Nat) :
    ∀ (f : Nat) (ns : List PTNode) (st : PState),
      repetitionLoop (fun off st' => tryParse gRep cfFalse "" f 1 off st')
        k 0 ns st = .out := by
  induction k with
  | zero => intro f ns st; rfl
  | succ k ih =>
    intro f ns st
    rcases gRep_body_eval f st with hb | hb
    · simp only [repetitionLoop, hb]
    · simp only [repetitionLoop, hb]
      simpa using ih f ns (updateBestFailed 0 0 st)

/-- C2 (failing input): the interpreter does NOT stop when the repetition
body succeeds without advancing.  On the prepared graph of
`zeroOrMore([possibly('a')])` with empty input, evaluating the repetition
node never returns: the body succeeds with `endOffset` equal to the
cursor on every iteration and the loop (which has no forward-progress
check) runs forever. -/
theorem c2_repetition_diverges : DivergesAt gRep cfFalse "" 2 0 := by
  intro fuel st
  cases fuel with
  | zero => rfl
  | succ f =>
    have heq : tryParse gRep cfFalse "" (f + 1) 2 0 st
        = match repetitionLoop (fun off st' => tryParse gRep cfFalse "" f 1 off st')
              f 0 [] st with
          | .out => .out
          | .err e => .err e
          | .ok ((readOffset, ns), st') =>
            if readOffset > 0 then
              .ok (some ⟨readOffset, if ns.length > 0 then some ns else none⟩, st')
            else
              .ok (none, st') := rfl
    rw [heq, gRep_loop_out f f [] st]

/-- The pure big-step semantics is deterministic: a configuration has at
most one outcome. -/
theorem evalR_det {g : PGrammar} {input : String} {conf : EConf} {o₁ o₂ : EOut}
    (h₁ : EvalR g input conf o₁) : EvalR g input conf o₂ → o₁ = o₂ := by
  induction h₁ generalizing o₂ with
  | notFound nid off hA =>
    intro h₂; cases h₂ <;> try (first | rfl | (simp_all; done) | (simp_all; omega))
  | strFailLong nid off t opt hA hlen =>
    intro h₂; cases h₂ <;> try (first | rfl | (simp_all; done) | (simp_all; omega))
  | strOk nid off t opt hA hlen hsub =>
    intro h₂; cases h₂ <;> try (first | rfl | (simp_all; done) | (simp_all; omega))
  | strFailNe nid off t opt hA hlen hsub =>
    intro h₂; cases h₂ <;> try (first | rfl | (simp_all; done) | (simp_all; omega))
  | patFailEnd nid off pn rx opt hA hlen =>
    intro h₂; cases h₂ <;> try (first | rfl | (simp_all; done) | (simp_all; omega))
  | patFailNoMatch nid off pn rx opt hA hlen hex =>
    intro h₂; cases h₂ <;> try (first | rfl | (simp_all; done) | (simp_all; omega))
  | patOkPlain nid off pn rx opt m hA hlen hex hind =>
    intro h₂; cases h₂ <;> try (first | rfl | (simp_all; done) | (simp_all; omega))
  | patOkNamed nid off pn rx opt m gi nsn hA hlen hex hind hgr hcount =>
    intro h₂; cases h₂ <;> try (first | rfl | (simp_all; done) | (simp_all; omega))
  | patOkUnnamed nid off pn rx opt m gi hA hlen hex hind hgr =>
    intro h₂; cases h₂ <;> try (first | rfl | (simp_all; done) | (simp_all; omega))
  | patMixed nid off pn rx opt m gi nsn hA hlen hex hind hgr hcount =>
    intro h₂; cases h₂ <;> try (first | rfl | (simp_all; done) | (simp_all; omega))
  | ntOk nid off nm c opt r hA hsub ih =>
    intro h₂
    cases h₂ <;> try (first | rfl | (simp_all; done) | (simp_all; omega))
    case ntOk nm' c' opt' r' hA' hsub' =>
      rw [hA] at hA'
      simp only [Option.some.injEq, GNode.mk.injEq, GKind.nonterminal.injEq] at hA'
      obtain ⟨⟨hnm, hc⟩, -⟩ := hA'
      subst hnm; subst hc
      have hd := ih hsub'
      simp_all
    case ntNone nm' c' opt' hA' hsub' =>
      rw [hA] at hA'
      simp only [Option.some.injEq, GNode.mk.injEq, GKind.nonterminal.injEq] at hA'
      obtain ⟨⟨hnm, hc⟩, -⟩ := hA'
      subst hc
      have hd := ih hsub'
      simp_all
    case ntErr nm' c' opt' e' hA' hsub' =>
      rw [hA] at hA'
      simp only [Option.some.injEq, GNode.mk.injEq, GKind.nonterminal.injEq] at hA'
      obtain ⟨⟨hnm, hc⟩, -⟩ := hA'
      subst hc
      have hd := ih hsub'
      simp_all
  | ntNone nid off nm c opt hA hsub ih =>
    intro h₂
    cases h₂ <;> try (first | rfl | (simp_all; done) | (simp_all; omega))
    case ntOk nm' c' opt' r' hA' hsub' =>
      rw [hA] at hA'
      simp only [Option.some.injEq, GNode.mk.injEq, GKind.nonterminal.injEq] at hA'
      obtain ⟨⟨hnm, hc⟩, -⟩ := hA'
      subst hc
      have hd := ih hsub'
      simp_all
    case ntErr nm' c' opt' e' hA' hsub' =>
      rw [hA] at hA'
      simp only [Option.some.injEq, GNode.mk.injEq, GKind.nonterminal.injEq] at hA'
      obtain ⟨⟨hnm, hc⟩, -⟩ := hA'
      subst hc
      have hd := ih hsub'
      simp_all
  | ntErr nid off nm c opt e hA hsub ih =>
    intro h₂
    cases h₂ <;> try (first | rfl | (simp_all; done) | (simp_all; omega))
    case ntOk nm' c' opt' r' hA' hsub' =>
      rw [hA] at hA'
      simp only [Option.some.injEq, GNode.mk.injEq, GKind.nonterminal.injEq] at hA'
      obtain ⟨⟨hnm, hc⟩, -⟩ := hA'
      subst hc
      have hd := ih hsub'
      simp_all
    case ntNone nm' c' opt' hA' hsub' =>
      rw [hA] at hA'
      simp only [Option.some.injEq, GNode.mk.injEq, GKind.nonterminal.injEq] at hA'
      obtain ⟨⟨hnm, hc⟩, -⟩ := hA'
      subst hc
      have hd := ih hsub'
      simp_all
    case ntErr nm' c' opt' e' hA' hsub' =>
      rw [hA] at hA'
      simp only [Option.some.injEq, GNode.mk.injEq, GKind.nonterminal.injEq] at hA'
      obtain ⟨⟨hnm, hc⟩, -⟩ := hA'
      subst hc
      have hd := ih hsub'
      simp_all
  | seqDone nid off ms opt ro results hA hsub ih =>
    intro h₂
    cases h₂ <;> try (first | rfl | (simp_all; done) | (simp_all; omega))
    case seqDone ms' opt' ro' results' hA' hsub' =>
      rw [hA] at hA'
      simp only [Option.some.injEq, GNode.mk.injEq, GKind.sequence.injEq] at hA'
      obtain ⟨hm, -⟩ := hA'
      subst hm
      have hd := ih hsub'
      simp_all
    case seqNone ms' opt' hA' hsub' =>
      rw [hA] at hA'
      simp only [Option.some.injEq, GNode.mk.injEq, GKind.sequence.injEq] at hA'
      obtain ⟨hm, -⟩ := hA'
      subst hm
      have hd := ih hsub'
      simp_all
    case seqErr ms' opt' e' hA' hsub' =>
      rw [hA] at hA'
      simp only [Option.some.injEq, GNode.mk.injEq, GKind.sequence.injEq] at hA'
      obtain ⟨hm, -⟩ := hA'
      subst hm
      have hd := ih hsub'
      simp_all
  | seqNone nid off ms opt hA hsub ih =>
    intro h₂
    cases h₂ <;> try (first | rfl | (simp_all; done) | (simp_all; omega))
    case seqDone ms' opt' ro' results' hA' hsub' =>
      rw [hA] at hA'
      simp only [Option.some.injEq, GNode.mk.injEq, GKind.sequence.injEq] at hA'
      obtain ⟨hm, -⟩ := hA'
      subst hm
      have hd := ih hsub'
      simp_all
    case seqErr ms' opt' e' hA' hsub' =>
      rw [hA] at hA'
      simp only [Option.some.injEq, GNode.mk.injEq, GKind.sequence.injEq] at hA'
      obtain ⟨hm, -⟩ := hA'
      subst hm
      have hd := ih hsub'
      simp_all
  | seqErr nid off ms opt e hA hsub ih =>
    intro h₂
    cases h₂ <;> try (first | rfl | (simp_all; done) | (simp_all; omega))
    case seqDone ms' opt' ro' results' hA' hsub' =>
      rw [hA] at hA'
      simp only [Option.some.injEq, GNode.mk.injEq, GKind.sequence.injEq] at hA'
      obtain ⟨hm, -⟩ := hA'
      subst hm
      have hd := ih hsub'
      simp_all
    case seqNone ms' opt' hA' hsub' =>
      rw [hA] at hA'
      simp only [Option.some.injEq, GNode.mk.injEq, GKind.sequence.injEq] at hA'
      obtain ⟨hm, -⟩ := hA'
      subst hm
      have hd := ih hsub'
      simp_all
    case seqErr ms' opt' e' hA' hsub' =>
      rw [hA] at hA'
      simp only [Option.some.injEq, GNode.mk.injEq, GKind.sequence.injEq] at hA'
      obtain ⟨hm, -⟩ := hA'
      subst hm
      have hd := ih hsub'
      simp_all
  | repAdv nid off c opt ro ns hA hsub hadv ih =>
    intro h₂
    cases h₂ <;> try (first | rfl | (simp_all; done) | (simp_all; omega))
    case repAdv c' opt' ro' ns' hA' hsub' hadv' =>
      rw [hA] at hA'
      simp only [Option.some.injEq, GNode.mk.injEq, GKind.repetition.injEq] at hA'
      obtain ⟨hc, -⟩ := hA'
      subst hc
      have hd := ih hsub'
      simp_all
    case repNoAdv c' opt' ro' ns' hA' hsub' hadv' =>
      rw [hA] at hA'
      simp only [Option.some.injEq, GNode.mk.injEq, GKind.repetition.injEq] at hA'
      obtain ⟨hc, -⟩ := hA'
      subst hc
      have hd := ih hsub'
      simp_all
      omega
    case repErr c' opt' e' hA' hsub' =>
      rw [hA] at hA'
      simp only [Option.some.injEq, GNode.mk.injEq, GKind.repetition.injEq] at hA'
      obtain ⟨hc, -⟩ := hA'
      subst hc
      have hd := ih hsub'
      simp_all
  | repNoAdv nid off c opt ro ns hA hsub hadv ih =>
    intro h₂
    cases h₂ <;> try (first | rfl | (simp_all; done) | (simp_all; omega))
    case repAdv c' opt' ro' ns' hA' hsub' hadv' =>
      rw [hA] at hA'
      simp only [Option.some.injEq, GNode.mk.injEq, GKind.repetition.injEq] at hA'
      obtain ⟨hc, -⟩ := hA'
      subst hc
      have hd := ih hsub'
      simp_all
      omega
    case repErr c' opt' e' hA' hsub' =>
      rw [hA] at hA'
      simp only [Option.some.injEq, GNode.mk.injEq, GKind.repetition.injEq] at hA'
      obtain ⟨hc, -⟩ := hA'
      subst hc
      have hd := ih hsub'
      simp_all
  | repErr nid off c opt e hA hsub ih =>
    intro h₂
    cases h₂ <;> try (first | rfl | (simp_all; done) | (simp_all; omega))
    case repAdv c' opt' ro' ns' hA' hsub' hadv' =>
      rw [hA] at hA'
      simp only [Option.some.injEq, GNode.mk.injEq, GKind.repetition.injEq] at hA'
      obtain ⟨hc, -⟩ := hA'
      subst hc
      have hd := ih hsub'
      simp_all
    case repNoAdv c' opt' ro' ns' hA' hsub' hadv' =>
      rw [hA] at hA'
      simp only [Option.some.injEq, GNode.mk.injEq, GKind.repetition.injEq] at hA'
      obtain ⟨hc, -⟩ := hA'
      subst hc
      have hd := ih hsub'
      simp_all
    case repErr c' opt' e' hA' hsub' =>
      rw [hA] at hA'
      simp only [Option.some.injEq, GNode.mk.injEq, GKind.repetition.injEq] at hA'
      obtain ⟨hc, -⟩ := hA'
      subst hc
      have hd := ih hsub'
      simp_all
  | choiceStart nid off ms exh opt o hA hsub ih =>
    intro h₂
    cases h₂ <;> try (first | rfl | (simp_all; done) | (simp_all; omega))
    case choiceStart ms' exh' opt' o' hA' hsub' =>
      rw [hA] at hA'
      simp only [Option.some.injEq, GNode.mk.injEq, GKind.choice.injEq] at hA'
      obtain ⟨⟨hm, he⟩, -⟩ := hA'
      subst hm; subst he
      have hd := ih hsub'
      simp_all
  | seqNil off acc =>
    intro h₂; cases h₂; rfl
  | seqConsOk m rest off acc r o hm hr ihm ihr =>
    intro h₂
    cases h₂ <;> try (first | rfl | (simp_all; done) | (simp_all; omega))
    all_goals first
      | (have hd := ihm (by assumption : EvalR g input (EConf.node m off) (EOut.res (Except.ok none))); simp_all; done)
      | (have hd := ihm (by assumption : EvalR g input (EConf.node m off) (EOut.res (Except.error _))); simp_all; done)
      | (have hd := ihm (by assumption : EvalR g input (EConf.node m off) (EOut.res (Except.ok (some _)))); simp_all; done)
      | (have hd2 := ihr (by assumption); simp_all; done)
      | (have hd := ihm (by assumption : EvalR g input (EConf.node m off) (EOut.res (Except.ok (some _)))); simp only [EOut.res.injEq, Except.ok.injEq, Option.some.injEq] at hd; subst hd; have hd2 := ihr (by assumption); simp_all; done)
  | seqConsFail m rest off acc hm hopt ihm =>
    intro h₂
    cases h₂ <;> try (first | rfl | (simp_all; done) | (simp_all; omega))
    all_goals first
      | (have hd := ihm (by assumption : EvalR g input (EConf.node m off) (EOut.res (Except.ok none))); simp_all; done)
      | (have hd := ihm (by assumption : EvalR g input (EConf.node m off) (EOut.res (Except.error _))); simp_all; done)
      | (have hd := ihm (by assumption : EvalR g input (EConf.node m off) (EOut.res (Except.ok (some _)))); simp_all; done)
  | seqConsSkip m rest off acc o hm hopt hr ihm ihr =>
    intro h₂
    cases h₂ <;> try (first | rfl | (simp_all; done) | (simp_all; omega))
    all_goals first
      | (have hd := ihm (by assumption : EvalR g input (EConf.node m off) (EOut.res (Except.ok none))); simp_all; done)
      | (have hd := ihm (by assumption : EvalR g input (EConf.node m off) (EOut.res (Except.error _))); simp_all; done)
      | (have hd := ihm (by assumption : EvalR g input (EConf.node m off) (EOut.res (Except.ok (some _)))); simp_all; done)
      | (have hd2 := ihr (by assumption); simp_all; done)
      | (have hd := ihm (by assumption : EvalR g input (EConf.node m off) (EOut.res (Except.ok (some _)))); simp only [EOut.res.injEq, Except.ok.injEq, Option.some.injEq] at hd; subst hd; have hd2 := ihr (by assumption); simp_all; done)
  | seqConsErr m rest off acc e hm ihm =>
    intro h₂
    cases h₂ <;> try (first | rfl | (simp_all; done) | (simp_all; omega))
    all_goals first
      | (have hd := ihm (by assumption : EvalR g input (EConf.node m off) (EOut.res (Except.ok none))); simp_all; done)
      | (have hd := ihm (by assumption : EvalR g input (EConf.node m off) (EOut.res (Except.error _))); simp_all; done)
      | (have hd := ihm (by assumption : EvalR g input (EConf.node m off) (EOut.res (Except.ok (some _)))); simp_all; done)
  | repStop c off ns hm ihm =>
    intro h₂
    cases h₂ <;> try (first | rfl | (simp_all; done) | (simp_all; omega))
    all_goals first
      | (have hd := ihm (by assumption : EvalR g input (EConf.node c off) (EOut.res (Except.ok none))); simp_all; done)
      | (have hd := ihm (by assumption : EvalR g input (EConf.node c off) (EOut.res (Except.error _))); simp_all; done)
      | (have hd := ihm (by assumption : EvalR g input (EConf.node c off) (EOut.res (Except.ok (some _)))); simp_all; done)
  | repStep c off ns r o hm hr ihm ihr =>
    intro h₂
    cases h₂ <;> try (first | rfl | (simp_all; done) | (simp_all; omega))
    all_goals first
      | (have hd := ihm (by assumption : EvalR g input (EConf.node c off) (EOut.res (Except.ok none))); simp_all; done)
      | (have hd := ihm (by assumption : EvalR g input (EConf.node c off) (EOut.res (Except.error _))); simp_all; done)
      | (have hd := ihm (by assumption : EvalR g input (EConf.node c off) (EOut.res (Except.ok (some _)))); simp_all; done)
      | (have hd2 := ihr (by assumption); simp_all; done)
      | (have hd := ihm (by assumption : EvalR g input (EConf.node c off) (EOut.res (Except.ok (some _)))); simp only [EOut.res.injEq, Except.ok.injEq, Option.some.injEq] at hd; subst hd; have hd2 := ihr (by assumption); simp_all; done)
  | repLoopErr c off ns e hm ihm =>
    intro h₂
    cases h₂ <;> try (first | rfl | (simp_all; done) | (simp_all; omega))
    all_goals first
      | (have hd := ihm (by assumption : EvalR g input (EConf.node c off) (EOut.res (Except.ok none))); simp_all; done)
      | (have hd := ihm (by assumption : EvalR g input (EConf.node c off) (EOut.res (Except.error _))); simp_all; done)
      | (have hd := ihm (by assumption : EvalR g input (EConf.node c off) (EOut.res (Except.ok (some _)))); simp_all; done)
  | chNil off exh best =>
    intro h₂; cases h₂; rfl
  | chConsNone m rest off exh best o hm hr ihm ihr =>
    intro h₂
    cases h₂ <;> try (first | rfl | (simp_all; done) | (simp_all; omega))
    all_goals first
      | (have hd := ihm (by assumption : EvalR g input (EConf.node m off) (EOut.res (Except.ok none))); simp_all; done)
      | (have hd := ihm (by assumption : EvalR g input (EConf.node m off) (EOut.res (Except.error _))); simp_all; done)
      | (have hd := ihm (by assumption : EvalR g input (EConf.node m off) (EOut.res (Except.ok (some _)))); simp_all; done)
      | (have hd2 := ihr (by assumption); simp_all; done)
      | (have hd := ihm (by assumption : EvalR g input (EConf.node m off) (EOut.res (Except.ok (some _)))); simp only [EOut.res.injEq, Except.ok.injEq, Option.some.injEq] at hd; subst hd; have hd2 := ihr (by assumption); simp_all; done)
  | chConsStop m rest off best result hm hb ihm =>
    intro h₂
    cases h₂ <;> try (first | rfl | (simp_all; done) | (simp_all; omega))
    all_goals first
      | (have hd := ihm (by assumption : EvalR g input (EConf.node m off) (EOut.res (Except.ok none))); simp_all; done)
      | (have hd := ihm (by assumption : EvalR g input (EConf.node m off) (EOut.res (Except.error _))); simp_all; done)
      | (have hd := ihm (by assumption : EvalR g input (EConf.node m off) (EOut.res (Except.ok (some _)))); simp_all; done)
  | chConsBetter m rest off best result o hm hb hr ihm ihr =>
    intro h₂
    cases h₂ <;> try (first | rfl | (simp_all; done) | (simp_all; omega))
    all_goals first
      | (have hd := ihm (by assumption : EvalR g input (EConf.node m off) (EOut.res (Except.ok none))); simp_all; done)
      | (have hd := ihm (by assumption : EvalR g input (EConf.node m off) (EOut.res (Except.error _))); simp_all; done)
      | (have hd := ihm (by assumption : EvalR g input (EConf.node m off) (EOut.res (Except.ok (some _)))); simp_all; done)
      | (have hd2 := ihr (by assumption); simp_all; done)
      | (have hd := ihm (by assumption : EvalR g input (EConf.node m off) (EOut.res (Except.ok (some _)))); simp only [EOut.res.injEq, Except.ok.injEq, Option.some.injEq] at hd; subst hd; have hd2 := ihr (by assumption); simp_all; done)
  | chConsWorse m rest off exh best result o hm hb hr ihm ihr =>
    intro h₂
    cases h₂ <;> try (first | rfl | (simp_all; done) | (simp_all; omega))
    all_goals first
      | (have hd := ihm (by assumption : EvalR g input (EConf.node m off) (EOut.res (Except.ok none))); simp_all; done)
      | (have hd := ihm (by assumption : EvalR g input (EConf.node m off) (EOut.res (Except.error _))); simp_all; done)
      | (have hd := ihm (by assumption : EvalR g input (EConf.node m off) (EOut.res (Except.ok (some _)))); simp_all; done)
      | (have hd2 := ihr (by assumption); simp_all; done)
      | (have hd := ihm (by assumption : EvalR g input (EConf.node m off) (EOut.res (Except.ok (some _)))); simp only [EOut.res.injEq, Except.ok.injEq, Option.some.injEq] at hd; subst hd; have hd2 := ihr (by assumption); simp_all; done)
  | chConsErr m rest off exh best e hm ihm =>
    intro h₂
    cases h₂ <;> try (first | rfl | (simp_all; done) | (simp_all; omega))
    all_goals first
      | (have hd := ihm (by assumption : EvalR g input (EConf.node m off) (EOut.res (Except.ok none))); simp_all; done)
      | (have hd := ihm (by assumption : EvalR g input (EConf.node m off) (EOut.res (Except.error _))); simp_all; done)
      | (have hd := ihm (by assumption : EvalR g input (EConf.node m off) (EOut.res (Except.ok (some _)))); simp_all; done)

/-- Reading an association list after a write. -/
theorem assocGet_set {α : Type} (l : List (Nat × α)) (k : Nat) (v : α) (k' : Nat) :
    assocGet (assocSet l k v) k' = if k' = k then some v else assocGet l k' := by
  induction l with
  | nil =>
    simp only [assocSet, assocGet]
  | cons p rest ih =>
    obtain ⟨pk, pv⟩ := p
    simp only [assocSet]
    by_cases hk : k = pk
    · subst hk
      simp only [if_pos rfl, assocGet]
      by_cases h2 : k' = k
      · rw [if_pos h2, if_pos h2]
      · rw [if_neg h2, if_neg h2, if_neg h2]
    · rw [if_neg hk]
      simp only [assocGet]
      by_cases h' : k' = pk
      · have hkk : ¬ k' = k := fun hh => hk (hh.symm.trans h')
        rw [if_pos h', if_neg hkk, if_pos h']
      · rw [if_neg h', ih]
        by_cases h2 : k' = k
        · rw [if_pos h2, if_pos h2]
        · rw [if_neg h2, if_neg h2, if_neg h']

/-- The initial parse state has an empty (hence coherent) cache. -/
theorem coherent_initial (g : PGrammar) (input : String) :
    Coherent g input initialPState := by
  intro off nid slot r hslot
  simp [initialPState, assocGet] at hslot

/-- Updating the best-failed record leaves the cache untouched. -/
theorem updateBestFailed_cache (nid off : Nat) (st : PState) :
    (updateBestFailed nid off st).cache = st.cache := by
  unfold updateBestFailed
  split
  · split <;> rfl
  · rfl

/-- Coherence is preserved by best-failed updates. -/
theorem coherent_updateBestFailed (g : PGrammar) (input : String) (st : PState)
    (nid off : Nat) (h : Coherent g input st) :
    Coherent g input (updateBestFailed nid off st) := by
  intro o n slot r h1 h2
  rw [updateBestFailed_cache] at h1
  exact h o n slot r h1 h2

/-- Coherence is preserved by creating an empty cache slot. -/
theorem coherent_ensureSlot (g : PGrammar) (input : String) (st : PState)
    (off : Nat) (h : Coherent g input st) :
    Coherent g input { st with cache := assocSet st.cache off [] } := by
  intro o n slot r h1 h2
  simp only at h1
  rw [assocGet_set] at h1
  by_cases ho : o = off
  · rw [if_pos ho] at h1
    injection h1 with h1'
    rw [← h1'] at h2
    simp [assocGet] at h2
  · rw [if_neg ho] at h1
    exact h o n slot r h1 h2

/-- Coherence is preserved by storing a certified result. -/
theorem coherent_cacheStore (g : PGrammar) (input : String) (st : PState)
    (off nid : Nat) (r : Option ParseResult) (h : Coherent g input st)
    (hr : Eval g input nid off (.ok r)) :
    Coherent g input (cacheStore st off nid r) := by
  intro o n slot rr h1 h2
  unfold cacheStore at h1
  simp only at h1
  rw [assocGet_set] at h1
  by_cases ho : o = off
  · rw [if_pos ho] at h1
    injection h1 with h1'
    rw [← h1'] at h2
    rw [assocGet_set] at h2
    subst ho
    by_cases hn : n = nid
    · rw [if_pos hn] at h2
      injection h2 with h2'
      subst hn
      rw [← h2']
      exact hr
    · rw [if_neg hn] at h2
      cases hs : assocGet st.cache o with
      | none => rw [hs] at h2; simp [assocGet] at h2
      | some s0 =>
        rw [hs] at h2
        exact h o n s0 rr hs (by simpa using h2)
  · rw [if_neg ho] at h1
    exact h o n slot rr h1 h2

/-- The sequence loop simulates its pure counterpart. -/
theorem sequenceLoop_sim (g : PGrammar) (input : String) (step : Step)
    (hs : StepSim g input step) :
    ∀ (ms : List Nat) (off : Nat) (acc : List ParseResult) (st : PState),
      Coherent g input st →
      (∀ o st', sequenceLoop g step ms off acc st = .ok (o, st') →
        EvalR g input (.seqc ms off acc) (.seqo (.ok o)) ∧ Coherent g input st') ∧
      (∀ e, sequenceLoop g step ms off acc st = .err e →
        EvalR g input (.seqc ms off acc) (.seqo (.error e))) := by
  intro ms
  induction ms with
  | nil =>
    intro off acc st hcoh
    constructor
    · intro o st' hh
      simp only [sequenceLoop, PRes.ok.injEq, Prod.mk.injEq] at hh
      obtain ⟨ho, hst⟩ := hh
      subst ho; subst hst
      exact ⟨EvalR.seqNil off acc, hcoh⟩
    · intro e hh
      simp [sequenceLoop] at hh
  | cons m rest ih =>
    intro off acc st hcoh
    obtain ⟨hsok, hserr⟩ := hs m off st hcoh
    constructor
    · intro o st' hh
      simp only [sequenceLoop] at hh
      cases hstep : step m off st with
      | out => rw [hstep] at hh; simp at hh
      | err e => rw [hstep] at hh; simp at hh
      | ok p =>
        obtain ⟨ro, st₁⟩ := p
        rw [hstep] at hh
        obtain ⟨hm, hc₁⟩ := hsok ro st₁ hstep
        cases ro with
        | some r =>
          simp only at hh
          have hrest := ((ih r.endOffset (acc ++ [r]) st₁ hc₁).1) o st' hh
          exact ⟨EvalR.seqConsOk m rest off acc r _ hm hrest.1, hrest.2⟩
        | none =>
          simp only at hh
          by_cases hopt : g.nodeOptional m = false
          · rw [if_pos hopt] at hh
            simp only [PRes.ok.injEq, Prod.mk.injEq] at hh
            obtain ⟨ho, hst⟩ := hh
            subst ho; subst hst
            exact ⟨EvalR.seqConsFail m rest off acc hm hopt, hc₁⟩
          · rw [if_neg hopt] at hh
            have hrest := ((ih off acc st₁ hc₁).1) o st' hh
            exact ⟨EvalR.seqConsSkip m rest off acc _ hm hopt hrest.1, hrest.2⟩
    · intro e hh
      simp only [sequenceLoop] at hh
      cases hstep : step m off st with
      | out => rw [hstep] at hh; simp at hh
      | err e' =>
        rw [hstep] at hh
        simp only [PRes.err.injEq] at hh
        subst hh
        exact EvalR.seqConsErr m rest off acc e' (hserr e' hstep)
      | ok p =>
        obtain ⟨ro, st₁⟩ := p
        rw [hstep] at hh
        obtain ⟨hm, hc₁⟩ := hsok ro st₁ hstep
        cases ro with
        | some r =>
          simp only at hh
          have hrest := ((ih r.endOffset (acc ++ [r]) st₁ hc₁).2) e hh
          exact EvalR.seqConsOk m rest off acc r _ hm hrest
        | none =>
          simp only at hh
          by_cases hopt : g.nodeOptional m = false
          · rw [if_pos hopt] at hh
            simp at hh
          · rw [if_neg hopt] at hh
            have hrest := ((ih off acc st₁ hc₁).2) e hh
            exact EvalR.seqConsSkip m rest off acc _ hm hopt hrest

/-- The repetition loop simulates its pure counterpart (whenever it
converges at all). -/
theorem repetitionLoop_sim (g : PGrammar) (input : String) (step : Step)
    (hs : StepSim g input step) (c : Nat) :
    ∀ (k off : Nat) (ns : List PTNode) (st : PState),
      Coherent g input st →
      (∀ out st', repetitionLoop (fun o s => step c o s) k off ns st = .ok (out, st') →
        EvalR g input (.repc c off ns) (.repo (.ok out)) ∧ Coherent g input st') ∧
      (∀ e, repetitionLoop (fun o s => step c o s) k off ns st = .err e →
        EvalR g input (.repc c off ns) (.repo (.error e))) := by
  intro k
  induction k with
  | zero =>
    intro off ns st hcoh
    constructor
    · intro out st' hh; simp [repetitionLoop] at hh
    · intro e hh; simp [repetitionLoop] at hh
  | succ k ih =>
    intro off ns st hcoh
    obtain ⟨hsok, hserr⟩ := hs c off st hcoh
    constructor
    · intro out st' hh
      simp only [repetitionLoop] at hh
      cases hstep : step c off st with
      | out => rw [hstep] at hh; simp at hh
      | err e => rw [hstep] at hh; simp at hh
      | ok p =>
        obtain ⟨ro, st₁⟩ := p
        rw [hstep] at hh
        obtain ⟨hm, hc₁⟩ := hsok ro st₁ hstep
        cases ro with
        | none =>
          simp only [PRes.ok.injEq, Prod.mk.injEq] at hh
          obtain ⟨ho, hst⟩ := hh
          subst ho; subst hst
          exact ⟨EvalR.repStop c off ns hm, hc₁⟩
        | some r =>
          simp only at hh
          have hrest := ((ih r.endOffset (ns ++ r.nodes.getD []) st₁ hc₁).1) out st' hh
          exact ⟨EvalR.repStep c off ns r _ hm hrest.1, hrest.2⟩
    · intro e hh
      simp only [repetitionLoop] at hh
      cases hstep : step c off st with
      | out => rw [hstep] at hh; simp at hh
      | err e' =>
        rw [hstep] at hh
        simp only [PRes.err.injEq] at hh
        subst hh
        exact EvalR.repLoopErr c off ns e' (hserr e' hstep)
      | ok p =>
        obtain ⟨ro, st₁⟩ := p
        rw [hstep] at hh
        obtain ⟨hm, hc₁⟩ := hsok ro st₁ hstep
        cases ro with
        | none => simp at hh
        | some r =>
          simp only at hh
          have hrest := ((ih r.endOffset (ns ++ r.nodes.getD []) st₁ hc₁).2) e hh
          exact EvalR.repStep c off ns r _ hm hrest

/-- The choice loop simulates its pure counterpart. -/
theorem choiceLoop_sim (g : PGrammar) (input : String) (step : Step)
    (hs : StepSim g input step) (off : Nat) (exh : Bool) :
    ∀ (ms : List Nat) (best : Option ParseResult) (st : PState),
      Coherent g input st →
      (∀ o st', choiceLoop step off exh ms best st = .ok (o, st') →
        EvalR g input (.choicec ms off exh best) (.res (.ok o)) ∧ Coherent g input st') ∧
      (∀ e, choiceLoop step off exh ms best st = .err e →
        EvalR g input (.choicec ms off exh best) (.res (.error e))) := by
  intro ms
  induction ms with
  | nil =>
    intro best st hcoh
    constructor
    · intro o st' hh
      simp only [choiceLoop, PRes.ok.injEq, Prod.mk.injEq] at hh
      obtain ⟨ho, hst⟩ := hh
      subst ho; subst hst
      exact ⟨EvalR.chNil off exh best, hcoh⟩
    · intro e hh; simp [choiceLoop] at hh
  | cons m rest ih =>
    intro best st hcoh
    obtain ⟨hsok, hserr⟩ := hs m off st hcoh
    constructor
    · intro o st' hh
      simp only [choiceLoop] at hh
      cases hstep : step m off st with
      | out => rw [hstep] at hh; simp at hh
      | err e => rw [hstep] at hh; simp at hh
      | ok p =>
        obtain ⟨ro, st₁⟩ := p
        rw [hstep] at hh
        obtain ⟨hm, hc₁⟩ := hsok ro st₁ hstep
        cases ro with
        | none =>
          simp only at hh
          have hrest := ((ih best st₁ hc₁).1) o st' hh
          exact ⟨EvalR.chConsNone m rest off exh best _ hm hrest.1, hrest.2⟩
        | some result =>
          simp only at hh
          by_cases hib : isBetter best result = true
          · rw [if_pos hib] at hh
            cases hexh : exh with
            | false =>
              subst hexh
              rw [if_pos rfl] at hh
              injection hh with hh1
              injection hh1 with hh2 hh3
              subst hh2; subst hh3
              exact ⟨EvalR.chConsStop m rest off best result hm hib, hc₁⟩
            | true =>
              subst hexh
              rw [if_neg (fun h => Bool.noConfusion h)] at hh
              have hrest := ((ih (some result) st₁ hc₁).1) o st' hh
              exact ⟨EvalR.chConsBetter m rest off best result _ hm hib hrest.1, hrest.2⟩
          · rw [if_neg hib] at hh
            have hrest := ((ih best st₁ hc₁).1) o st' hh
            exact ⟨EvalR.chConsWorse m rest off exh best result _ hm
              (Bool.not_eq_true _ ▸ hib) hrest.1, hrest.2⟩
    · intro e hh
      simp only [choiceLoop] at hh
      cases hstep : step m off st with
      | out => rw [hstep] at hh; simp at hh
      | err e' =>
        rw [hstep] at hh
        simp only [PRes.err.injEq] at hh
        subst hh
        exact EvalR.chConsErr m rest off exh best e' (hserr e' hstep)
      | ok p =>
        obtain ⟨ro, st₁⟩ := p
        rw [hstep] at hh
        obtain ⟨hm, hc₁⟩ := hsok ro st₁ hstep
        cases ro with
        | none =>
          simp only at hh
          exact EvalR.chConsNone m rest off exh best _ hm (((ih best st₁ hc₁).2) e hh)
        | some result =>
          simp only at hh
          by_cases hib : isBetter best result = true
          · rw [if_pos hib] at hh
            cases hexh : exh with
            | false =>
              subst hexh
              rw [if_pos rfl] at hh
              simp at hh
            | true =>
              subst hexh
              rw [if_neg (fun h => Bool.noConfusion h)] at hh
              exact EvalR.chConsBetter m rest off best result _ hm hib
                (((ih (some result) st₁ hc₁).2) e hh)
          · rw [if_neg hib] at hh
            exact EvalR.chConsWorse m rest off exh best result _ hm
              (Bool.not_eq_true _ ▸ hib) (((ih best st₁ hc₁).2) e hh)

/-- `tryParseUncached` simulates the pure semantics, given that its
recursive callback does. -/
theorem tryParseStep_sim (g : PGrammar) (input : String) (step : Step)
    (hs : StepSim g input step) (fuelRep nid : Nat) (kind : GKind) (opt : Bool)
    (hnode : g.node? nid = some ⟨kind, opt⟩) :
    ∀ off st, Coherent g input st →
      (∀ r st', tryParseStep g input step fuelRep nid ⟨kind, opt⟩ off st = .ok (r, st') →
        Eval g input nid off (.ok r) ∧ Coherent g input st') ∧
      (∀ e, tryParseStep g input step fuelRep nid ⟨kind, opt⟩ off st = .err e →
        Eval g input nid off (.error e)) := by
  intro off st hcoh
  cases kind with
  | stringTerminal t =>
    constructor
    · intro r st' hh
      unfold tryParseStep at hh
      dsimp only at hh
      by_cases hlen : off + t.length > input.length
      · rw [if_pos hlen] at hh
        injection hh with hh1
        injection hh1 with hh2 hh3
        subst hh2; subst hh3
        exact ⟨EvalR.strFailLong nid off t opt hnode hlen,
          coherent_updateBestFailed g input st nid off hcoh⟩
      · rw [if_neg hlen] at hh
        by_cases hsub : jsSubstring input off (off + t.length) = t
        · rw [if_pos hsub] at hh
          injection hh with hh1
          injection hh1 with hh2 hh3
          subst hh2; subst hh3
          exact ⟨EvalR.strOk nid off t opt hnode hlen hsub, hcoh⟩
        · rw [if_neg hsub] at hh
          injection hh with hh1
          injection hh1 with hh2 hh3
          subst hh2; subst hh3
          exact ⟨EvalR.strFailNe nid off t opt hnode hlen hsub,
            coherent_updateBestFailed g input st nid off hcoh⟩
    · intro e hh
      unfold tryParseStep at hh
      dsimp only at hh
      by_cases hlen : off + t.length > input.length
      · rw [if_pos hlen] at hh; simp at hh
      · rw [if_neg hlen] at hh
        by_cases hsub : jsSubstring input off (off + t.length) = t
        · rw [if_pos hsub] at hh; simp at hh
        · rw [if_neg hsub] at hh; simp at hh
  | patternTerminal pn rx =>
    constructor
    · intro r st' hh
      unfold tryParseStep at hh
      dsimp only at hh
      by_cases hlen : off ≥ input.length
      · rw [if_pos hlen] at hh
        injection hh with hh1
        injection hh1 with hh2 hh3
        subst hh2; subst hh3
        exact ⟨EvalR.patFailEnd nid off pn rx opt hnode hlen,
          coherent_updateBestFailed g input st nid off hcoh⟩
      · rw [if_neg hlen] at hh
        cases hex : rx.exec (jsSuffix input off) with
        | none =>
          rw [hex] at hh
          injection hh with hh1
          injection hh1 with hh2 hh3
          subst hh2; subst hh3
          exact ⟨EvalR.patFailNoMatch nid off pn rx opt hnode hlen hex,
            coherent_updateBestFailed g input st nid off hcoh⟩
        | some m =>
          rw [hex] at hh
          dsimp only at hh
          cases hind : m.indices with
          | none =>
            rw [hind] at hh
            injection hh with hh1
            injection hh1 with hh2 hh3
            subst hh2; subst hh3
            exact ⟨EvalR.patOkPlain nid off pn rx opt m hnode hlen hex hind, hcoh⟩
          | some gi =>
            rw [hind] at hh
            dsimp only at hh
            cases hgr : gi.groups with
            | some nsn =>
              rw [hgr] at hh
              dsimp only at hh
              by_cases hcount : nsn.length = gi.spans.length - 1
              · rw [if_pos hcount] at hh
                injection hh with hh1
                injection hh1 with hh2 hh3
                subst hh2; subst hh3
                exact ⟨EvalR.patOkNamed nid off pn rx opt m gi nsn hnode hlen hex
                  hind hgr hcount, hcoh⟩
              · rw [if_neg hcount] at hh; simp at hh
            | none =>
              rw [hgr] at hh
              injection hh with hh1
              injection hh1 with hh2 hh3
              subst hh2; subst hh3
              exact ⟨EvalR.patOkUnnamed nid off pn rx opt m gi hnode hlen hex
                hind hgr, hcoh⟩
    · intro e hh
      unfold tryParseStep at hh
      dsimp only at hh
      by_cases hlen : off ≥ input.length
      · rw [if_pos hlen] at hh; simp at hh
      · rw [if_neg hlen] at hh
        cases hex : rx.exec (jsSuffix input off) with
        | none => rw [hex] at hh; simp at hh
        | some m =>
          rw [hex] at hh
          dsimp only at hh
          cases hind : m.indices with
          | none => rw [hind] at hh; simp at hh
          | some gi =>
            rw [hind] at hh
            dsimp only at hh
            cases hgr : gi.groups with
            | some nsn =>
              rw [hgr] at hh
              dsimp only at hh
              by_cases hcount : nsn.length = gi.spans.length - 1
              · rw [if_pos hcount] at hh; simp at hh
              · rw [if_neg hcount] at hh
                injection hh with hh1
                subst hh1
                exact EvalR.patMixed nid off pn rx opt m gi nsn hnode hlen hex
                  hind hgr hcount
            | none => rw [hgr] at hh; simp at hh
  | nonterminal nm c =>
    obtain ⟨hstepOk, hstepErr⟩ := hs c off st hcoh
    constructor
    · intro r st' hh
      unfold tryParseStep at hh
      dsimp only at hh
      cases hrec : step c off st with
      | out => rw [hrec] at hh; simp at hh
      | err e => rw [hrec] at hh; simp at hh
      | ok p =>
        obtain ⟨ro, st₁⟩ := p
        rw [hrec] at hh
        obtain ⟨hm, hc₁⟩ := hstepOk ro st₁ hrec
        cases ro with
        | none =>
          dsimp only at hh
          injection hh with hh1
          injection hh1 with hh2 hh3
          subst hh2; subst hh3
          exact ⟨EvalR.ntNone nid off nm c opt hnode hm, hc₁⟩
        | some r₁ =>
          dsimp only at hh
          injection hh with hh1
          injection hh1 with hh2 hh3
          subst hh2; subst hh3
          exact ⟨EvalR.ntOk nid off nm c opt r₁ hnode hm, hc₁⟩
    · intro e hh
      unfold tryParseStep at hh
      dsimp only at hh
      cases hrec : step c off st with
      | out => rw [hrec] at hh; simp at hh
      | err e' =>
        rw [hrec] at hh
        injection hh with hh1
        subst hh1
        exact EvalR.ntErr nid off nm c opt e' hnode (hstepErr e' hrec)
      | ok p =>
        obtain ⟨ro, st₁⟩ := p
        rw [hrec] at hh
        cases ro with
        | none => simp at hh
        | some r₁ => simp at hh
  | sequence ms =>
    have hseq := sequenceLoop_sim g input step hs ms off [] st hcoh
    constructor
    · intro r st' hh
      unfold tryParseStep at hh
      dsimp only at hh
      cases hsl : sequenceLoop g step ms off [] st with
      | out => rw [hsl] at hh; simp at hh
      | err e => rw [hsl] at hh; simp at hh
      | ok p =>
        obtain ⟨so, st₁⟩ := p
        rw [hsl] at hh
        obtain ⟨hev, hc₁⟩ := hseq.1 so st₁ hsl
        cases so with
        | none =>
          dsimp only at hh
          injection hh with hh1
          injection hh1 with hh2 hh3
          subst hh2; subst hh3
          exact ⟨EvalR.seqNone nid off ms opt hnode hev, hc₁⟩
        | some q =>
          obtain ⟨ro, results⟩ := q
          dsimp only at hh
          injection hh with hh1
          injection hh1 with hh2 hh3
          subst hh2; subst hh3
          exact ⟨EvalR.seqDone nid off ms opt ro results hnode hev, hc₁⟩
    · intro e hh
      unfold tryParseStep at hh
      dsimp only at hh
      cases hsl : sequenceLoop g step ms off [] st with
      | out => rw [hsl] at hh; simp at hh
      | err e' =>
        rw [hsl] at hh
        injection hh with hh1
        subst hh1
        exact EvalR.seqErr nid off ms opt e' hnode (hseq.2 e' hsl)
      | ok p =>
        obtain ⟨so, st₁⟩ := p
        rw [hsl] at hh
        cases so with
        | none => simp at hh
        | some q => obtain ⟨ro, results⟩ := q; simp at hh
  | repetition c =>
    have hrep := repetitionLoop_sim g input step hs c fuelRep off [] st hcoh
    constructor
    · intro r st' hh
      unfold tryParseStep at hh
      dsimp only at hh
      cases hrl : repetitionLoop (fun o s => step c o s) fuelRep off [] st with
      | out => rw [hrl] at hh; simp at hh
      | err e => rw [hrl] at hh; simp at hh
      | ok p =>
        obtain ⟨q, st₁⟩ := p
        obtain ⟨ro, ns⟩ := q
        rw [hrl] at hh
        dsimp only at hh
        obtain ⟨hev, hc₁⟩ := hrep.1 (ro, ns) st₁ hrl
        by_cases hadv : ro > off
        · rw [if_pos hadv] at hh
          injection hh with hh1
          injection hh1 with hh2 hh3
          subst hh2; subst hh3
          exact ⟨EvalR.repAdv nid off c opt ro ns hnode hev hadv, hc₁⟩
        · rw [if_neg hadv] at hh
          injection hh with hh1
          injection hh1 with hh2 hh3
          subst hh2; subst hh3
          exact ⟨EvalR.repNoAdv nid off c opt ro ns hnode hev hadv, hc₁⟩
    · intro e hh
      unfold tryParseStep at hh
      dsimp only at hh
      cases hrl : repetitionLoop (fun o s => step c o s) fuelRep off [] st with
      | out => rw [hrl] at hh; simp at hh
      | err e' =>
        rw [hrl] at hh
        injection hh with hh1
        subst hh1
        exact EvalR.repErr nid off c opt e' hnode (hrep.2 e' hrl)
      | ok p =>
        obtain ⟨q, st₁⟩ := p
        obtain ⟨ro, ns⟩ := q
        rw [hrl] at hh
        dsimp only at hh
        by_cases hadv : ro > off
        · rw [if_pos hadv] at hh; simp at hh
        · rw [if_neg hadv] at hh; simp at hh
  | choice ms exh =>
    have hch := choiceLoop_sim g input step hs off exh ms none st hcoh
    constructor
    · intro r st' hh
      unfold tryParseStep at hh
      dsimp only at hh
      obtain ⟨hev, hc₁⟩ := hch.1 r st' hh
      exact ⟨EvalR.choiceStart nid off ms exh opt _ hnode hev, hc₁⟩
    · intro e hh
      unfold tryParseStep at hh
      dsimp only at hh
      exact EvalR.choiceStart nid off ms exh opt _ hnode (hch.2 e hh)

/-- The memoizing interpreter simulates the pure semantics at every fuel:
converging runs from coherent states yield certified results and coherent
states, whatever the per-node `cached` flags. -/
theorem tryParse_sim (g : PGrammar) (cf : Nat → Bool) (input : String) :
    ∀ fuel, StepSim g input (tryParse g cf input fuel) := by
  intro fuel
  induction fuel with
  | zero =>
    intro nid off st hcoh
    constructor
    · intro r st' hh; simp [tryParse] at hh
    · intro e hh; simp [tryParse] at hh
  | succ f ih =>
    intro nid off st hcoh
    constructor
    · intro r st' hh
      simp only [tryParse] at hh
      cases hnode : g.node? nid with
      | none => rw [hnode] at hh; simp at hh
      | some node =>
        obtain ⟨kind, opt⟩ := node
        rw [hnode] at hh
        dsimp only at hh
        cases hcf : cf nid with
        | false =>
          rw [hcf] at hh
          rw [if_neg (fun h => Bool.noConfusion h)] at hh
          exact ((tryParseStep_sim g input _ ih f nid kind opt hnode off st hcoh).1) r st' hh
        | true =>
          rw [hcf] at hh
          rw [if_pos rfl] at hh
          cases hslot : assocGet st.cache off with
          | some slot =>
            rw [hslot] at hh
            dsimp only at hh
            cases hent : assocGet slot nid with
            | some cachedResult =>
              rw [hent] at hh
              injection hh with hh1
              injection hh1 with hh2 hh3
              subst hh2; subst hh3
              exact ⟨hcoh off nid slot cachedResult hslot hent, hcoh⟩
            | none =>
              rw [hent] at hh
              dsimp only at hh
              cases hstep : tryParseStep g input (tryParse g cf input f) f nid
                  ⟨kind, opt⟩ off st with
              | out => rw [hstep] at hh; simp at hh
              | err e => rw [hstep] at hh; simp at hh
              | ok p =>
                obtain ⟨r₂, st₂⟩ := p
                rw [hstep] at hh
                injection hh with hh1
                injection hh1 with hh2 hh3
                subst hh2; subst hh3
                obtain ⟨hm, hc₂⟩ :=
                  ((tryParseStep_sim g input _ ih f nid kind opt hnode off st hcoh).1)
                    r₂ st₂ hstep
                exact ⟨hm, coherent_cacheStore g input st₂ off nid r₂ hc₂ hm⟩
          | none =>
            rw [hslot] at hh
            dsimp only at hh
            have hc1 := coherent_ensureSlot g input st off hcoh
            cases hstep : tryParseStep g input (tryParse g cf input f) f nid
                ⟨kind, opt⟩ off { st with cache := assocSet st.cache off [] } with
            | out => rw [hstep] at hh; simp at hh
            | err e => rw [hstep] at hh; simp at hh
            | ok p =>
              obtain ⟨r₂, st₂⟩ := p
              rw [hstep] at hh
              injection hh with hh1
              injection hh1 with hh2 hh3
              subst hh2; subst hh3
              obtain ⟨hm, hc₂⟩ :=
                ((tryParseStep_sim g input _ ih f nid kind opt hnode off _ hc1).1)
                  r₂ st₂ hstep
              exact ⟨hm, coherent_cacheStore g input st₂ off nid r₂ hc₂ hm⟩
    · intro e hh
      simp only [tryParse] at hh
      cases hnode : g.node? nid with
      | none =>
        rw [hnode] at hh
        injection hh with hh1
        subst hh1
        exact EvalR.notFound nid off hnode
      | some node =>
        obtain ⟨kind, opt⟩ := node
        rw [hnode] at hh
        dsimp only at hh
        cases hcf : cf nid with
        | false =>
          rw [hcf] at hh
          rw [if_neg (fun h => Bool.noConfusion h)] at hh
          exact ((tryParseStep_sim g input _ ih f nid kind opt hnode off st hcoh).2) e hh
        | true =>
          rw [hcf] at hh
          rw [if_pos rfl] at hh
          cases hslot : assocGet st.cache off with
          | some slot =>
            rw [hslot] at hh
            dsimp only at hh
            cases hent : assocGet slot nid with
            | some cachedResult => rw [hent] at hh; simp at hh
            | none =>
              rw [hent] at hh
              dsimp only at hh
              cases hstep : tryParseStep g input (tryParse g cf input f) f nid
                  ⟨kind, opt⟩ off st with
              | out => rw [hstep] at hh; simp at hh
              | ok p => obtain ⟨r₂, st₂⟩ := p; rw [hstep] at hh; simp at hh
              | err e' =>
                rw [hstep] at hh
                injection hh with hh1
                subst hh1
                exact ((tryParseStep_sim g input _ ih f nid kind opt hnode off st hcoh).2)
                  e' hstep
          | none =>
            rw [hslot] at hh
            dsimp only at hh
            have hc1 := coherent_ensureSlot g input st off hcoh
            cases hstep : tryParseStep g input (tryParse g cf input f) f nid
                ⟨kind, opt⟩ off { st with cache := assocSet st.cache off [] } with
            | out => rw [hstep] at hh; simp at hh
            | ok p => obtain ⟨r₂, st₂⟩ := p; rw [hstep] at hh; simp at hh
            | err e' =>
              rw [hstep] at hh
              injection hh with hh1
              subst hh1
              exact ((tryParseStep_sim g input _ ih f nid kind opt hnode off _ hc1).2)
                e' hstep

/-- A converging interpreter run from a coherent state is certified by the
pure semantics. -/
theorem tryParse_ok_eval {g : PGrammar} {cf : Nat → Bool} {input : String}
    {fuel nid off : Nat} {st : PState} {r : Option ParseResult} {st' : PState}
    (hcoh : Coherent g input st)
    (h : tryParse g cf input fuel nid off st = .ok (r, st')) :
    Eval g input nid off (.ok r) :=
  (((tryParse_sim g cf input fuel) nid off st hcoh).1 r st' h).1

/-- A throwing interpreter run from a coherent state is certified by the
pure semantics. -/
theorem tryParse_err_eval {g : PGrammar} {cf : Nat → Bool} {input : String}
    {fuel nid off : Nat} {st : PState} {e : String}
    (hcoh : Coherent g input st)
    (h : tryParse g cf input fuel nid off st = .err e) :
    Eval g input nid off (.error e) :=
  ((tryParse_sim g cf input fuel) nid off st hcoh).2 e h


/-- `parse`'s outcome is determined by the root result: success with the
nodes list when the acceptance test passes, an error otherwise. -/
theorem parse_of_tryParse_ok (g : PGrammar) (cf : Nat → Bool) (fuel : Nat)
    (input : String) (r : Option ParseResult) (st : PState)
    (ht : tryParse g cf input fuel g.root 0 initialPState = .ok (r, st)) :
    (∀ ns, successNodes input r = some ns → parse g cf fuel input = .ok ns) ∧
    (successNodes input r = none → ∃ e, parse g cf fuel input = .err e) := by
  constructor
  · intro ns hsn
    unfold parse
    rw [ht]
    unfold successNodes at hsn
    cases r with
    | none => simp at hsn
    | some rr =>
      obtain ⟨e0, nodes0⟩ := rr
      dsimp only at hsn ⊢
      cases nodes0 with
      | none => simp at hsn
      | some ns' =>
        dsimp only at hsn ⊢
        cases hl : ns'.getLast? with
        | none => rw [hl] at hsn; simp at hsn
        | some ln =>
          rw [hl] at hsn
          dsimp only at hsn ⊢
          by_cases he : ln.endOffset ≥ input.length
          · rw [if_pos he] at hsn ⊢
            injection hsn with hsn'
            rw [hsn']
          · rw [if_neg he] at hsn; simp at hsn
  · intro hsn
    unfold parse
    rw [ht]
    unfold successNodes at hsn
    cases r with
    | none => exact ⟨_, rfl⟩
    | some rr =>
      obtain ⟨e0, nodes0⟩ := rr
      dsimp only at hsn ⊢
      cases nodes0 with
      | none => exact ⟨_, rfl⟩
      | some ns' =>
        dsimp only at hsn ⊢
        cases hl : ns'.getLast? with
        | none => rw [hl] at hsn; exact ⟨_, rfl⟩
        | some ln =>
          rw [hl] at hsn
          dsimp only at hsn ⊢
          by_cases he : ln.endOffset ≥ input.length
          · rw [if_pos he] at hsn; simp at hsn
          · rw [if_neg he]; exact ⟨_, rfl⟩

/-- C4: memoization is observationally neutral.  For the same grammar and
input, two runs with arbitrary (and arbitrarily different) per-node
`cached` flags that both return either both succeed with the same
parse-tree list or both raise an error. -/
theorem c4_cache_neutral (g : PGrammar) (cf cf' : Nat → Bool)
    (fuel fuel' : Nat) (input : String)
    (h1 : parse g cf fuel input ≠ .out) (h2 : parse g cf' fuel' input ≠ .out) :
    (∃ ns, parse g cf fuel input = .ok ns ∧ parse g cf' fuel' input = .ok ns) ∨
    ((∃ e, parse g cf fuel input = .err e) ∧
      (∃ e', parse g cf' fuel' input = .err e')) := by
  cases ht1 : tryParse g cf input fuel g.root 0 initialPState with
  | out => exact absurd (by unfold parse; rw [ht1]) h1
  | err e1 =>
    have hev1 := tryParse_err_eval (coherent_initial g input) ht1
    have hp1 : parse g cf fuel input = .err e1 := by unfold parse; rw [ht1]
    cases ht2 : tryParse g cf' input fuel' g.root 0 initialPState with
    | out => exact absurd (by unfold parse; rw [ht2]) h2
    | err e2 =>
      have hp2 : parse g cf' fuel' input = .err e2 := by unfold parse; rw [ht2]
      exact Or.inr ⟨⟨e1, hp1⟩, ⟨e2, hp2⟩⟩
    | ok p2 =>
      obtain ⟨r2, st2⟩ := p2
      have hev2 := tryParse_ok_eval (coherent_initial g input) ht2
      have hd := evalR_det hev1 hev2
      simp at hd
  | ok p1 =>
    obtain ⟨r1, st1⟩ := p1
    have hev1 := tryParse_ok_eval (coherent_initial g input) ht1
    cases ht2 : tryParse g cf' input fuel' g.root 0 initialPState with
    | out => exact absurd (by unfold parse; rw [ht2]) h2
    | err e2 =>
      have hev2 := tryParse_err_eval (coherent_initial g input) ht2
      have hd := evalR_det hev1 hev2
      simp at hd
    | ok p2 =>
      obtain ⟨r2, st2⟩ := p2
      have hev2 := tryParse_ok_eval (coherent_initial g input) ht2
      have hr : r1 = r2 := by
        have hd := evalR_det hev1 hev2
        simp only [EOut.res.injEq, Except.ok.injEq] at hd
        exact hd
      subst hr
      have hpp1 := parse_of_tryParse_ok g cf fuel input r1 st1 ht1
      have hpp2 := parse_of_tryParse_ok g cf' fuel' input r1 st2 ht2
      cases hsn : successNodes input r1 with
      | some ns => exact Or.inl ⟨ns, hpp1.1 ns hsn, hpp2.1 ns hsn⟩
      | none => exact Or.inr ⟨hpp1.2 hsn, hpp2.2 hsn⟩

/-- C4 (witness): the neutrality statement evaluated on the grammar
`x = 'a'` with caching disabled everywhere versus enabled everywhere. -/
theorem c4_witness :
    (∃ ns, parse gStr cfFalse 10 "a" = .ok ns ∧ parse gStr cfTrue 10 "a" = .ok ns) ∨
    ((∃ e, parse gStr cfFalse 10 "a" = .err e) ∧
      (∃ e', parse gStr cfTrue 10 "a" = .err e')) :=
  c4_cache_neutral gStr cfFalse cfTrue 10 10 "a"
    (by
      intro h
      rw [show parse gStr cfFalse 10 "a" = .ok [PTNode.mk "x" 0 1 "a" none] from rfl] at h
      exact PRes.noConfusion h)
    (by
      intro h
      rw [show parse gStr cfTrue 10 "a" = .ok [PTNode.mk "x" 0 1 "a" none] from rfl] at h
      exact PRes.noConfusion h)

/-- C10 (witness): a nullable, optional pattern terminal evaluated at the
end of input `"x"` fails and is recorded. -/
theorem c10_witness :
    tryParseStep gStr "x" stepDummy 0 7 nodePatOpt 1 initialPState
        = .ok (none, updateBestFailed 7 1 initialPState) ∧
    (initialPState.bestFailedMatchesOffset ≤ (1 : Int) →
      7 ∈ (updateBestFailed 7 1 initialPState).bestFailedMatches) :=
  c10_pattern_at_end gStr "x" stepDummy 0 7 nodePatOpt "p" rxNullable 1
    initialPState rfl (by decide)

/-- Characterization of the non-exhaustive (`anyOf`) choice loop started
with no running best: it fails only when every member fails, and succeeds
exactly with the result of the first succeeding member. -/
theorem choiceEval_anyOf {g : PGrammar} {input : String} {off : Nat} :
    ∀ {ms : List Nat} {o : Option ParseResult},
      EvalR g input (.choicec ms off false none) (.res (.ok o)) →
      (o = none → ∀ m ∈ ms, Eval g input m off (.ok none)) ∧
      (∀ r, o = some r → ∃ pre m post, ms = pre ++ m :: post ∧
        (∀ p ∈ pre, Eval g input p off (.ok none)) ∧
        Eval g input m off (.ok (some r))) := by
  intro ms
  induction ms with
  | nil =>
    intro o h
    cases h
    exact ⟨fun _ m hm => absurd hm (List.not_mem_nil m),
      fun r hr => Option.noConfusion hr⟩
  | cons m rest ih =>
    intro o h
    cases h
    case chConsNone =>
      have hfail : Eval g input m off (.ok none) := by assumption
      have hrest : EvalR g input (.choicec rest off false none) (.res (.ok o)) := by
        assumption
      obtain ⟨ihn, ihs⟩ := ih hrest
      constructor
      · intro h0 q hq
        rcases List.mem_cons.mp hq with rfl | hq'
        · exact hfail
        · exact ihn h0 q hq'
      · intro r hr
        obtain ⟨pre, mm, post, hsplit, hpre, hm⟩ := ihs r hr
        refine ⟨m :: pre, mm, post, by rw [hsplit]; rfl, ?_, hm⟩
        intro p hp
        rcases List.mem_cons.mp hp with rfl | hp'
        · exact hfail
        · exact hpre p hp'
    case chConsStop =>
      constructor
      · intro h0
        exact Option.noConfusion h0
      · intro r hr
        injection hr with hr'
        subst hr'
        exact ⟨[], m, rest, rfl, fun p hp => absurd hp (List.not_mem_nil p),
          by assumption⟩
    case chConsWorse =>
      exfalso
      obtain ⟨result, hb⟩ : ∃ rr : ParseResult,
          isBetter (none : Option ParseResult) rr = false := ⟨_, by assumption⟩
      simp [isBetter] at hb

/-- Characterization of the exhaustive (`bestOf`) choice loop: it returns
the running best untouched when no member strictly improves on it, or the
result of the first member achieving the overall maximum end offset. -/
theorem choiceEval_bestOf {g : PGrammar} {input : String} {off : Nat} :
    ∀ {ms : List Nat} {best o : Option ParseResult},
      EvalR g input (.choicec ms off true best) (.res (.ok o)) →
      (o = best ∧ ∀ q ∈ ms, WeakEntry g input off best q) ∨
      (∃ r pre m post, o = some r ∧ ms = pre ++ m :: post ∧
        Eval g input m off (.ok (some r)) ∧ Beats r best ∧
        (∀ p ∈ pre, LtEntry g input off r p) ∧
        (∀ q ∈ post, WeakEntry g input off (some r) q)) := by
  intro ms
  induction ms with
  | nil =>
    intro best o h
    cases h
    exact Or.inl ⟨rfl, fun q hq => absurd hq (List.not_mem_nil q)⟩
  | cons m rest ih =>
    intro best o h
    cases h
    case chConsNone =>
      have hfail : Eval g input m off (.ok none) := by assumption
      have hrest : EvalR g input (.choicec rest off true best) (.res (.ok o)) := by
        assumption
      rcases ih hrest with ⟨ho, hweak⟩ |
        ⟨r, pre, mm, post, ho, hsplit, hm, hbeats, hpre, hpost⟩
      · refine Or.inl ⟨ho, fun q hq => ?_⟩
        rcases List.mem_cons.mp hq with rfl | hq'
        · exact Or.inl hfail
        · exact hweak q hq'
      · refine Or.inr ⟨r, m :: pre, mm, post, ho, by rw [hsplit]; rfl, hm, hbeats,
          fun p hp => ?_, hpost⟩
        rcases List.mem_cons.mp hp with rfl | hp'
        · exact Or.inl hfail
        · exact hpre p hp'
    case chConsBetter =>
      obtain ⟨result, hmem, hib, hrest⟩ :
          ∃ rr, Eval g input m off (.ok (some rr)) ∧ isBetter best rr = true ∧
            EvalR g input (.choicec rest off true (some rr)) (.res (.ok o)) :=
        ⟨_, by assumption, by assumption, by assumption⟩
      have hbeats0 : Beats result best := by
        intro bb hbb
        subst hbb
        simpa [isBetter] using hib
      rcases ih hrest with ⟨ho, hweak⟩ |
        ⟨r, pre, mm, post, ho, hsplit, hm, hbeats, hpre, hpost⟩
      · exact Or.inr ⟨result, [], m, rest, ho, rfl, hmem, hbeats0,
          fun p hp => absurd hp (List.not_mem_nil p), hweak⟩
      · refine Or.inr ⟨r, m :: pre, mm, post, ho, by rw [hsplit]; rfl, hm, ?_,
          fun p hp => ?_, hpost⟩
        · intro bb hbb
          exact lt_trans (hbeats0 bb hbb) (hbeats result rfl)
        · rcases List.mem_cons.mp hp with rfl | hp'
          · exact Or.inr ⟨result, hmem, hbeats result rfl⟩
          · exact hpre p hp'
    case chConsWorse =>
      obtain ⟨result, hmem, hib, hrest⟩ :
          ∃ rr, Eval g input m off (.ok (some rr)) ∧ isBetter best rr = false ∧
            EvalR g input (.choicec rest off true best) (.res (.ok o)) :=
        ⟨_, by assumption, by assumption, by assumption⟩
      obtain ⟨bb, hbb, hle⟩ : ∃ bb, best = some bb ∧
          result.endOffset ≤ bb.endOffset := by
        cases hbest : best with
        | none => rw [hbest] at hib; simp [isBetter] at hib
        | some bb =>
          rw [hbest] at hib
          simp only [isBetter, decide_eq_false_iff_not, not_lt] at hib
          exact ⟨bb, rfl, hib⟩
      rcases ih hrest with ⟨ho, hweak⟩ |
        ⟨r, pre, mm, post, ho, hsplit, hm, hbeats, hpre, hpost⟩
      · refine Or.inl ⟨ho, fun q hq => ?_⟩
        rcases List.mem_cons.mp hq with rfl | hq'
        · exact Or.inr ⟨result, bb, hbb, hmem, hle⟩
        · exact hweak q hq'
      · refine Or.inr ⟨r, m :: pre, mm, post, ho, by rw [hsplit]; rfl, hm, hbeats,
          fun p hp => ?_, hpost⟩
        rcases List.mem_cons.mp hp with rfl | hp'
        · exact Or.inr ⟨result, hmem, lt_of_le_of_lt hle (hbeats bb hbb)⟩
        · exact hpre p hp'

/-- C5: choice semantics.  Whenever the interpreter converges on a
`Choice` node from a coherent state: a `null` outcome means every member
failed at that offset; with `exhaustive = false` (`anyOf`) a successful
outcome is the result of the first member, in declared order, that
succeeds; with `exhaustive = true` (`bestOf`) a successful outcome is
produced by a member all of whose predecessors fail or end strictly
earlier and all of whose successors fail or end no later — the largest
`endOffset` wins with ties broken in favor of the earliest member. -/
theorem c5_choice_semantics (g : PGrammar) (cf : Nat → Bool) (input : String)
    (fuel cid off : Nat) (st st' : PState) (members : List Nat)
    (exh opt : Bool) (res : Option ParseResult)
    (hnode : g.node? cid = some ⟨.choice members exh, opt⟩)
    (hcoh : Coherent g input st)
    (h : tryParse g cf input fuel cid off st = .ok (res, st')) :
    (res = none → ∀ m ∈ members, Eval g input m off (.ok none)) ∧
    (∀ r, res = some r →
      ∃ pre m post, members = pre ++ m :: post ∧
        Eval g input m off (.ok (some r)) ∧
        (exh = false → ∀ p ∈ pre, Eval g input p off (.ok none)) ∧
        (exh = true →
          (∀ p ∈ pre, LtEntry g input off r p) ∧
          (∀ q ∈ post, WeakEntry g input off (some r) q))) := by
  have hev := tryParse_ok_eval hcoh h
  have hch : EvalR g input (.choicec members off exh none) (.res (.ok res)) := by
    cases hev <;> simp_all
  cases hexh : exh with
  | false =>
    subst hexh
    have hA := choiceEval_anyOf hch
    constructor
    · exact hA.1
    · intro r hr
      obtain ⟨pre, m, post, hsplit, hpre, hm⟩ := hA.2 r hr
      exact ⟨pre, m, post, hsplit, hm, fun _ => hpre,
        fun htrue => Bool.noConfusion htrue⟩
  | true =>
    subst hexh
    rcases choiceEval_bestOf hch with ⟨ho, hweak⟩ |
      ⟨r, pre, m, post, ho, hsplit, hm, hbeats, hpre, hpost⟩
    · constructor
      · intro _ q hq
        rcases hweak q hq with hf | ⟨rq, bb, hbb, -, -⟩
        · exact hf
        · exact Option.noConfusion hbb
      · intro r hr
        rw [ho] at hr
        exact Option.noConfusion hr
    · constructor
      · intro h0
        rw [h0] at ho
        exact Option.noConfusion ho
      · intro r' hr'
        rw [ho] at hr'
        injection hr' with hre
        subst hre
        exact ⟨pre, m, post, hsplit, hm, fun hfalse => Bool.noConfusion hfalse,
          fun _ => ⟨hpre, hpost⟩⟩

/-- C5 (witness): the characterization applied to `anyOf('a', 'ab')` on
input `"ab"`, where the first member wins with end offset 1. -/
theorem c5_witness :
    ((some ⟨1, none⟩ : Option ParseResult) = none →
      ∀ m ∈ [0, 1], Eval gChoice "ab" m 0 (.ok none)) ∧
    (∀ r, (some ⟨1, none⟩ : Option ParseResult) = some r →
      ∃ pre m post, [0, 1] = pre ++ m :: post ∧
        Eval gChoice "ab" m 0 (.ok (some r)) ∧
        (false = false → ∀ p ∈ pre, Eval gChoice "ab" p 0 (.ok none)) ∧
        (false = true →
          (∀ p ∈ pre, LtEntry gChoice "ab" 0 r p) ∧
          (∀ q ∈ post, WeakEntry gChoice "ab" 0 (some r) q))) :=
  c5_choice_semantics gChoice cfFalse "ab" 10 2 0 initialPState initialPState
    [0, 1] false false (some ⟨1, none⟩) rfl (coherent_initial gChoice "ab") rfl

/-- The empty node list is well-formed on any span. -/
theorem NodesOk_nil (input : String) (lo hi : Nat) : NodesOk input lo hi [] :=
  ⟨fun n hn => absurd hn (List.not_mem_nil n), List.Pairwise.nil⟩

/-- Widening the span preserves node-list well-formedness. -/
theorem NodesOk_mono {input : String} {lo hi lo' hi' : Nat} {ns : List PTNode}
    (h1 : lo' ≤ lo) (h2 : hi ≤ hi') (h : NodesOk input lo hi ns) :
    NodesOk input lo' hi' ns :=
  ⟨fun n hn => ⟨(h.1 n hn).1, le_trans h1 (h.1 n hn).2.1,
    le_trans (h.1 n hn).2.2 h2⟩, h.2⟩

/-- A well-formed node has ordered offsets. -/
theorem NodeOk.start_le_end {input : String} {n : PTNode} (h : NodeOk input n) :
    n.startOffset ≤ n.endOffset := by
  cases h with
  | intro nm s e t ch h1 h2 h3 h4 h5 => simpa [PTNode.startOffset, PTNode.endOffset] using h2

/-- Concatenating adjacent well-formed node lists. -/
theorem NodesOk_append {input : String} {lo mid hi : Nat}
    {ns1 ns2 : List PTNode} (hlm : lo ≤ mid) (hmh : mid ≤ hi)
    (h1 : NodesOk input lo mid ns1) (h2 : NodesOk input mid hi ns2) :
    NodesOk input lo hi (ns1 ++ ns2) := by
  constructor
  · intro n hn
    rcases List.mem_append.mp hn with hn1 | hn2
    · obtain ⟨hok, hs, he⟩ := h1.1 n hn1
      exact ⟨hok, hs, le_trans he hmh⟩
    · obtain ⟨hok, hs, he⟩ := h2.1 n hn2
      exact ⟨hok, le_trans hlm hs, he⟩
  · rw [List.pairwise_append]
    refine ⟨h1.2, h2.2, fun a ha b hb => ?_⟩
    exact le_trans (h1.1 a ha).1.start_le_end
      (le_trans (h1.1 a ha).2.2 (h2.1 b hb).2.1)

/-- `flattenNodes` over a one-element extension. -/
theorem flattenNodes_append1 (acc : List ParseResult) (r : ParseResult) :
    flattenNodes (acc ++ [r]) = flattenNodes acc ++ r.nodes.getD [] := by
  unfold flattenNodes
  rw [List.foldl_append]
  rfl

/-- Every group child records a span of its spans list. -/
theorem mem_buildGroupChildren (input : String) (off : Nat)
    (names : Option (List String)) :
    ∀ (i : Nat) (spans : List (Option (Nat × Nat))) (n : PTNode),
      n ∈ buildGroupChildren input off names i spans →
      ∃ a b nm, some (a, b) ∈ spans ∧
        n = PTNode.mk nm (off + a) (off + b)
          (jsSubstring input (off + a) (off + b)) none := by
  intro i spans
  induction spans generalizing i with
  | nil => intro n hn; simp [buildGroupChildren] at hn
  | cons sp rest ih =>
    intro n hn
    cases sp with
    | none =>
      simp only [buildGroupChildren] at hn
      obtain ⟨a, b, nm, hmem, he⟩ := ih (i + 1) n hn
      exact ⟨a, b, nm, List.mem_cons_of_mem _ hmem, he⟩
    | some ab =>
      obtain ⟨a0, b0⟩ := ab
      simp only [buildGroupChildren] at hn
      rcases List.mem_cons.mp hn with rfl | hn'
      · exact ⟨a0, b0, _, List.mem_cons_self _ _, rfl⟩
      · obtain ⟨a, b, nm, hmem, he⟩ := ih (i + 1) n hn'
        exact ⟨a, b, nm, List.mem_cons_of_mem _ hmem, he⟩

/-- Group children synthesized from well-formed, sorted spans form a
well-formed node list confined to the (offset-shifted) match span. -/
theorem buildGroupChildren_nodesOk (input : String) (off : Nat)
    (names : Option (List String)) (lo hi : Nat) :
    ∀ (i : Nat) (spans : List (Option (Nat × Nat))),
      (∀ sp ∈ spans, SpanWf lo hi sp) →
      (spans.filterMap id).Pairwise (fun a b => a.1 ≤ b.1) →
      NodesOk input (off + lo) (off + hi)
        (buildGroupChildren input off names i spans) := by
  intro i spans
  induction spans generalizing i with
  | nil =>
    intro _ _
    simp only [buildGroupChildren]
    exact NodesOk_nil input _ _
  | cons sp rest ih =>
    intro hwf hsort
    cases sp with
    | none =>
      simp only [buildGroupChildren]
      refine ih (i + 1) (fun q hq => hwf q (List.mem_cons_of_mem _ hq)) ?_
      simpa using hsort
    | some ab =>
      obtain ⟨a0, b0⟩ := ab
      obtain ⟨hla, hab, hbh⟩ := hwf (some (a0, b0)) (List.mem_cons_self _ _) a0 b0 rfl
      rw [show List.filterMap id (some (a0, b0) :: rest) = (a0, b0) :: rest.filterMap id from rfl] at hsort
      have hsort' := List.pairwise_cons.mp hsort
      have hrec := ih (i + 1) (fun q hq => hwf q (List.mem_cons_of_mem _ hq)) hsort'.2
      simp only [buildGroupChildren]
      constructor
      · intro n hn
        rcases List.mem_cons.mp hn with rfl | hn'
        · refine ⟨NodeOk.intro _ _ _ _ _ rfl (Nat.add_le_add_left hab off)
            (fun c hc => absurd hc (List.not_mem_nil c))
            (fun c hc => absurd hc (List.not_mem_nil c))
            List.Pairwise.nil, Nat.add_le_add_left hla off,
            Nat.add_le_add_left hbh off⟩
        · exact hrec.1 n hn'
      · refine List.Pairwise.cons ?_ hrec.2
        intro n hn
        obtain ⟨a, b, nm, hmem, he⟩ :=
          mem_buildGroupChildren input off names (i + 1) rest n hn
        subst he
        simp only [PTNode.startOffset]
        have hmem' : (a, b) ∈ rest.filterMap id :=
          List.mem_filterMap.mpr ⟨some (a, b), hmem, rfl⟩
        exact Nat.add_le_add_left (hsort'.1 (a, b) hmem') off

/-- A singleton node list is well-formed when its node is. -/
theorem NodesOk_single {input : String} {lo hi : Nat} {n : PTNode}
    (hok : NodeOk input n) (hs : lo ≤ n.startOffset) (he : n.endOffset ≤ hi) :
    NodesOk input lo hi [n] := by
  constructor
  · intro m hm
    rcases List.mem_singleton.mp hm with rfl
    exact ⟨hok, hs, he⟩
  · exact List.pairwise_singleton _ _

/-- The `nodes.length > 0` packaging of the interpreter round-trips to
the plain list. -/
theorem ite_nodes_getD (ns : List PTNode) :
    (if ns.length > 0 then some ns else none).getD [] = ns := by
  by_cases h : ns.length > 0
  · rw [if_pos h]; rfl
  · rw [if_neg h]
    have : ns = [] := List.eq_nil_of_length_eq_zero (by omega)
    rw [this]; rfl

/-- The parse-tree invariants hold along every pure evaluation: a
successful node evaluation moves the cursor forward and only produces
well-formed nodes confined to the consumed span. -/
theorem evalR_c8 {g : PGrammar} {input : String} (hwf : RegexWf g)
    {conf : EConf} {out : EOut} (h : EvalR g input conf out) :
    C8Motive input conf out := by
  induction h with
  | notFound nid off hA => dsimp only [C8Motive]
  | strFailLong nid off t opt hA hlen => dsimp only [C8Motive]
  | strOk nid off t opt hA hlen hsub =>
    dsimp only [C8Motive]
    exact ⟨Nat.le_add_right _ _, NodesOk_nil input _ _⟩
  | strFailNe nid off t opt hA hlen hsub => dsimp only [C8Motive]
  | patFailEnd nid off pn rx opt hA hlen => dsimp only [C8Motive]
  | patFailNoMatch nid off pn rx opt hA hlen hex => dsimp only [C8Motive]
  | patOkPlain nid off pn rx opt m hA hlen hex hind =>
    dsimp only [C8Motive]
    exact ⟨by omega, NodesOk_nil input _ _⟩
  | patOkNamed nid off pn rx opt m gi nsn hA hlen hex hind hgr hcount =>
    dsimp only [C8Motive]
    obtain ⟨hsp, hsrt⟩ := hwf nid pn rx opt hA (jsSuffix input off) m hex gi hind
    have hch := buildGroupChildren_nodesOk input off gi.groups m.index
      (m.index + m.matchLength) 1 (gi.spans.drop 1) hsp hsrt
    refine ⟨by omega, NodesOk_single ?_ (Nat.le_add_right off m.index) (le_refl _)⟩
    refine NodeOk.intro _ _ _ _ _ rfl (by omega) ?_ ?_ ?_
    · intro c hc
      exact (hch.1 c hc).1
    · intro c hc
      have hb := hch.1 c hc
      have hb1 := hb.2.1
      have hb2 := hb.2.2
      omega
    · exact hch.2
  | patOkUnnamed nid off pn rx opt m gi hA hlen hex hind hgr =>
    dsimp only [C8Motive]
    obtain ⟨hsp, hsrt⟩ := hwf nid pn rx opt hA (jsSuffix input off) m hex gi hind
    have hch := buildGroupChildren_nodesOk input off gi.groups m.index
      (m.index + m.matchLength) 1 (gi.spans.drop 1) hsp hsrt
    refine ⟨by omega, NodesOk_single ?_ (Nat.le_add_right off m.index) (le_refl _)⟩
    refine NodeOk.intro _ _ _ _ _ rfl (by omega) ?_ ?_ ?_
    · intro c hc
      exact (hch.1 c hc).1
    · intro c hc
      have hb := hch.1 c hc
      have hb1 := hb.2.1
      have hb2 := hb.2.2
      omega
    · exact hch.2
  | patMixed nid off pn rx opt m gi nsn hA hlen hex hind hgr hcount =>
    dsimp only [C8Motive]
  | ntOk nid off nm c opt r hA hsub ih =>
    dsimp only [C8Motive] at ih ⊢
    obtain ⟨hle, hnodes⟩ := ih
    refine ⟨hle, NodesOk_single ?_ (le_refl _) (le_refl _)⟩
    exact NodeOk.intro _ _ _ _ _ rfl hle (fun c hc => (hnodes.1 c hc).1)
      (fun c hc => ⟨(hnodes.1 c hc).2.1, (hnodes.1 c hc).2.2⟩) hnodes.2
  | ntNone nid off nm c opt hA hsub ih => dsimp only [C8Motive]
  | ntErr nid off nm c opt e hA hsub ih => dsimp only [C8Motive]
  | seqDone nid off ms opt ro results hA hsub ih =>
    dsimp only [C8Motive] at ih ⊢
    obtain ⟨hle, himp⟩ := ih
    refine ⟨hle, ?_⟩
    have hflat := himp off (le_refl off) (NodesOk_nil input off off)
    rw [ite_nodes_getD]
    exact hflat
  | seqNone nid off ms opt hA hsub ih => dsimp only [C8Motive]
  | seqErr nid off ms opt e hA hsub ih => dsimp only [C8Motive]
  | repAdv nid off c opt ro ns hA hsub hadv ih =>
    dsimp only [C8Motive] at ih ⊢
    obtain ⟨hle, himp⟩ := ih
    refine ⟨hle, ?_⟩
    have hns := himp off (le_refl off) (NodesOk_nil input off off)
    rw [ite_nodes_getD]
    exact hns
  | repNoAdv nid off c opt ro ns hA hsub hadv ih => dsimp only [C8Motive]
  | repErr nid off c opt e hA hsub ih => dsimp only [C8Motive]
  | choiceStart nid off ms exh opt o hA hsub ih =>
    cases o with
    | error e => dsimp only [C8Motive]
    | ok oo =>
      cases oo with
      | none => dsimp only [C8Motive]
      | some r =>
        dsimp only [C8Motive] at ih ⊢
        exact ih (fun b hb => Option.noConfusion hb) r rfl
  | seqNil off acc =>
    dsimp only [C8Motive]
    exact ⟨le_refl off, fun lo _ hacc => hacc⟩
  | seqConsOk m rest off acc r o hm hr ihm ihr =>
    cases o with
    | error e => dsimp only [C8Motive]
    | ok oo =>
      cases oo with
      | none => dsimp only [C8Motive]
      | some q =>
        obtain ⟨ro, results⟩ := q
        dsimp only [C8Motive] at ihm ihr ⊢
        obtain ⟨hle1, hn1⟩ := ihm
        obtain ⟨hle2, himp⟩ := ihr
        refine ⟨le_trans hle1 hle2, fun lo hlo hacc => ?_⟩
        have happ := NodesOk_append hlo hle1 hacc hn1
        rw [← flattenNodes_append1] at happ
        exact himp lo (le_trans hlo hle1) happ
  | seqConsFail m rest off acc hm hopt ihm => dsimp only [C8Motive]
  | seqConsSkip m rest off acc o hm hopt hr ihm ihr =>
    cases o with
    | error e => dsimp only [C8Motive]
    | ok oo =>
      cases oo with
      | none => dsimp only [C8Motive]
      | some q =>
        obtain ⟨ro, results⟩ := q
        dsimp only [C8Motive] at ihr ⊢
        exact ihr
  | seqConsErr m rest off acc e hm ihm => dsimp only [C8Motive]
  | repStop c off ns hm ihm =>
    dsimp only [C8Motive]
    exact ⟨le_refl off, fun lo _ hns => hns⟩
  | repStep c off ns r o hm hr ihm ihr =>
    cases o with
    | error e => dsimp only [C8Motive]
    | ok q =>
      obtain ⟨ro, ns'⟩ := q
      dsimp only [C8Motive] at ihm ihr ⊢
      obtain ⟨hle1, hn1⟩ := ihm
      obtain ⟨hle2, himp⟩ := ihr
      refine ⟨le_trans hle1 hle2, fun lo hlo hns => ?_⟩
      exact himp lo (le_trans hlo hle1) (NodesOk_append hlo hle1 hns hn1)
  | repLoopErr c off ns e hm ihm => dsimp only [C8Motive]
  | chNil off exh best =>
    dsimp only [C8Motive]
    exact fun hbest r hr => hbest r hr
  | chConsNone m rest off exh best o hm hr ihm ihr =>
    cases o with
    | error e => dsimp only [C8Motive]
    | ok oo =>
      dsimp only [C8Motive] at ihr ⊢
      exact ihr
  | chConsStop m rest off best result hm hb ihm =>
    dsimp only [C8Motive] at ihm ⊢
    intro _ r hr
    injection hr with hr'
    subst hr'
    exact ihm
  | chConsBetter m rest off best result o hm hb hr ihm ihr =>
    cases o with
    | error e => dsimp only [C8Motive]
    | ok oo =>
      dsimp only [C8Motive] at ihm ihr ⊢
      intro _ r hr
      refine ihr ?_ r hr
      intro b hb'
      injection hb' with hb2
      subst hb2
      exact ihm
  | chConsWorse m rest off exh best result o hm hb hr ihm ihr =>
    cases o with
    | error e => dsimp only [C8Motive]
    | ok oo =>
      dsimp only [C8Motive] at ihr ⊢
      exact ihr
  | chConsErr m rest off exh best e hm ihm => dsimp only [C8Motive]

/-- A successful `parse` comes from a successful root evaluation whose
result carries the returned nodes. -/
theorem parse_ok_inv {g : PGrammar} {cf : Nat → Bool} {fuel : Nat}
    {input : String} {ns : List PTNode}
    (h : parse g cf fuel input = .ok ns) :
    ∃ rr st, tryParse g cf input fuel g.root 0 initialPState = .ok (some rr, st) ∧
      rr.nodes = some ns := by
  unfold parse at h
  cases ht : tryParse g cf input fuel g.root 0 initialPState with
  | out => rw [ht] at h; simp at h
  | err e => rw [ht] at h; simp at h
  | ok p =>
    obtain ⟨r, st⟩ := p
    rw [ht] at h
    cases r with
    | none => simp at h
    | some rr =>
      refine ⟨rr, st, rfl, ?_⟩
      dsimp only at h
      cases hn : rr.nodes with
      | none => rw [hn] at h; simp at h
      | some ns' =>
        rw [hn] at h
        dsimp only at h
        cases hl : ns'.getLast? with
        | none => rw [hl] at h; simp at h
        | some ln =>
          rw [hl] at h
          dsimp only at h
          by_cases he : ln.endOffset ≥ input.length
          · rw [if_pos he] at h
            injection h with h'
            rw [h']
          · rw [if_neg he] at h; simp at h

/-- C8: parse-tree invariants.  On every successful parse of a grammar
whose pattern terminals produce well-formed matches, every returned node
(and recursively every node of the tree, capture-group children
included) has `sourceText` equal to the input slice between its offsets,
contains its children within its span, and lists them in non-decreasing
start-offset order. -/
theorem c8_tree_invariants (g : PGrammar) (cf : Nat → Bool) (fuel : Nat)
    (input : String) (ns : List PTNode)
    (hwf : RegexWf g) (h : parse g cf fuel input = .ok ns) :
    (∀ n ∈ ns, NodeOk input n) ∧
    ns.Pairwise (fun a b => a.startOffset ≤ b.startOffset) := by
  obtain ⟨rr, st, ht, hn⟩ := parse_ok_inv h
  have hev := tryParse_ok_eval (coherent_initial g input) ht
  have hc8 := evalR_c8 hwf hev
  dsimp only [C8Motive] at hc8
  obtain ⟨-, hns⟩ := hc8
  rw [hn] at hns
  exact ⟨fun n hnn => (hns.1 n hnn).1, hns.2⟩

/-- C8 (witness): the invariants evaluated on the grammar `x = 'a'`
(whose pattern-terminal obligation is vacuous) parsing `"a"`. -/
theorem c8_witness :
    (∀ n ∈ [PTNode.mk "x" 0 1 "a" none], NodeOk "a" n) ∧
    ([PTNode.mk "x" 0 1 "a" none]).Pairwise
      (fun a b => a.startOffset ≤ b.startOffset) :=
  c8_tree_invariants gStr cfFalse 10 "a" [PTNode.mk "x" 0 1 "a" none]
    (by
      intro nid pn rx opt hx
      exfalso
      match nid with
      | 0 => simp [gStr, PGrammar.node?] at hx
      | 1 => simp [gStr, PGrammar.node?] at hx
      | (n + 2) => simp [gStr, PGrammar.node?, List.get?] at hx)
    rfl

/-- Under a closed grammar, the only error the interpreter itself can
raise is the mixed named/unnamed capture-group error. -/
theorem evalR_err_mixed {g : PGrammar} {input : String}
    (hcg : ClosedGrammar g) {conf : EConf} {out : EOut}
    (h : EvalR g input conf out) :
    ∀ e, ErrOf out = some e → ValidConf g conf →
      ∃ src, e = mixedGroupsMessage src := by
  induction h with
  | notFound nid off hA =>
    intro e he hv
    exfalso
    have hA' : g.nodes.get? nid = none := hA
    have hlen : g.nodes.length ≤ nid := List.get?_eq_none.mp hA'
    have hv' : nid < g.nodes.length := hv
    omega
  | strFailLong nid off t opt hA hlen => exact fun e he _ => Option.noConfusion he
  | strOk nid off t opt hA hlen hsub => exact fun e he _ => Option.noConfusion he
  | strFailNe nid off t opt hA hlen hsub => exact fun e he _ => Option.noConfusion he
  | patFailEnd nid off pn rx opt hA hlen => exact fun e he _ => Option.noConfusion he
  | patFailNoMatch nid off pn rx opt hA hlen hex =>
    exact fun e he _ => Option.noConfusion he
  | patOkPlain nid off pn rx opt m hA hlen hex hind =>
    exact fun e he _ => Option.noConfusion he
  | patOkNamed nid off pn rx opt m gi nsn hA hlen hex hind hgr hcount =>
    exact fun e he _ => Option.noConfusion he
  | patOkUnnamed nid off pn rx opt m gi hA hlen hex hind hgr =>
    exact fun e he _ => Option.noConfusion he
  | patMixed nid off pn rx opt m gi nsn hA hlen hex hind hgr hcount =>
    intro e he hv
    injection he with he'
    exact ⟨rx.source, he'.symm⟩
  | ntOk nid off nm c opt r hA hsub ih => exact fun e he _ => Option.noConfusion he
  | ntNone nid off nm c opt hA hsub ih => exact fun e he _ => Option.noConfusion he
  | ntErr nid off nm c opt e hA hsub ih =>
    intro e2 he hv
    injection he with he'
    subst he'
    exact ih e rfl (hcg.2 nid _ hA c (by simp [ChildIds]))
  | seqDone nid off ms opt ro results hA hsub ih =>
    exact fun e he _ => Option.noConfusion he
  | seqNone nid off ms opt hA hsub ih => exact fun e he _ => Option.noConfusion he
  | seqErr nid off ms opt e hA hsub ih =>
    intro e2 he hv
    injection he with he'
    subst he'
    exact ih e rfl (fun m hm => hcg.2 nid _ hA m (by simpa [ChildIds] using hm))
  | repAdv nid off c opt ro ns hA hsub hadv ih =>
    exact fun e he _ => Option.noConfusion he
  | repNoAdv nid off c opt ro ns hA hsub hadv ih =>
    exact fun e he _ => Option.noConfusion he
  | repErr nid off c opt e hA hsub ih =>
    intro e2 he hv
    injection he with he'
    subst he'
    exact ih e rfl (hcg.2 nid _ hA c (by simp [ChildIds]))
  | choiceStart nid off ms exh opt o hA hsub ih =>
    intro e he hv
    exact ih e he (fun m hm => hcg.2 nid _ hA m (by simpa [ChildIds] using hm))
  | seqNil off acc => exact fun e he _ => Option.noConfusion he
  | seqConsOk m rest off acc r o hm hr ihm ihr =>
    intro e he hv
    exact ihr e he (fun q hq => hv q (List.mem_cons_of_mem _ hq))
  | seqConsFail m rest off acc hm hopt ihm =>
    exact fun e he _ => Option.noConfusion he
  | seqConsSkip m rest off acc o hm hopt hr ihm ihr =>
    intro e he hv
    exact ihr e he (fun q hq => hv q (List.mem_cons_of_mem _ hq))
  | seqConsErr m rest off acc e hm ihm =>
    intro e2 he hv
    injection he with he'
    subst he'
    exact ihm e rfl (hv m (List.mem_cons_self _ _))
  | repStop c off ns hm ihm => exact fun e he _ => Option.noConfusion he
  | repStep c off ns r o hm hr ihm ihr =>
    intro e he hv
    exact ihr e he hv
  | repLoopErr c off ns e hm ihm =>
    intro e2 he hv
    injection he with he'
    subst he'
    exact ihm e rfl hv
  | chNil off exh best => exact fun e he _ => Option.noConfusion he
  | chConsNone m rest off exh best o hm hr ihm ihr =>
    intro e he hv
    exact ihr e he (fun q hq => hv q (List.mem_cons_of_mem _ hq))
  | chConsStop m rest off best result hm hb ihm =>
    exact fun e he _ => Option.noConfusion he
  | chConsBetter m rest off best result o hm hb hr ihm ihr =>
    intro e he hv
    exact ihr e he (fun q hq => hv q (List.mem_cons_of_mem _ hq))
  | chConsWorse m rest off exh best result o hm hb hr ihm ihr =>
    intro e he hv
    exact ihr e he (fun q hq => hv q (List.mem_cons_of_mem _ hq))
  | chConsErr m rest off exh best e hm ihm =>
    intro e2 he hv
    injection he with he'
    subst he'
    exact ihm e rfl (hv m (List.mem_cons_self _ _))

/-- A failing `parse` either re-raises an interpreter error or formats a
failure message from the final state. -/
theorem parse_err_inv {g : PGrammar} {cf : Nat → Bool} {fuel : Nat}
    {input : String} {m : String}
    (h : parse g cf fuel input = .err m) :
    (∃ e, tryParse g cf input fuel g.root 0 initialPState = .err e ∧ m = e) ∨
    (∃ r st ln, tryParse g cf input fuel g.root 0 initialPState = .ok (r, st) ∧
      m = failureMessage g input st ln) := by
  unfold parse at h
  cases ht : tryParse g cf input fuel g.root 0 initialPState with
  | out => rw [ht] at h; simp at h
  | err e =>
    rw [ht] at h
    injection h with h'
    exact Or.inl ⟨e, rfl, h'.symm⟩
  | ok p =>
    obtain ⟨r, st⟩ := p
    rw [ht] at h
    refine Or.inr ⟨r, st, ?_⟩
    cases r with
    | none =>
      refine ⟨none, rfl, ?_⟩
      injection h with h'
      exact h'.symm
    | some rr =>
      dsimp only at h
      cases hn : rr.nodes with
      | none =>
        rw [hn] at h
        refine ⟨none, rfl, ?_⟩
        injection h with h'
        exact h'.symm
      | some ns' =>
        rw [hn] at h
        dsimp only at h
        cases hl : ns'.getLast? with
        | none =>
          rw [hl] at h
          refine ⟨none, rfl, ?_⟩
          injection h with h'
          exact h'.symm
        | some ln =>
          rw [hl] at h
          dsimp only at h
          by_cases he : ln.endOffset ≥ input.length
          · rw [if_pos he] at h; simp at h
          · rw [if_neg he] at h
            refine ⟨some ln, rfl, ?_⟩
            injection h with h'
            exact h'.symm

/-- C9 (amended): on a closed grammar, every error `parse` raises is
either the interpreter's mixed named/unnamed capture-group error, or the
`Expected <list> at position <offset>` message built from a non-empty
best-failed terminal list (quoted contents for string terminals, names
for pattern terminals, deduplicated preserving first occurrence, joined
with `any of`), or the `Parsed length was <n>. Input length was <m>.`
message. -/
theorem c9_amended (g : PGrammar) (cf : Nat → Bool) (fuel : Nat)
    (input : String) (m : String) (hcg : ClosedGrammar g)
    (h : parse g cf fuel input = .err m) :
    (∃ src, m = mixedGroupsMessage src) ∨
    (∃ ts off, ts ≠ ([] : List Nat) ∧
      m = expectedMessage (possibleMatchesStringOf g ts) off) ∨
    (∃ pl, m = lengthMessage pl input.length) := by
  rcases parse_err_inv h with ⟨e, ht, hme⟩ | ⟨r, st, ln, ht, hm⟩
  · subst hme
    have hev := tryParse_err_eval (coherent_initial g input) ht
    exact Or.inl (evalR_err_mixed hcg hev m rfl hcg.1)
  · unfold failureMessage at hm
    by_cases hbf : st.bestFailedMatches.length > 0
    · rw [if_pos hbf] at hm
      refine Or.inr (Or.inl ⟨st.bestFailedMatches, st.bestFailedMatchesOffset, ?_, hm⟩)
      intro hnil
      rw [hnil] at hbf
      simp at hbf
    · rw [if_neg hbf] at hm
      exact Or.inr (Or.inr ⟨_, hm⟩)

/-- The first character of an appended string is that of its (non-empty)
left part. -/
theorem head_append_left {c : Char} (a b : String)
    (h : a.data.head? = some c) : (a ++ b).data.head? = some c := by
  obtain ⟨l⟩ := a
  obtain ⟨l2⟩ := b
  cases l with
  | nil => simp at h
  | cons x xs =>
    injection h with h'
    subst h'
    rfl

/-- C9 (counterexample): a grammar whose start production is a pattern
reporting mixed named/unnamed capture groups makes `parse` raise the
mixed-groups error — a message matching neither of the two forms the
claim allows. -/
theorem c9_counterexample :
    parse gMixed cfFalse 10 "a" = .err (mixedGroupsMessage "mx") ∧
    (∀ s o, mixedGroupsMessage "mx" ≠ expectedMessage s o) ∧
    (∀ a b, mixedGroupsMessage "mx" ≠ lengthMessage a b) := by
  refine ⟨rfl, ?_, ?_⟩
  · intro s o hne
    have hF : (expectedMessage s o).data.head? = some 'F' := by
      unfold expectedMessage
      repeat
        first
        | rfl
        | apply head_append_left
    rw [← hne] at hF
    have hT : (mixedGroupsMessage "mx").data.head? = some 'T' := rfl
    rw [hT] at hF
    exact absurd hF (by decide)
  · intro a b hne
    have hF : (lengthMessage a b).data.head? = some 'F' := by
      unfold lengthMessage
      repeat
        first
        | rfl
        | apply head_append_left
    rw [← hne] at hF
    have hT : (mixedGroupsMessage "mx").data.head? = some 'T' := rfl
    rw [hT] at hF
    exact absurd hF (by decide)

/-- C9 (witness): the amended classification evaluated on the grammar
`x = 'a'` failing on input `"b"`. -/
theorem c9_witness :
    (∃ src, "Failed parsing the input text. Expected 'a' at position 0."
      = mixedGroupsMessage src) ∨
    (∃ ts off, ts ≠ ([] : List Nat) ∧
      "Failed parsing the input text. Expected 'a' at position 0."
        = expectedMessage (possibleMatchesStringOf gStr ts) off) ∨
    (∃ pl, "Failed parsing the input text. Expected 'a' at position 0."
      = lengthMessage pl ("b" : String).length) :=
  c9_amended gStr cfFalse 10 "b"
    "Failed parsing the input text. Expected 'a' at position 0."
    (by
      constructor
      · decide
      · intro nid node hx c hc
        match nid with
        | 0 =>
          rw [show gStr.node? 0 = some ⟨.stringTerminal "a", false⟩ from rfl] at hx
          injection hx with hx'
          subst hx'
          simp [ChildIds] at hc
        | 1 =>
          rw [show gStr.node? 1 = some ⟨.nonterminal "x" 0, false⟩ from rfl] at hx
          injection hx with hx'
          subst hx'
          simp [ChildIds] at hc
          subst hc
          decide
        | (n + 2) =>
          rw [show gStr.node? (n + 2) = none from rfl] at hx
          exact Option.noConfusion hx)
    rfl

/-- Appending a node appends its id (if any) to the assigned-id list. -/
theorem assignedIds_append (st : BStore) (nd : BNode) :
    assignedIds (st ++ [nd]) = assignedIds st ++ nd.uniqueId.toList := by
  simp [assignedIds, List.filterMap_append]
  cases h : nd.uniqueId <;> simp [h]

/-- Appending a node with the next fresh id extends an exact id range. -/
theorem idsExact_append (st : BStore) (ctr : Nat) (k : BKind) (opt : Bool)
    (h : IdsExact st ctr) : IdsExact (st ++ [⟨k, opt, some ctr⟩]) (ctr + 1) := by
  intro id
  rw [assignedIds_append, List.count_append, h id]
  simp only [Option.toList, List.count_cons, List.count_nil, beq_iff_eq]
  rcases Nat.lt_trichotomy id ctr with hc | hc | hc
  · rw [if_pos hc, if_neg (by omega), if_pos (by omega)]
  · rw [if_neg (by omega), if_pos (by omega), if_pos (by omega)]
  · rw [if_neg (by omega), if_neg (by omega), if_neg (by omega)]

/-- Assigning a fresh id to a node that had none adds one occurrence of
that id to the store's id counts. -/
theorem assignedIds_set_assign (st : BStore) (tid : Nat) (nd : BNode) (k : BKind)
    (opt : Bool) (c : Nat) (hget : st.get? tid = some nd) (hnone : nd.uniqueId = none) :
    ∀ id, (assignedIds (st.set tid ⟨k, opt, some c⟩)).count id
      = (assignedIds st).count id + (if id = c then 1 else 0) := by
  induction st generalizing tid with
  | nil => simp at hget
  | cons hd tl ih =>
    cases tid with
    | zero =>
      injection hget with h
      subst h
      intro id
      simp only [List.set, assignedIds, List.filterMap_cons, hnone, List.count_cons, beq_iff_eq]
      by_cases hic : id = c
      · subst hic
        simp
      · rw [if_neg (fun hh => hic hh.symm), if_neg hic]
    | succ t =>
      intro id
      have hrec := ih t (by simpa using hget) id
      simp only [assignedIds] at hrec
      simp only [List.set, assignedIds, List.filterMap_cons]
      cases hu : hd.uniqueId with
      | none => simpa using hrec
      | some u =>
        simp only [List.count_cons, hrec]
        omega

/-- Replacing a node while keeping its unique id keeps the assigned-id
list unchanged. -/
theorem assignedIds_set_same (st : BStore) (tid : Nat) (nd : BNode) (k : BKind)
    (opt : Bool) (hget : st.get? tid = some nd) :
    assignedIds (st.set tid ⟨k, opt, nd.uniqueId⟩) = assignedIds st := by
  induction st generalizing tid with
  | nil => simp at hget
  | cons hd tl ih =>
    cases tid with
    | zero =>
      injection hget with h
      subst h
      simp only [List.set, assignedIds, List.filterMap_cons]
    | succ t =>
      have hrec := ih t (by simpa using hget)
      simp only [assignedIds] at hrec
      simp only [List.set, assignedIds, List.filterMap_cons]
      cases hu : hd.uniqueId <;> simp [hu, hrec]

/-- `setContent` does not change the assigned ids. -/
theorem assignedIds_setContent (st : BStore) (i cid : Nat) :
    assignedIds (setContent st i cid) = assignedIds st := by
  unfold setContent
  cases hget : st.get? i with
  | none => dsimp only
  | some nd =>
    dsimp only
    cases hk : nd.kind with
    | nt nm c =>
      dsimp only
      exact assignedIds_set_same st i nd (.nt nm cid) nd.optional hget
    | stringT s => dsimp only
    | patternT s => dsimp only
    | seq ms => dsimp only
    | choice ms e => dsimp only
    | rep c => dsimp only

/-- `applyResolved` (which only rewrites `optional` flags) does not
change the assigned ids. -/
theorem assignedIds_applyResolved (st : BStore) (R : List (Nat × Bool)) :
    assignedIds (applyResolved st R) = assignedIds st := by
  induction R generalizing st with
  | nil => rfl
  | cons e rest ih =>
    obtain ⟨n, b⟩ := e
    have hstep : applyResolved st ((n, b) :: rest)
        = applyResolved (match st.get? n with
            | some nd => st.set n ⟨nd.kind, b, nd.uniqueId⟩
            | none => st) rest := rfl
    rw [hstep, ih]
    cases hget : st.get? n with
    | none => dsimp only
    | some nd =>
      dsimp only
      exact assignedIds_set_same st n nd nd.kind b hget

/-- The unique id at any position survives `setContent`. -/
theorem setContent_uid (st : BStore) (i cid j : Nat) :
    ((setContent st i cid).get? j).map (fun nd => nd.uniqueId)
      = (st.get? j).map (fun nd => nd.uniqueId) := by
  unfold setContent
  cases hget : st.get? i with
  | none => dsimp only
  | some nd =>
    dsimp only
    cases hk : nd.kind with
    | nt nm c =>
      dsimp only
      by_cases hij : j = i
      · subst hij
        rw [List.get?_set_eq, hget]
        rfl
      · rw [List.get?_set_ne _ _ (fun h => hij h.symm)]
    | stringT s => dsimp only
    | patternT s => dsimp only
    | seq ms => dsimp only
    | choice ms e => dsimp only
    | rep c => dsimp only

/-- The unique id at any position survives `applyResolved`. -/
theorem applyResolved_uid (st : BStore) (R : List (Nat × Bool)) (j : Nat) :
    ((applyResolved st R).get? j).map (fun nd => nd.uniqueId)
      = (st.get? j).map (fun nd => nd.uniqueId) := by
  induction R generalizing st with
  | nil => rfl
  | cons e rest ih =>
    obtain ⟨n, b⟩ := e
    have hstep : applyResolved st ((n, b) :: rest)
        = applyResolved (match st.get? n with
            | some nd => st.set n ⟨nd.kind, b, nd.uniqueId⟩
            | none => st) rest := rfl
    rw [hstep, ih]
    cases hget : st.get? n with
    | none => dsimp only
    | some nd =>
      dsimp only
      by_cases hj : j = n
      · subst hj
        rw [List.get?_set_eq, hget]
        rfl
      · rw [List.get?_set_ne _ _ (fun h => hj h.symm)]

/-- `SuffixIds` transfers along position-wise equal unique ids. -/
theorem suffixIds_congr (st st2 : BStore) (P : Nat)
    (h : ∀ j, (st2.get? j).map (fun nd => nd.uniqueId)
        = (st.get? j).map (fun nd => nd.uniqueId))
    (hs : SuffixIds st P) : SuffixIds st2 P := by
  intro i nd hi hget
  have hj := h i
  rw [hget] at hj
  cases hh : st.get? i with
  | none => rw [hh] at hj; simp at hj
  | some nd0 =>
    rw [hh] at hj
    simp at hj
    rw [hj]
    exact hs i nd0 hi hh

/-- Appending an id-carrying node preserves `SuffixIds`. -/
theorem suffixIds_append (st : BStore) (P : Nat) (nd : BNode)
    (hnd : nd.uniqueId ≠ none) (h : SuffixIds st P) : SuffixIds (st ++ [nd]) P := by
  intro i nd2 hi hget
  by_cases hlt : i < st.length
  · rw [List.get?_append hlt] at hget
    exact h i nd2 hi hget
  · rw [List.get?_append_right (by omega)] at hget
    cases hd : i - st.length with
    | zero => rw [hd] at hget; injection hget with hh; rw [← hh]; exact hnd
    | succ t => rw [hd] at hget; simp [List.get?] at hget

/-- Range-count arithmetic: adding one occurrence of the next id extends
an exact range by one. -/
theorem ifRange_add (id ctr : Nat) :
    ((if id < ctr then (1 : Nat) else 0) + if id = ctr then 1 else 0)
      = if id < ctr + 1 then 1 else 0 := by
  rcases Nat.lt_trichotomy id ctr with hc | hc | hc
  · rw [if_pos hc, if_neg (by omega), if_pos (by omega)]
  · rw [if_neg (by omega), if_pos (by omega), if_pos (by omega)]
  · rw [if_neg (by omega), if_neg (by omega), if_neg (by omega)]

mutual
/-- `prepare` preserves the exact id range (extending it by the ids it
assigns) and the property that non-wrapper nodes carry ids. -/
theorem prepare_inv (P : Nat) (t : GETree) (st : BStore) (ctr : Nat)
    (st2 : BStore) (ctr2 nid : Nat)
    (h : prepare P t st ctr = .ok (st2, ctr2, nid))
    (hids : IdsExact st ctr) (hsuf : SuffixIds st P) :
    IdsExact st2 ctr2 ∧ SuffixIds st2 P := by
  cases t with
  | stringT scon opt =>
    simp only [prepare] at h
    injection h with h
    injection h with hA h
    injection h with hB hC
    subst hA
    subst hB
    exact ⟨idsExact_append st ctr (.stringT scon) opt hids,
      suffixIds_append st P _ (by simp) hsuf⟩
  | patternT pnm opt =>
    simp only [prepare] at h
    injection h with h
    injection h with hA h
    injection h with hB hC
    subst hA
    subst hB
    exact ⟨idsExact_append st ctr (.patternT pnm) opt hids,
      suffixIds_append st P _ (by simp) hsuf⟩
  | rep c opt =>
    simp only [prepare] at h
    cases hc : prepare P c st ctr with
    | error e =>
      rw [hc] at h
      simp [Bind.bind, Except.bind] at h
    | ok trip =>
      obtain ⟨st1, ctr1, cid⟩ := trip
      rw [hc] at h
      simp only [Bind.bind, Except.bind] at h
      obtain ⟨hA, hB⟩ := prepare_inv P c st ctr st1 ctr1 cid hc hids hsuf
      injection h with h
      injection h with h1 h
      injection h with h2 h3
      subst h1
      subst h2
      exact ⟨idsExact_append st1 ctr1 (.rep cid) opt hA,
        suffixIds_append st1 P _ (by simp) hB⟩
  | seq ms opt =>
    simp only [prepare] at h
    cases hc : prepareMembers P ms st ctr with
    | error e =>
      rw [hc] at h
      simp [Bind.bind, Except.bind] at h
    | ok trip =>
      obtain ⟨st1, ctr1, mids⟩ := trip
      rw [hc] at h
      simp only [Bind.bind, Except.bind] at h
      obtain ⟨hA, hB⟩ := prepareMembers_inv P ms st ctr st1 ctr1 mids hc hids hsuf
      injection h with h
      injection h with h1 h
      injection h with h2 h3
      subst h1
      subst h2
      exact ⟨idsExact_append st1 ctr1 (.seq mids) opt hA,
        suffixIds_append st1 P _ (by simp) hB⟩
  | choice ms exh opt =>
    simp only [prepare] at h
    cases hc : prepareMembers P ms st ctr with
    | error e =>
      rw [hc] at h
      simp [Bind.bind, Except.bind] at h
    | ok trip =>
      obtain ⟨st1, ctr1, mids⟩ := trip
      rw [hc] at h
      simp only [Bind.bind, Except.bind] at h
      obtain ⟨hA, hB⟩ := prepareMembers_inv P ms st ctr st1 ctr1 mids hc hids hsuf
      injection h with h
      injection h with h1 h
      injection h with h2 h3
      subst h1
      subst h2
      exact ⟨idsExact_append st1 ctr1 (.choice mids exh) opt hA,
        suffixIds_append st1 P _ (by simp) hB⟩
  | ntRef f opt =>
    simp only [prepare] at h
    by_cases hf : f < P
    · rw [if_pos hf] at h
      have htid : (if opt then P + f else f) < 2 * P := by
        cases opt <;> simp <;> omega
      cases hg : st.get? (if opt then P + f else f) with
      | none =>
        rw [hg] at h
        injection h with h
        injection h with h1 h
        injection h with h2 h3
        subst h1
        subst h2
        exact ⟨hids, hsuf⟩
      | some nd =>
        rw [hg] at h
        dsimp only at h
        cases hu : nd.uniqueId with
        | none =>
          rw [hu] at h
          dsimp only at h
          injection h with h
          injection h with h1 h
          injection h with h2 h3
          subst h1
          subst h2
          constructor
          · intro id
            rw [assignedIds_set_assign st _ nd nd.kind nd.optional ctr hg hu id,
              hids id, ifRange_add]
          · intro i nd2 hi hget2
            rw [List.get?_set_ne _ _ (by omega)] at hget2
            exact hsuf i nd2 hi hget2
        | some u =>
          rw [hu] at h
          dsimp only at h
          injection h with h
          injection h with h1 h
          injection h with h2 h3
          subst h1
          subst h2
          exact ⟨hids, hsuf⟩
    · rw [if_neg hf] at h
      exact absurd h (by simp)
termination_by sizeOf t

/-- `prepareMembers` preserves the same invariants. -/
theorem prepareMembers_inv (P : Nat) (ts : List GETree) (st : BStore) (ctr : Nat)
    (st2 : BStore) (ctr2 : Nat) (tids : List Nat)
    (h : prepareMembers P ts st ctr = .ok (st2, ctr2, tids))
    (hids : IdsExact st ctr) (hsuf : SuffixIds st P) :
    IdsExact st2 ctr2 ∧ SuffixIds st2 P := by
  cases ts with
  | nil =>
    simp only [prepareMembers] at h
    injection h with h
    injection h with h1 h
    injection h with h2 h3
    subst h1
    subst h2
    exact ⟨hids, hsuf⟩
  | cons t ts2 =>
    simp only [prepareMembers] at h
    cases hc : prepare P t st ctr with
    | error e =>
      rw [hc] at h
      simp [Bind.bind, Except.bind] at h
    | ok trip =>
      obtain ⟨st1, ctr1, tid⟩ := trip
      rw [hc] at h
      simp only [Bind.bind, Except.bind] at h
      obtain ⟨hA, hB⟩ := prepare_inv P t st ctr st1 ctr1 tid hc hids hsuf
      cases hc2 : prepareMembers P ts2 st1 ctr1 with
      | error e =>
        rw [hc2] at h
        simp [Bind.bind, Except.bind] at h
      | ok trip2 =>
        obtain ⟨st3, ctr3, tids3⟩ := trip2
        rw [hc2] at h
        simp only [Bind.bind, Except.bind] at h
        obtain ⟨hA2, hB2⟩ := prepareMembers_inv P ts2 st1 ctr1 st3 ctr3 tids3 hc2 hA hB
        injection h with h
        injection h with h1 h
        injection h with h2 h3
        subst h1
        subst h2
        exact ⟨hA2, hB2⟩
termination_by sizeOf ts
end

/-- `buildLoop` preserves the id invariants: prepared content extends the
exact range, content rewiring never touches ids. -/
theorem buildLoop_inv (P : Nat) (items : List (Nat × GETree)) (st : BStore) (ctr : Nat)
    (st2 : BStore) (ctr2 : Nat) (h : buildLoop P items st ctr = .ok (st2, ctr2))
    (hids : IdsExact st ctr) (hsuf : SuffixIds st P) :
    IdsExact st2 ctr2 ∧ SuffixIds st2 P := by
  induction items generalizing st ctr with
  | nil =>
    simp only [buildLoop] at h
    injection h with h
    injection h with h1 h2
    subst h1
    subst h2
    exact ⟨hids, hsuf⟩
  | cons it rest ih =>
    obtain ⟨i, t⟩ := it
    simp only [buildLoop] at h
    cases hc : prepare P t st ctr with
    | error e =>
      rw [hc] at h
      simp [Bind.bind, Except.bind] at h
    | ok trip =>
      obtain ⟨st1, ctr1, cid⟩ := trip
      rw [hc] at h
      simp only [Bind.bind, Except.bind] at h
      obtain ⟨hA, hB⟩ := prepare_inv P t st ctr st1 ctr1 cid hc hids hsuf
      refine ih _ _ h ?_ ?_
      · intro id
        rw [show assignedIds (setContent (setContent st1 i cid) (P + i) cid)
            = assignedIds st1 from by rw [assignedIds_setContent, assignedIds_setContent]]
        exact hA id
      · exact suffixIds_congr st1 _ P
          (fun j => by rw [setContent_uid, setContent_uid]) hB

/-- The initial wrapper store assigns no ids. -/
theorem initStore_idsExact (names : List String) :
    IdsExact ((names.map fun nm => (⟨.nt nm 0, false, none⟩ : BNode))
      ++ (names.map fun nm => (⟨.nt nm 0, true, none⟩ : BNode))) 0 := by
  intro id
  rw [if_neg (by omega)]
  rw [show assignedIds ((names.map fun nm => (⟨.nt nm 0, false, none⟩ : BNode))
      ++ (names.map fun nm => (⟨.nt nm 0, true, none⟩ : BNode))) = [] from by
    simp [assignedIds, List.filterMap_append, List.filterMap_map, Function.comp]]
  rfl

/-- The initial wrapper store has no nodes beyond the wrappers. -/
theorem initStore_suffix (names : List String) :
    SuffixIds ((names.map fun nm => (⟨.nt nm 0, false, none⟩ : BNode))
      ++ (names.map fun nm => (⟨.nt nm 0, true, none⟩ : BNode))) names.length := by
  intro i nd hi hget
  have hnone : ((names.map fun nm => (⟨.nt nm 0, false, none⟩ : BNode))
      ++ (names.map fun nm => (⟨.nt nm 0, true, none⟩ : BNode))).get? i = none := by
    apply List.get?_eq_none.mpr
    simp only [List.length_append, List.length_map]
    omega
  rw [hget] at hnone
  exact Option.noConfusion hnone

/-- C3 (counterexample): in the grammar `{ x: () => ['a'] }` built with
start production `x`, the root nonterminal node — reachable by definition
— ends with no `uniqueId` assigned, although `maxElementId = 2`; so it is
not the case that every node reachable from the root element has a unique
id. -/
theorem c3_counterexample :
    ∃ bg, buildGrammar c3gd "x" 20 = .ok bg ∧ bg.root = 0 ∧
      bg.store.get? bg.root = some ⟨.nt "x" 3, false, none⟩ ∧
      bg.maxElementId = 2 :=
  ⟨_, rfl, rfl, rfl, rfl⟩

/-- C3 (amended): after a successful `buildGrammar`, the multiset of
unique ids assigned across the store is exactly the contiguous range
`[0, maxElementId)`, each id on exactly one node; and every node other
than the `2 * P` nonterminal wrapper objects carries a unique id (a
wrapper itself is assigned an id only when first referenced, so in
particular an unreferenced start production's wrapper has none). -/
theorem c3_amended (gd : BGrammarDef) (startName : String) (fuel : Nat)
    (bg : BuiltGrammar) (h : buildGrammar gd startName fuel = .ok bg) :
    (∀ id, (assignedIds bg.store).count id
        = if id < bg.maxElementId then 1 else 0) ∧
    (∀ i nd, 2 * gd.prods.length ≤ i → bg.store.get? i = some nd →
        nd.uniqueId ≠ none) := by
  unfold buildGrammar at h
  cases hp : productionsToGrammarElements (gd.prods.map fun p => p.2) with
  | error e => rw [hp] at h; exact absurd h (by simp)
  | ok trees =>
    rw [hp] at h
    dsimp only at h
    cases hb : buildLoop gd.prods.length trees.enum
        ((List.map (fun nm => (⟨.nt nm 0, false, none⟩ : BNode)) (gd.prods.map fun p => p.1))
          ++ (List.map (fun nm => (⟨.nt nm 0, true, none⟩ : BNode)) (gd.prods.map fun p => p.1))) 0 with
    | error e => rw [hb] at h; exact absurd h (by simp)
    | ok pair =>
      obtain ⟨st, ctr⟩ := pair
      rw [hb] at h
      dsimp only at h
      have hinv := buildLoop_inv _ _ _ _ _ _ hb
        (initStore_idsExact (gd.prods.map fun p => p.1))
        (by
          have := initStore_suffix (gd.prods.map fun p => p.1)
          simpa using this)
      cases hfi : (gd.prods.map fun p => p.1).findIdx? (fun nm => nm == startName) with
      | none => rw [hfi] at h; exact absurd h (by simp)
      | some sidx =>
        rw [hfi] at h
        dsimp only at h
        cases ha : detectAndAnnotateOptionalNodes st sidx fuel with
        | none => rw [ha] at h; exact absurd h (by simp)
        | some st3 =>
          rw [ha] at h
          dsimp only at h
          cases hd : detectAndErrorOnLeftRecursion st3 sidx fuel with
          | out => rw [hd] at h; exact absurd h (by simp)
          | err e => rw [hd] at h; exact absurd h (by simp)
          | ok u =>
            rw [hd] at h
            dsimp only at h
            injection h with h
            subst h
            unfold detectAndAnnotateOptionalNodes at ha
            cases ha2 : annotateOptional st sidx fuel with
            | none => rw [ha2] at ha; exact absurd ha (by simp)
            | some pr =>
              obtain ⟨st4, RF⟩ := pr
              rw [ha2] at ha
              dsimp only [Option.map] at ha
              injection ha with ha
              unfold annotateOptional at ha2
              cases hpd : processDepthFirst st fuel sidx emptyOptState with
              | none => rw [hpd] at ha2; exact absurd ha2 (by simp)
              | some pr2 =>
                obtain ⟨sst, rv⟩ := pr2
                rw [hpd] at ha2
                dsimp only at ha2
                cases hel : elimLoop fuel sst.unresolved sst.resolved with
                | none => rw [hel] at ha2; exact absurd ha2 (by simp)
                | some RF2 =>
                  rw [hel] at ha2
                  dsimp only at ha2
                  injection ha2 with ha2
                  injection ha2 with haL haR
                  subst haR
                  rw [← haL] at ha
                  subst ha
                  constructor
                  · intro id
                    rw [show assignedIds (applyResolved st RF2)
                        = assignedIds st from assignedIds_applyResolved st RF2]
                    exact hinv.1 id
                  · refine suffixIds_congr st _ gd.prods.length
                      (fun j => applyResolved_uid st RF2 j) ?_
                    simpa using hinv.2

/-- C3 (witness): the amended invariant evaluated on the concrete build
of `{ x: () => ['a'] }`. -/
theorem c3_amended_witness :
    (∀ id, (assignedIds ([⟨.nt "x" 3, false, none⟩, ⟨.nt "x" 3, true, none⟩,
        ⟨.stringT "a", false, some 0⟩, ⟨.seq [2], false, some 1⟩] : BStore)).count id
        = if id < 2 then 1 else 0) ∧
    (∀ i nd, 2 * c3gd.prods.length ≤ i →
        ([⟨.nt "x" 3, false, none⟩, ⟨.nt "x" 3, true, none⟩,
          ⟨.stringT "a", false, some 0⟩, ⟨.seq [2], false, some 1⟩] : BStore).get? i = some nd →
        nd.uniqueId ≠ none) :=
  c3_amended c3gd "x" 20
    ⟨[⟨.nt "x" 3, false, none⟩, ⟨.nt "x" 3, true, none⟩,
      ⟨.stringT "a", false, some 0⟩, ⟨.seq [2], false, some 1⟩], 0, 2⟩ rfl

/-- A walk can be extended by one edge at its end. -/
theorem walk_snoc {st : BStore} {a : Nat} {l : List Nat} {b c : Nat}
    (h : EdgeWalk st a l b) (he : LMEdge st b c) : EdgeWalk st a (l ++ [c]) c := by
  induction h with
  | refl n => exact .step n c [] c he (.refl c)
  | step n m l2 e hedge hw ih => exact .step n m _ c hedge (ih he)

/-- Two walks compose. -/
theorem walk_append {st : BStore} {a : Nat} {l1 : List Nat} {b : Nat}
    {l2 : List Nat} {c : Nat} (h1 : EdgeWalk st a l1 b) (h2 : EdgeWalk st b l2 c) :
    EdgeWalk st a (l1 ++ l2) c := by
  induction h1 with
  | refl n => exact h2
  | step n m l3 e hedge hw ih => exact .step n m _ c hedge (ih h2)

/-- The end of a walk is among its nodes. -/
theorem walk_end_mem {st : BStore} {a : Nat} {l : List Nat} {b : Nat}
    (h : EdgeWalk st a l b) : b ∈ a :: l := by
  induction h with
  | refl n => exact List.mem_cons_self n []
  | step n m l2 e hedge hw ih => exact List.mem_cons_of_mem n ih

/-- From any node on a walk there is a walk to the end whose node list is
a sublist of the original one. -/
theorem walk_from_mem {st : BStore} {a : Nat} {l : List Nat} {b : Nat}
    (h : EdgeWalk st a l b) : ∀ x ∈ a :: l, ∃ lx, EdgeWalk st x lx b ∧
      (x :: lx).Sublist (a :: l) := by
  induction h with
  | refl n =>
    intro x hx
    rw [List.mem_singleton] at hx
    subst hx
    exact ⟨[], .refl x, List.Sublist.refl _⟩
  | step n m l2 e hedge hw ih =>
    intro x hx
    rcases List.mem_cons.mp hx with hx | hx
    · subst hx
      exact ⟨m :: l2, .step x m l2 e hedge hw, List.Sublist.refl _⟩
    · obtain ⟨lx, hwx, hsub⟩ := ih x hx
      exact ⟨lx, hwx, hsub.trans (List.sublist_cons_self n (m :: l2))⟩

/-- Any walk shortens to a duplicate-free walk with the same endpoints. -/
theorem walk_shorten {st : BStore} {a : Nat} {l : List Nat} {b : Nat}
    (h : EdgeWalk st a l b) : ∃ l2, EdgeWalk st a l2 b ∧ (a :: l2).Nodup := by
  induction h with
  | refl n => exact ⟨[], .refl n, List.nodup_singleton n⟩
  | step n m l2 e hedge hw ih =>
    obtain ⟨l3, hw3, hnd3⟩ := ih
    by_cases hn : n ∈ m :: l3
    · obtain ⟨lx, hwx, hsub⟩ := walk_from_mem hw3 n hn
      exact ⟨lx, hwx, hsub.nodup hnd3⟩
    · exact ⟨m :: l3, .step n m l3 e hedge hw3, List.nodup_cons.mpr ⟨hn, hnd3⟩⟩

/-- Every edge source is a valid store index. -/
theorem edge_src_lt {st : BStore} {n m : Nat} (h : LMEdge st n m) : n < st.length := by
  cases h with
  | nt nm nd hg hk => exact (List.get?_eq_some.mp hg).1
  | rep nd hg hk => exact (List.get?_eq_some.mp hg).1
  | seq ms nd hg hk hm => exact (List.get?_eq_some.mp hg).1
  | choice ms exh nd hg hk hm => exact (List.get?_eq_some.mp hg).1

/-- Every node of a walk is a valid store index or the walk's end. -/
theorem walk_nodes_lt {st : BStore} {a : Nat} {l : List Nat} {b : Nat}
    (h : EdgeWalk st a l b) : ∀ x ∈ a :: l, x < st.length ∨ x = b := by
  induction h with
  | refl n =>
    intro x hx
    rw [List.mem_singleton] at hx
    exact Or.inr hx
  | step n m l2 e hedge hw ih =>
    intro x hx
    rcases List.mem_cons.mp hx with hx | hx
    · subst hx
      exact Or.inl (edge_src_lt hedge)
    · exact ih x hx

/-- A duplicate-free walk has at most `st.length` nodes after the start. -/
theorem walk_nodup_length {st : BStore} {a : Nat} {l : List Nat} {b : Nat}
    (h : EdgeWalk st a l b) (hnd : (a :: l).Nodup) : l.length ≤ st.length := by
  have hsub : (a :: l).toFinset ⊆ Finset.range st.length ∪ {b} := by
    intro x hx
    rw [List.mem_toFinset] at hx
    rcases walk_nodes_lt h x hx with hlt | heq
    · exact Finset.mem_union_left _ (Finset.mem_range.mpr hlt)
    · exact Finset.mem_union_right _ (by simp [heq])
  have hcard : (a :: l).toFinset.card ≤ st.length + 1 := by
    calc (a :: l).toFinset.card ≤ (Finset.range st.length ∪ {b}).card :=
          Finset.card_le_card hsub
      _ ≤ (Finset.range st.length).card + ({b} : Finset Nat).card :=
          Finset.card_union_le _ _
      _ = st.length + 1 := by rw [Finset.card_range, Finset.card_singleton]
  rw [List.toFinset_card_of_nodup hnd] at hcard
  simpa using hcard

/-- The detector's path reaches the current node from the root. -/
theorem stackOK_reach (st : BStore) (root : Nat) :
    ∀ path n, StackOK st root path n → LMReach st root n := by
  intro path
  induction path with
  | nil =>
    intro n h
    rw [show n = root from h]
    exact ⟨[], .refl root⟩
  | cons q qs ih =>
    intro n h
    obtain ⟨hedge, hs⟩ := h
    obtain ⟨l, hw⟩ := ih q hs
    exact ⟨l ++ [n], walk_snoc hw hedge⟩

/-- Every node on the detector's path has a nonempty leftmost walk down
to the current node. -/
theorem stackOK_cycle_to (st : BStore) (root : Nat) :
    ∀ path n, StackOK st root path n → ∀ q ∈ path,
      ∃ m l, LMEdge st q m ∧ EdgeWalk st m l n := by
  intro path
  induction path with
  | nil => intro n h q hq; simp at hq
  | cons q0 qs ih =>
    intro n h q hq
    obtain ⟨hedge, hs⟩ := h
    rcases List.mem_cons.mp hq with hq | hq
    · subst hq
      exact ⟨n, [], hedge, .refl n⟩
    · obtain ⟨m, l, he2, hw2⟩ := ih q0 hs q hq
      exact ⟨m, l ++ [n], he2, walk_snoc hw2 hedge⟩

/-- If the sequence member loop raises, the raise comes from a member in
the leftmost part, called on the extended path. -/
theorem detectSeqLoop_sound (st : BStore) (step : Nat → List Nat → PRes Unit)
    (root n : Nat) (path : List Nat) (hs : StackOK st root path n)
    (hstep : ∀ m e, StackOK st root (n :: path) m → step m (n :: path) = .err e →
      ∃ c, LMReach st root c ∧ LMCycle st c) :
    ∀ ms e, (∀ m, SeqPrefixMem st ms m → LMEdge st n m) →
      detectSeqLoop st step ms (n :: path) = .err e →
      ∃ c, LMReach st root c ∧ LMCycle st c := by
  intro ms
  induction ms with
  | nil => intro e hpre h; simp [detectSeqLoop] at h
  | cons m rest ih =>
    intro e hpre h
    simp only [detectSeqLoop] at h
    cases hm : step m (n :: path) with
    | out => rw [hm] at h; exact absurd h (by simp)
    | err e2 =>
      rw [hm] at h
      injection h with h2
      subst h2
      exact hstep m e2 ⟨hpre m (.head m rest), hs⟩ hm
    | ok u =>
      rw [hm] at h
      dsimp only at h
      cases hg : st.get? m with
      | none => rw [hg] at h; exact absurd h (by simp)
      | some nd =>
        rw [hg] at h
        dsimp only at h
        cases ho : nd.optional with
        | true =>
          rw [ho, if_pos rfl] at h
          exact ih e (fun m2 hm2 => hpre m2 (.tail m rest m2 ⟨nd, hg, ho⟩ hm2)) h
        | false =>
          rw [ho, if_neg (fun hh => Bool.noConfusion hh)] at h
          exact absurd h (by simp)

/-- If the choice member loop raises, the raise comes from a member,
called on the extended path. -/
theorem detectChoiceLoop_sound (st : BStore) (step : Nat → List Nat → PRes Unit)
    (root n : Nat) (path : List Nat) (hs : StackOK st root path n)
    (hstep : ∀ m e, StackOK st root (n :: path) m → step m (n :: path) = .err e →
      ∃ c, LMReach st root c ∧ LMCycle st c) :
    ∀ ms e, (∀ m ∈ ms, LMEdge st n m) →
      detectChoiceLoop step ms (n :: path) = .err e →
      ∃ c, LMReach st root c ∧ LMCycle st c := by
  intro ms
  induction ms with
  | nil => intro e hpre h; simp [detectChoiceLoop] at h
  | cons m rest ih =>
    intro e hpre h
    simp only [detectChoiceLoop] at h
    cases hm : step m (n :: path) with
    | out => rw [hm] at h; exact absurd h (by simp)
    | err e2 =>
      rw [hm] at h
      injection h with h2
      subst h2
      exact hstep m e2 ⟨hpre m (List.mem_cons_self _ _), hs⟩ hm
    | ok u =>
      rw [hm] at h
      dsimp only at h
      exact ih e (fun m2 hm2 => hpre m2 (List.mem_cons_of_mem _ hm2)) h

/-- Soundness of `detect`: a raise means a leftmost cycle is reachable
from the root. -/
theorem detect_sound (st : BStore) : ∀ fuel nid path root e,
    StackOK st root path nid → detect st fuel nid path = .err e →
    ∃ c, LMReach st root c ∧ LMCycle st c := by
  intro fuel
  induction fuel with
  | zero => intro nid path root e hs h; simp [detect] at h
  | succ fuel ih =>
    intro nid path root e hs h
    simp only [detect] at h
    cases hin : path.contains nid with
    | true =>
      have hmem : nid ∈ path := by simpa using hin
      obtain ⟨m, l, hedge, hwalk⟩ := stackOK_cycle_to st root path nid hs nid hmem
      exact ⟨nid, stackOK_reach st root path nid hs, m, l, hedge, hwalk⟩
    | false =>
      rw [hin, if_neg (fun hh => Bool.noConfusion hh)] at h
      cases hg : st.get? nid with
      | none => rw [hg] at h; exact absurd h (by simp)
      | some nd =>
        rw [hg] at h
        dsimp only at h
        cases hk : nd.kind with
        | stringT s2 => rw [hk] at h; exact absurd h (by simp)
        | patternT s2 => rw [hk] at h; exact absurd h (by simp)
        | nt nm c =>
          rw [hk] at h
          dsimp only at h
          exact ih c (nid :: path) root e ⟨.nt nid c nm nd hg hk, hs⟩ h
        | rep c =>
          rw [hk] at h
          dsimp only at h
          exact ih c (nid :: path) root e ⟨.rep nid c nd hg hk, hs⟩ h
        | seq ms =>
          rw [hk] at h
          dsimp only at h
          exact detectSeqLoop_sound st (detect st fuel) root nid path hs
            (fun m e2 hsk hm => ih m (nid :: path) root e2 hsk hm) ms e
            (fun m hm => .seq nid m ms nd hg hk hm) h
        | choice ms exh =>
          rw [hk] at h
          dsimp only at h
          exact detectChoiceLoop_sound st (detect st fuel) root nid path hs
            (fun m e2 hsk hm => ih m (nid :: path) root e2 hsk hm) ms e
            (fun m hm => .choice nid m ms exh nd hg hk hm) h

/-- A successful sequence member loop succeeded on every leftmost member. -/
theorem detectSeqLoop_ok (st : BStore) (step : Nat → List Nat → PRes Unit) :
    ∀ ms path, detectSeqLoop st step ms path = .ok () →
      ∀ m, SeqPrefixMem st ms m → step m path = .ok () := by
  intro ms
  induction ms with
  | nil => intro path h m hm; cases hm
  | cons m0 rest ih =>
    intro path h m hm
    simp only [detectSeqLoop] at h
    cases hc : step m0 path with
    | out => rw [hc] at h; exact absurd h (by simp)
    | err e => rw [hc] at h; exact absurd h (by simp)
    | ok u =>
      rw [hc] at h
      dsimp only at h
      cases hm with
      | head => cases u; exact hc
      | tail =>
        rename_i hopt hm2
        obtain ⟨nd, hgm, hom⟩ := hopt
        rw [hgm] at h
        dsimp only at h
        rw [hom, if_pos rfl] at h
        exact ih path h m hm2

/-- A successful choice member loop succeeded on every member. -/
theorem detectChoiceLoop_ok (step : Nat → List Nat → PRes Unit) :
    ∀ ms path, detectChoiceLoop step ms path = .ok () →
      ∀ m ∈ ms, step m path = .ok () := by
  intro ms
  induction ms with
  | nil => intro path h m hm; cases hm
  | cons m0 rest ih =>
    intro path h m hm
    simp only [detectChoiceLoop] at h
    cases hc : step m0 path with
    | out => rw [hc] at h; exact absurd h (by simp)
    | err e => rw [hc] at h; exact absurd h (by simp)
    | ok u =>
      rw [hc] at h
      dsimp only at h
      rcases List.mem_cons.mp hm with hm | hm
      · subst hm; cases u; exact hc
      · exact ih path h m hm

/-- A successful `detect` call was off-path and succeeded on every
leftmost successor with the extended path. -/
theorem detect_ok_step (st : BStore) (fuel nid : Nat) (path : List Nat)
    (h : detect st (fuel + 1) nid path = .ok ()) :
    nid ∉ path ∧ ∀ m, LMEdge st nid m → detect st fuel m (nid :: path) = .ok () := by
  simp only [detect] at h
  cases hin : path.contains nid with
  | true =>
    rw [hin, if_pos rfl] at h
    exfalso
    cases hg : st.get? nid with
    | none => rw [hg] at h; simp at h
    | some nd =>
      rw [hg] at h
      dsimp only at h
      cases hk : nd.kind <;> rw [hk] at h <;> simp at h
  | false =>
    rw [hin, if_neg (fun hh => Bool.noConfusion hh)] at h
    have hnin : nid ∉ path := by
      simpa using hin
    refine ⟨hnin, ?_⟩
    intro m hedge
    cases hg : st.get? nid with
    | none =>
      exfalso
      cases hedge with
      | nt nm2 nd2 hg2 hk2 => rw [hg] at hg2; exact Option.noConfusion hg2
      | rep nd2 hg2 hk2 => rw [hg] at hg2; exact Option.noConfusion hg2
      | seq ms2 nd2 hg2 hk2 hmem => rw [hg] at hg2; exact Option.noConfusion hg2
      | choice ms2 exh2 nd2 hg2 hk2 hmem => rw [hg] at hg2; exact Option.noConfusion hg2
    | some nd =>
      rw [hg] at h
      dsimp only at h
      cases hk : nd.kind with
      | stringT s2 =>
        exfalso
        cases hedge <;> simp_all
      | patternT s2 =>
        exfalso
        cases hedge <;> simp_all
      | nt nm c =>
        rw [hk] at h
        dsimp only at h
        cases hedge with
        | nt nm2 nd2 hg2 hk2 =>
          rw [hg] at hg2
          injection hg2 with hg2
          subst hg2
          rw [hk] at hk2
          injection hk2 with h1 h2
          subst h2
          exact h
        | rep nd2 hg2 hk2 =>
          rw [hg] at hg2
          injection hg2 with hg2
          subst hg2
          rw [hk] at hk2
          exact BKind.noConfusion hk2
        | seq ms2 nd2 hg2 hk2 hmem =>
          rw [hg] at hg2
          injection hg2 with hg2
          subst hg2
          rw [hk] at hk2
          exact BKind.noConfusion hk2
        | choice ms2 exh2 nd2 hg2 hk2 hmem =>
          rw [hg] at hg2
          injection hg2 with hg2
          subst hg2
          rw [hk] at hk2
          exact BKind.noConfusion hk2
      | rep c =>
        rw [hk] at h
        dsimp only at h
        cases hedge with
        | rep nd2 hg2 hk2 =>
          rw [hg] at hg2
          injection hg2 with hg2
          subst hg2
          rw [hk] at hk2
          injection hk2 with h2
          subst h2
          exact h
        | nt nm2 nd2 hg2 hk2 =>
          rw [hg] at hg2
          injection hg2 with hg2
          subst hg2
          rw [hk] at hk2
          exact BKind.noConfusion hk2
        | seq ms2 nd2 hg2 hk2 hmem =>
          rw [hg] at hg2
          injection hg2 with hg2
          subst hg2
          rw [hk] at hk2
          exact BKind.noConfusion hk2
        | choice ms2 exh2 nd2 hg2 hk2 hmem =>
          rw [hg] at hg2
          injection hg2 with hg2
          subst hg2
          rw [hk] at hk2
          exact BKind.noConfusion hk2
      | seq ms =>
        rw [hk] at h
        dsimp only at h
        cases hedge with
        | seq ms2 nd2 hg2 hk2 hmem =>
          rw [hg] at hg2
          injection hg2 with hg2
          subst hg2
          rw [hk] at hk2
          injection hk2 with h1
          subst h1
          exact detectSeqLoop_ok st (detect st fuel) ms (nid :: path) h m hmem
        | nt nm2 nd2 hg2 hk2 =>
          rw [hg] at hg2
          injection hg2 with hg2
          subst hg2
          rw [hk] at hk2
          exact BKind.noConfusion hk2
        | rep nd2 hg2 hk2 =>
          rw [hg] at hg2
          injection hg2 with hg2
          subst hg2
          rw [hk] at hk2
          exact BKind.noConfusion hk2
        | choice ms2 exh2 nd2 hg2 hk2 hmem =>
          rw [hg] at hg2
          injection hg2 with hg2
          subst hg2
          rw [hk] at hk2
          exact BKind.noConfusion hk2
      | choice ms exh =>
        rw [hk] at h
        dsimp only at h
        cases hedge with
        | choice ms2 exh2 nd2 hg2 hk2 hmem =>
          rw [hg] at hg2
          injection hg2 with hg2
          subst hg2
          rw [hk] at hk2
          injection hk2 with h1 h2
          subst h1
          exact detectChoiceLoop_ok (detect st fuel) ms (nid :: path) h m hmem
        | nt nm2 nd2 hg2 hk2 =>
          rw [hg] at hg2
          injection hg2 with hg2
          subst hg2
          rw [hk] at hk2
          exact BKind.noConfusion hk2
        | rep nd2 hg2 hk2 =>
          rw [hg] at hg2
          injection hg2 with hg2
          subst hg2
          rw [hk] at hk2
          exact BKind.noConfusion hk2
        | seq ms3 nd2 hg2 hk2 hmem =>
          rw [hg] at hg2
          injection hg2 with hg2
          subst hg2
          rw [hk] at hk2
          exact BKind.noConfusion hk2

/-- Along any sufficiently short leftmost walk from a node on which
`detect` succeeded, no node repeats and none hits the path. -/
theorem detect_ok_nodup (st : BStore) : ∀ fuel nid path l e,
    path.Nodup → detect st fuel nid path = .ok () → EdgeWalk st nid l e →
    l.length < fuel → (path ++ nid :: l).Nodup := by
  intro fuel
  induction fuel with
  | zero =>
    intro nid path l e hnd h hw hlen
    omega
  | succ fuel ih =>
    intro nid path l e hnd h hw hlen
    obtain ⟨hnin, hstep⟩ := detect_ok_step st fuel nid path h
    cases hw with
    | refl =>
      refine (List.Perm.nodup_iff List.perm_middle).mpr ?_
      rw [List.append_nil]
      exact List.nodup_cons.mpr ⟨hnin, hnd⟩
    | step =>
      rename_i m l2 hedge hw2
      have hok := hstep m hedge
      have hrec := ih m (nid :: path) l2 e
        (List.nodup_cons.mpr ⟨hnin, hnd⟩) hok hw2
        (by simp only [List.length_cons] at hlen; omega)
      exact (List.Perm.nodup_iff List.perm_middle).mpr hrec

/-- Completeness of `detect` on the root run: success with enough fuel
means no leftmost cycle is reachable. -/
theorem detect_ok_no_cycle (st : BStore) (fuel root : Nat)
    (h : detect st fuel root [] = .ok ()) (hfuel : 2 * st.length + 2 ≤ fuel) :
    ¬∃ c, LMReach st root c ∧ LMCycle st c := by
  rintro ⟨c, ⟨l1, hw1⟩, m, l2, hedge, hw2⟩
  obtain ⟨l1x, hw1x, hnd1⟩ := walk_shorten hw1
  obtain ⟨l2x, hw2x, hnd2⟩ := walk_shorten hw2
  have hb1 := walk_nodup_length hw1x hnd1
  have hb2 := walk_nodup_length hw2x hnd2
  have hW : EdgeWalk st root (l1x ++ m :: l2x) c :=
    walk_append hw1x (.step c m l2x c hedge hw2x)
  have hlen : (l1x ++ m :: l2x).length < fuel := by
    simp only [List.length_append, List.length_cons]
    omega
  have hnodup := detect_ok_nodup st fuel root [] (l1x ++ m :: l2x) c
    List.nodup_nil h hW hlen
  have hnodup2 : ((root :: l1x) ++ (m :: l2x)).Nodup := hnodup
  have hc1 : c ∈ root :: l1x := walk_end_mem hw1x
  have hc2 : c ∈ m :: l2x := walk_end_mem hw2x
  have hdisj := (List.nodup_append.mp hnodup2).2.2
  exact absurd hc2 (List.disjoint_left.mp hdisj hc1)

/-- C7: the left-recursion detector raises exactly on leftmost-descent
cycles. If `detectAndErrorOnLeftRecursion` raises, some node reachable
from the root by leftmost-descent edges (Nonterminal/Repetition content,
Sequence members up to and including the first non-optional member, all
Choice members) lies on a leftmost cycle; if it succeeds with enough
fuel, no reachable node does. Concretely, building `{ x: () => [x, 'a'] }`
raises "Detected left recursion for nonterminal 'x'." while the
right-recursive `{ x: () => ['a', x] }` builds without error. -/
theorem c7_left_recursion :
    (∀ (st : BStore) (root fuel : Nat) (e : String),
        detectAndErrorOnLeftRecursion st root fuel = .err e →
        ∃ c, LMReach st root c ∧ LMCycle st c) ∧
    (∀ (st : BStore) (root fuel : Nat),
        detectAndErrorOnLeftRecursion st root fuel = .ok () →
        2 * st.length + 2 ≤ fuel →
        ¬∃ c, LMReach st root c ∧ LMCycle st c) ∧
    buildGrammar c7gdLeft "x" 20 = .err (leftRecursionMessage "x") ∧
    leftRecursionMessage "x" = "Detected left recursion for nonterminal 'x'." ∧
    (∃ bg, buildGrammar c7gdRight "x" 20 = .ok bg) := by
  refine ⟨?_, ?_, rfl, rfl, ⟨_, rfl⟩⟩
  · intro st root fuel e h
    exact detect_sound st fuel root [] root e rfl h
  · intro st root fuel h hf
    exact detect_ok_no_cycle st fuel root h hf

/-- C7 (witness): the soundness part applied to the prepared, annotated
store of `{ x: () => [x, 'a'] }`, whose detector run raises. -/
theorem c7_witness :
    ∃ c, LMReach
      [⟨.nt "x" 3, false, some 0⟩, ⟨.nt "x" 3, true, none⟩,
       ⟨.stringT "a", false, some 1⟩, ⟨.seq [0, 2], false, some 2⟩] 0 c ∧
    LMCycle
      [⟨.nt "x" 3, false, some 0⟩, ⟨.nt "x" 3, true, none⟩,
       ⟨.stringT "a", false, some 1⟩, ⟨.seq [0, 2], false, some 2⟩] c :=
  c7_left_recursion.1
    [⟨.nt "x" 3, false, some 0⟩, ⟨.nt "x" 3, true, none⟩,
     ⟨.stringT "a", false, some 1⟩, ⟨.seq [0, 2], false, some 2⟩]
    0 20 (leftRecursionMessage "x") rfl

/-- A key reading `none` is not among an association list's keys. -/
theorem assocGet_none_not_mem {α : Type} (l : List (Nat × α)) (k : Nat)
    (h : assocGet l k = none) : k ∉ l.map Prod.fst := by
  induction l with
  | nil => simp
  | cons p rest ih =>
    obtain ⟨pk, pv⟩ := p
    simp only [assocGet] at h
    by_cases hk : k = pk
    · rw [if_pos hk] at h
      exact Option.noConfusion h
    · rw [if_neg hk] at h
      simp only [List.map_cons, List.mem_cons]
      rintro (h1 | h1)
      · exact hk h1
      · exact ih h h1

/-- Setting a fresh key appends. -/
theorem assocSet_fresh {α : Type} (l : List (Nat × α)) (k : Nat) (v : α)
    (h : assocGet l k = none) : assocSet l k v = l ++ [(k, v)] := by
  induction l with
  | nil => rfl
  | cons p rest ih =>
    obtain ⟨pk, pv⟩ := p
    simp only [assocGet] at h
    by_cases hk : k = pk
    · rw [if_pos hk] at h
      exact Option.noConfusion h
    · rw [if_neg hk] at h
      simp only [assocSet, if_neg hk, List.cons_append, List.cons.injEq, true_and]
      exact ih h

/-- Entries survive a fresh-key set. -/
theorem mem_assocSet_of_mem {α : Type} (l : List (Nat × α)) (k : Nat) (v : α)
    (p : Nat × α) (hp : p ∈ l) (hfresh : assocGet l k = none) :
    p ∈ assocSet l k v := by
  rw [assocSet_fresh l k v hfresh]
  exact List.mem_append_left _ hp

/-- `RSub` is reflexive. -/
theorem rsub_refl (R : List (Nat × Bool)) : RSub R R := fun n b h => h

/-- `RSub` composes. -/
theorem rsub_trans {R1 R2 R3 : List (Nat × Bool)} (h1 : RSub R1 R2)
    (h2 : RSub R2 R3) : RSub R1 R3 := fun n b h => h2 n b (h1 n b h)

/-- Setting a fresh key extends the map. -/
theorem rsub_set (R : List (Nat × Bool)) (k : Nat) (b : Bool)
    (h : assocGet R k = none) : RSub R (assocSet R k b) := by
  intro n b2 h2
  rw [assocGet_set]
  by_cases hk : n = k
  · subst hk
    rw [h] at h2
    exact Option.noConfusion h2
  · rw [if_neg hk]
    exact h2

/-- `ResolvedOK` is monotone in the resolution map. -/
theorem resolvedOK_mono (ST : BStore) {R R2 : List (Nat × Bool)}
    (hs : RSub R R2) (n : Nat) (b : Bool) (h : ResolvedOK ST R n b) :
    ResolvedOK ST R2 n b := by
  obtain ⟨nd, hg, hm⟩ := h
  refine ⟨nd, hg, ?_⟩
  cases hk : nd.kind with
  | stringT c =>
    rw [hk] at hm
    exact hm
  | patternT c =>
    rw [hk] at hm
    exact hm
  | nt nm c =>
    rw [hk] at hm
    dsimp only at hm ⊢
    rcases hm with ⟨hb, hopt | hc⟩ | ⟨hb, hopt, hc⟩
    · exact Or.inl ⟨hb, Or.inl hopt⟩
    · exact Or.inl ⟨hb, Or.inr (hs c true hc)⟩
    · exact Or.inr ⟨hb, hopt, hs c false hc⟩
  | rep c =>
    rw [hk] at hm
    dsimp only at hm ⊢
    rcases hm with ⟨hb, hopt | hc⟩ | ⟨hb, hopt, hc⟩
    · exact Or.inl ⟨hb, Or.inl hopt⟩
    · exact Or.inl ⟨hb, Or.inr (hs c true hc)⟩
    · exact Or.inr ⟨hb, hopt, hs c false hc⟩
  | seq ms =>
    rw [hk] at hm
    dsimp only at hm ⊢
    rcases hm with ⟨hb, hopt | hall⟩ | ⟨hb, hopt, m, hmm, hc⟩
    · exact Or.inl ⟨hb, Or.inl hopt⟩
    · exact Or.inl ⟨hb, Or.inr (fun m hmm => hs m true (hall m hmm))⟩
    · exact Or.inr ⟨hb, hopt, m, hmm, hs m false hc⟩
  | choice ms exh =>
    rw [hk] at hm
    dsimp only at hm ⊢
    rcases hm with ⟨hb, hopt | hall⟩ | ⟨hb, hopt, m, hmm, hc⟩
    · exact Or.inl ⟨hb, Or.inl hopt⟩
    · exact Or.inl ⟨hb, Or.inr (fun m hmm => hs m true (hall m hmm))⟩
    · exact Or.inr ⟨hb, hopt, m, hmm, hs m false hc⟩

/-- `DepsOK` is monotone in the resolution map. -/
theorem depsOK_mono {R R2 : List (Nat × Bool)} (hs : RSub R R2)
    (nd : BNode) (deps : List Nat) (h : DepsOK R nd deps) : DepsOK R2 nd deps := by
  obtain ⟨h1, h2⟩ := h
  refine ⟨h1, fun m hm => ?_⟩
  rcases h2 m hm with hr | hd
  · exact Or.inl (hs m true hr)
  · exact Or.inr hd

/-- The analyzer's initial state satisfies the invariant. -/
theorem optInv_empty (ST : BStore) : OptInv ST emptyOptState := by
  refine ⟨?_, ?_, ?_, ?_, ?_, ?_, ?_⟩ <;> first
    | exact List.nodup_nil
    | (intro h; simp_all [emptyOptState, assocGet])

/-- A found entry is a member. -/
theorem assocGet_mem {α : Type} (l : List (Nat × α)) (k : Nat) (v : α)
    (h : assocGet l k = some v) : (k, v) ∈ l := by
  induction l with
  | nil => simp [assocGet] at h
  | cons p rest ih =>
    obtain ⟨pk, pv⟩ := p
    simp only [assocGet] at h
    by_cases hk : k = pk
    · rw [if_pos hk] at h
      injection h with h
      subst hk
      subst h
      exact List.mem_cons_self _ _
    · rw [if_neg hk] at h
      exact List.mem_cons_of_mem _ (ih h)

/-- A present key is found. -/
theorem mem_assocGet_ne_none {α : Type} (l : List (Nat × α)) (k : Nat) (v : α)
    (h : (k, v) ∈ l) : assocGet l k ≠ none := by
  induction l with
  | nil => simp at h
  | cons p rest ih =>
    obtain ⟨pk, pv⟩ := p
    rcases List.mem_cons.mp h with h | h
    · injection h with h1 h2
      subst h1
      simp [assocGet]
    · simp only [assocGet]
      by_cases hk : k = pk
      · rw [if_pos hk]
        simp
      · rw [if_neg hk]
        exact ih h

/-- The member loop preserves the analyzer invariant and reports
dependencies and optionality faithfully. -/
theorem pmLoop_spec (ST : BStore)
    (step : Nat → OptState → Option (OptState × Option Bool))
    (hstep : ∀ nid s s2 r, step nid s = some (s2, r) → nid < ST.length →
      OptInv ST s → PdfPost ST s s2 nid r) :
    ∀ ms s deps allOpt s2 deps2 allOpt2,
      pmLoop step ms s deps allOpt = some (s2, deps2, allOpt2) →
      (∀ m ∈ ms, m < ST.length) → OptInv ST s → (∀ d ∈ deps, d ∈ s.visited) →
      PmPost ST s s2 ms deps deps2 allOpt allOpt2 := by
  intro ms
  induction ms with
  | nil =>
    intro s deps allOpt s2 deps2 allOpt2 h hb hi hd
    simp only [pmLoop] at h
    injection h with h
    injection h with h1 h
    injection h with h2 h3
    subst h1
    subst h2
    subst h3
    exact ⟨hi, rsub_refl _, fun p hp => hp, fun x hx => hx,
      fun n hn => rfl, fun n hn => rfl,
      fun d hd2 => Or.inl hd2, fun d hd2 => hd2, hd,
      fun ht => ht,
      fun ht m hm => absurd hm (List.not_mem_nil m),
      fun hf => Or.inl hf,
      fun n hn => Or.inl hn⟩
  | cons m rest ih =>
    intro s deps allOpt s2 deps2 allOpt2 h hb hi hd
    simp only [pmLoop] at h
    cases hm : step m s with
    | none => rw [hm] at h; exact absurd h (by simp)
    | some pr =>
      obtain ⟨s1, r⟩ := pr
      rw [hm] at h
      dsimp only at h
      have hpost := hstep m s s1 r hm (hb m (List.mem_cons_self _ _)) hi
      cases r with
      | some b =>
        have hrec := ih s1 deps (allOpt && b) s2 deps2 allOpt2 h
          (fun m2 hm2 => hb m2 (List.mem_cons_of_mem _ hm2)) hpost.inv
          (fun d hd2 => hpost.vsub d (hd d hd2))
        have hmval : assocGet s2.resolved m = some b :=
          hrec.rsub m b (hpost.rval b rfl)
        refine ⟨hrec.inv, rsub_trans hpost.rsub hrec.rsub,
          fun p hp => hrec.usub p (hpost.usub p hp),
          fun x hx => hrec.vsub x (hpost.vsub x hx),
          fun n hn => (hrec.rfresh n (hpost.vsub n hn)).trans (hpost.rfresh n hn),
          fun n hn => (hrec.ufresh n (hpost.vsub n hn)).trans (hpost.ufresh n hn),
          fun d hd2 => (hrec.dsub d hd2).imp id (List.mem_cons_of_mem _),
          hrec.dkeep, hrec.dvis2,
          ?_, ?_, ?_, ?_⟩
        · intro ht
          exact ((Bool.and_eq_true _ _).mp (hrec.allMono ht)).1
        · intro ht m2 hm2
          rcases List.mem_cons.mp hm2 with hm2 | hm2
          · subst hm2
            have hb2 : b = true := ((Bool.and_eq_true _ _).mp (hrec.allMono ht)).2
            subst hb2
            exact Or.inl hmval
          · exact hrec.allTrue ht m2 hm2
        · intro hf
          rcases hrec.allFalse hf with hf2 | ⟨m2, hm2, hv⟩
          · cases hao : allOpt with
            | false => exact Or.inl rfl
            | true =>
              rw [hao, Bool.true_and] at hf2
              subst hf2
              exact Or.inr ⟨m, List.mem_cons_self _ _, hmval⟩
          · exact Or.inr ⟨m2, List.mem_cons_of_mem _ hm2, hv⟩
        · intro n hn
          rcases hrec.vtrack n hn with hn2 | hn2
          · rcases hpost.vtrack n hn2 with hn3 | hn3 | hn3
            · exact Or.inl hn3
            · refine Or.inr (Or.inl ?_)
              cases hg : assocGet s1.resolved n with
              | none => exact absurd hg hn3
              | some v =>
                rw [hrec.rsub n v hg]
                simp
            · refine Or.inr (Or.inr ?_)
              cases hg : assocGet s1.unresolved n with
              | none => exact absurd hg hn3
              | some v =>
                exact mem_assocGet_ne_none _ _ _
                  (hrec.usub (n, v) (assocGet_mem _ _ _ hg))
          · exact Or.inr hn2
      | none =>
        have hmvis : m ∈ s1.visited := hpost.vmem
        have hDvis : ∀ d ∈ (if deps.contains m then deps else deps ++ [m]),
            d ∈ s1.visited := by
          intro d hd2
          by_cases hc : deps.contains m
          · rw [if_pos hc] at hd2
            exact hpost.vsub d (hd d hd2)
          · rw [if_neg hc] at hd2
            rcases List.mem_append.mp hd2 with hd3 | hd3
            · exact hpost.vsub d (hd d hd3)
            · rw [List.mem_singleton] at hd3
              subst hd3
              exact hmvis
        have hrec := ih s1 (if deps.contains m then deps else deps ++ [m]) allOpt
          s2 deps2 allOpt2 h
          (fun m2 hm2 => hb m2 (List.mem_cons_of_mem _ hm2)) hpost.inv hDvis
        have hmD : m ∈ (if deps.contains m then deps else deps ++ [m]) := by
          by_cases hc : deps.contains m
          · rw [if_pos hc]
            simpa using hc
          · rw [if_neg hc]
            exact List.mem_append_right _ (List.mem_singleton.mpr rfl)
        have hDsub : ∀ d ∈ (if deps.contains m then deps else deps ++ [m]),
            d ∈ deps ∨ d = m := by
          intro d hd2
          by_cases hc : deps.contains m
          · rw [if_pos hc] at hd2
            exact Or.inl hd2
          · rw [if_neg hc] at hd2
            rcases List.mem_append.mp hd2 with hd3 | hd3
            · exact Or.inl hd3
            · exact Or.inr (List.mem_singleton.mp hd3)
        have hDkeep : ∀ d ∈ deps, d ∈ (if deps.contains m then deps else deps ++ [m]) := by
          intro d hd2
          by_cases hc : deps.contains m
          · rw [if_pos hc]
            exact hd2
          · rw [if_neg hc]
            exact List.mem_append_left _ hd2
        refine ⟨hrec.inv, rsub_trans hpost.rsub hrec.rsub,
          fun p hp => hrec.usub p (hpost.usub p hp),
          fun x hx => hrec.vsub x (hpost.vsub x hx),
          fun n hn => (hrec.rfresh n (hpost.vsub n hn)).trans (hpost.rfresh n hn),
          fun n hn => (hrec.ufresh n (hpost.vsub n hn)).trans (hpost.ufresh n hn),
          ?_, fun d hd2 => hrec.dkeep d (hDkeep d hd2), hrec.dvis2,
          hrec.allMono, ?_, ?_, ?_⟩
        · intro d hd2
          rcases hrec.dsub d hd2 with hd3 | hd3
          · rcases hDsub d hd3 with hd4 | hd4
            · exact Or.inl hd4
            · subst hd4
              exact Or.inr (List.mem_cons_self _ _)
          · exact Or.inr (List.mem_cons_of_mem _ hd3)
        · intro ht m2 hm2
          rcases List.mem_cons.mp hm2 with hm2 | hm2
          · subst hm2
            exact Or.inr (hrec.dkeep m2 hmD)
          · exact hrec.allTrue ht m2 hm2
        · intro hf
          rcases hrec.allFalse hf with hf2 | ⟨m2, hm2, hv⟩
          · exact Or.inl hf2
          · exact Or.inr ⟨m2, List.mem_cons_of_mem _ hm2, hv⟩
        · intro n hn
          rcases hrec.vtrack n hn with hn2 | hn2
          · rcases hpost.vtrack n hn2 with hn3 | hn3 | hn3
            · exact Or.inl hn3
            · refine Or.inr (Or.inl ?_)
              cases hg : assocGet s1.resolved n with
              | none => exact absurd hg hn3
              | some v =>
                rw [hrec.rsub n v hg]
                simp
            · refine Or.inr (Or.inr ?_)
              cases hg : assocGet s1.unresolved n with
              | none => exact absurd hg hn3
              | some v =>
                exact mem_assocGet_ne_none _ _ _
                  (hrec.usub (n, v) (assocGet_mem _ _ _ hg))
          · exact Or.inr hn2

/-- Resolving a fresh node keeps the analyzer invariant, provided the new
entry is itself justified. -/
theorem optInv_resolve (ST : BStore) (t : OptState) (nid : Nat) (b : Bool)
    (hinv : OptInv ST t) (hrfresh : assocGet t.resolved nid = none)
    (hufresh : assocGet t.unresolved nid = none)
    (hok : ResolvedOK ST (assocSet t.resolved nid b) nid b)
    (hvis : nid ∈ t.visited) :
    OptInv ST ⟨t.visited, assocSet t.resolved nid b, t.unresolved⟩ := by
  have hsub := rsub_set t.resolved nid b hrfresh
  refine ⟨?_, ?_, ?_, hinv.und, ?_, hinv.uvis, hinv.dvis⟩
  · intro n b2 h2
    by_cases hn : n = nid
    · subst hn
      rw [assocGet_set, if_pos rfl] at h2
      injection h2 with h2
      subst h2
      exact hok
    · rw [assocGet_set, if_neg hn] at h2
      exact resolvedOK_mono ST hsub n b2 (hinv.rok n b2 h2)
  · intro p hp
    obtain ⟨nd, hg, ho, hc, hdep⟩ := hinv.uok p hp
    exact ⟨nd, hg, ho, hc, depsOK_mono hsub nd p.2 hdep⟩
  · intro p hp
    by_cases hn : p.1 = nid
    · exfalso
      have : (p.1, p.2) ∈ t.unresolved := hp
      rw [hn] at this
      exact mem_assocGet_ne_none _ _ _ this hufresh
    · rw [assocGet_set, if_neg hn]
      exact hinv.dis p hp
  · intro n hn2
    by_cases hn : n = nid
    · subst hn
      exact hvis
    · rw [assocGet_set, if_neg hn] at hn2
      exact hinv.rvis n hn2

/-- Registering a fresh unresolved node keeps the analyzer invariant. -/
theorem optInv_unresolve (ST : BStore) (t : OptState) (nid : Nat) (deps : List Nat)
    (hinv : OptInv ST t) (hrfresh : assocGet t.resolved nid = none)
    (hufresh : assocGet t.unresolved nid = none)
    (hnode : ∃ nd, ST.get? nid = some nd ∧ nd.optional = false ∧
      CompositeKind nd.kind ∧ DepsOK t.resolved nd deps)
    (hvis : nid ∈ t.visited) (hdvis : ∀ d ∈ deps, d ∈ t.visited) :
    OptInv ST ⟨t.visited, t.resolved, assocSet t.unresolved nid deps⟩ := by
  have hset := assocSet_fresh t.unresolved nid deps hufresh
  refine ⟨hinv.rok, ?_, ?_, ?_, hinv.rvis, ?_, ?_⟩
  · intro p hp
    rw [hset] at hp
    rcases List.mem_append.mp hp with hp | hp
    · exact hinv.uok p hp
    · rw [List.mem_singleton] at hp
      subst hp
      exact hnode
  · intro p hp
    rw [hset] at hp
    rcases List.mem_append.mp hp with hp | hp
    · exact hinv.dis p hp
    · rw [List.mem_singleton] at hp
      subst hp
      exact hrfresh
  · rw [hset, List.map_append]
    rw [List.nodup_append]
    refine ⟨hinv.und, List.nodup_singleton _, ?_⟩
    intro a ha heq
    rw [show (List.map Prod.fst [(nid, deps)]) = [nid] from rfl,
      List.mem_singleton] at heq
    subst heq
    exact assocGet_none_not_mem t.unresolved a hufresh ha
  · intro p hp
    rw [hset] at hp
    rcases List.mem_append.mp hp with hp | hp
    · exact hinv.uvis p hp
    · rw [List.mem_singleton] at hp
      subst hp
      exact hvis
  · intro p hp
    rw [hset] at hp
    rcases List.mem_append.mp hp with hp | hp
    · exact hinv.dvis p hp
    · rw [List.mem_singleton] at hp
      subst hp
      exact hdvis

/-- Builds the visit postcondition for a resolving branch from the facts
about the intermediate state. -/
theorem pdfPost_resolve_build (ST : BStore) (s t : OptState) (nid : Nat) (b : Bool)
    (hnin : nid ∉ s.visited)
    (hti : OptInv ST t)
    (hts : RSub s.resolved t.resolved)
    (htu : ∀ p ∈ s.unresolved, p ∈ t.unresolved)
    (htv : ∀ x ∈ nid :: s.visited, x ∈ t.visited)
    (htrf : ∀ n ∈ nid :: s.visited, assocGet t.resolved n = assocGet s.resolved n)
    (htuf : ∀ n ∈ nid :: s.visited, assocGet t.unresolved n = assocGet s.unresolved n)
    (httr : ∀ n ∈ t.visited, n ∈ nid :: s.visited ∨
      assocGet t.resolved n ≠ none ∨ assocGet t.unresolved n ≠ none)
    (hrf : assocGet s.resolved nid = none)
    (huf : assocGet s.unresolved nid = none)
    (hok : ResolvedOK ST (assocSet t.resolved nid b) nid b) :
    PdfPost ST s ⟨t.visited, assocSet t.resolved nid b, t.unresolved⟩ nid (some b) := by
  have hrf2 : assocGet t.resolved nid = none := by
    rw [htrf nid (List.mem_cons_self _ _)]
    exact hrf
  have huf2 : assocGet t.unresolved nid = none := by
    rw [htuf nid (List.mem_cons_self _ _)]
    exact huf
  have hvis2 : nid ∈ t.visited := htv nid (List.mem_cons_self _ _)
  refine ⟨optInv_resolve ST t nid b hti hrf2 huf2 hok hvis2,
    rsub_trans hts (rsub_set t.resolved nid b hrf2), htu,
    fun x hx => htv x (List.mem_cons_of_mem _ hx), ?_, ?_, ?_, hvis2, ?_⟩
  · intro b2 hb2
    injection hb2 with hb2
    subst hb2
    rw [assocGet_set, if_pos rfl]
  · intro n hn
    rw [assocGet_set, if_neg (fun heq : n = nid => hnin (heq ▸ hn))]
    exact htrf n (List.mem_cons_of_mem _ hn)
  · intro n hn
    exact htuf n (List.mem_cons_of_mem _ hn)
  · intro n hn
    rcases httr n hn with hn2 | hn2 | hn2
    · rcases List.mem_cons.mp hn2 with hn3 | hn3
      · subst hn3
        refine Or.inr (Or.inl ?_)
        rw [assocGet_set, if_pos rfl]
        simp
      · exact Or.inl hn3
    · refine Or.inr (Or.inl ?_)
      rw [assocGet_set]
      by_cases hq : n = nid
      · rw [if_pos hq]
        simp
      · rw [if_neg hq]
        exact hn2
    · exact Or.inr (Or.inr hn2)

/-- Builds the visit postcondition for the unresolved branch. -/
theorem pdfPost_unresolve_build (ST : BStore) (s t : OptState) (nid : Nat)
    (deps : List Nat)
    (hnin : nid ∉ s.visited)
    (hti : OptInv ST t)
    (hts : RSub s.resolved t.resolved)
    (htu : ∀ p ∈ s.unresolved, p ∈ t.unresolved)
    (htv : ∀ x ∈ nid :: s.visited, x ∈ t.visited)
    (htrf : ∀ n ∈ nid :: s.visited, assocGet t.resolved n = assocGet s.resolved n)
    (htuf : ∀ n ∈ nid :: s.visited, assocGet t.unresolved n = assocGet s.unresolved n)
    (httr : ∀ n ∈ t.visited, n ∈ nid :: s.visited ∨
      assocGet t.resolved n ≠ none ∨ assocGet t.unresolved n ≠ none)
    (hrf : assocGet s.resolved nid = none)
    (huf : assocGet s.unresolved nid = none)
    (hnode : ∃ nd, ST.get? nid = some nd ∧ nd.optional = false ∧
      CompositeKind nd.kind ∧ DepsOK t.resolved nd deps)
    (hdvis : ∀ d ∈ deps, d ∈ t.visited) :
    PdfPost ST s ⟨t.visited, t.resolved, assocSet t.unresolved nid deps⟩ nid none := by
  have hrf2 : assocGet t.resolved nid = none := by
    rw [htrf nid (List.mem_cons_self _ _)]
    exact hrf
  have huf2 : assocGet t.unresolved nid = none := by
    rw [htuf nid (List.mem_cons_self _ _)]
    exact huf
  have hvis2 : nid ∈ t.visited := htv nid (List.mem_cons_self _ _)
  refine ⟨optInv_unresolve ST t nid deps hti hrf2 huf2 hnode hvis2 hdvis,
    hts, ?_, fun x hx => htv x (List.mem_cons_of_mem _ hx),
    fun b2 hb2 => Option.noConfusion hb2, ?_, ?_, hvis2, ?_⟩
  · intro p hp
    exact mem_assocSet_of_mem _ _ _ p (htu p hp) huf2
  · intro n hn
    exact htrf n (List.mem_cons_of_mem _ hn)
  · intro n hn
    rw [assocGet_set, if_neg (fun heq : n = nid => hnin (heq ▸ hn))]
    exact htuf n (List.mem_cons_of_mem _ hn)
  · intro n hn
    rcases httr n hn with hn2 | hn2 | hn2
    · rcases List.mem_cons.mp hn2 with hn3 | hn3
      · subst hn3
        refine Or.inr (Or.inr ?_)
        rw [assocGet_set, if_pos rfl]
        simp
      · exact Or.inl hn3
    · exact Or.inr (Or.inl hn2)
    · refine Or.inr (Or.inr ?_)
      rw [assocGet_set]
      by_cases hq : n = nid
      · rw [if_pos hq]
        simp
      · rw [if_neg hq]
        exact hn2

/-- The analyzer visit establishes its postcondition on closed stores. -/
theorem pdf_spec (ST : BStore) (hclosed : ClosedB ST) : ∀ fuel nid s s2 r,
    processDepthFirst ST fuel nid s = some (s2, r) → nid < ST.length →
    OptInv ST s → PdfPost ST s s2 nid r := by
  intro fuel
  induction fuel with
  | zero =>
    intro nid s s2 r h hn hi
    simp [processDepthFirst] at h
  | succ fuel ih =>
    intro nid s s2 r h hn hi
    simp only [processDepthFirst] at h
    cases hvin : s.visited.contains nid with
    | true =>
      rw [hvin, if_pos rfl] at h
      injection h with h
      injection h with h1 h2
      subst h1
      subst h2
      have hmem : nid ∈ s.visited := by simpa using hvin
      exact ⟨hi, rsub_refl _, fun p hp => hp, fun x hx => hx,
        fun b hb => hb, fun n hn2 => rfl, fun n hn2 => rfl, hmem,
        fun n hn2 => Or.inl hn2⟩
    | false =>
      rw [hvin, if_neg (fun hh => Bool.noConfusion hh)] at h
      have hnin : nid ∉ s.visited := by simpa using hvin
      have hrf : assocGet s.resolved nid = none := by
        cases hg : assocGet s.resolved nid with
        | none => rfl
        | some v => exact absurd (hi.rvis nid (by simp [hg])) hnin
      have huf : assocGet s.unresolved nid = none := by
        cases hg : assocGet s.unresolved nid with
        | none => rfl
        | some v => exact absurd (hi.uvis (nid, v) (assocGet_mem _ _ _ hg)) hnin
      have hi1 : OptInv ST ⟨nid :: s.visited, s.resolved, s.unresolved⟩ :=
        ⟨hi.rok, hi.uok, hi.dis, hi.und,
         fun n hn2 => List.mem_cons_of_mem _ (hi.rvis n hn2),
         fun p hp => List.mem_cons_of_mem _ (hi.uvis p hp),
         fun p hp d hd => List.mem_cons_of_mem _ (hi.dvis p hp d hd)⟩
      cases hg : ST.get? nid with
      | none =>
        have := List.get?_eq_none.mp hg
        omega
      | some nd =>
        rw [hg] at h
        dsimp only at h
        cases hk : nd.kind with
        | stringT cs =>
          rw [hk] at h
          dsimp only at h
          injection h with h
          injection h with h1 h2
          subst h1
          subst h2
          exact pdfPost_resolve_build ST s ⟨nid :: s.visited, s.resolved, s.unresolved⟩
            nid nd.optional hnin hi1 (rsub_refl _) (fun p hp => hp) (fun x hx => hx)
            (fun n hn2 => rfl) (fun n hn2 => rfl) (fun n hn2 => Or.inl hn2)
            hrf huf ⟨nd, hg, by rw [hk]⟩
        | patternT cs =>
          rw [hk] at h
          dsimp only at h
          injection h with h
          injection h with h1 h2
          subst h1
          subst h2
          exact pdfPost_resolve_build ST s ⟨nid :: s.visited, s.resolved, s.unresolved⟩
            nid nd.optional hnin hi1 (rsub_refl _) (fun p hp => hp) (fun x hx => hx)
            (fun n hn2 => rfl) (fun n hn2 => rfl) (fun n hn2 => Or.inl hn2)
            hrf huf ⟨nd, hg, by rw [hk]⟩
        | nt nm c =>
          rw [hk] at h
          dsimp only at h
          have hcl : c < ST.length := hclosed nid nd hg c (by rw [hk]; simp [BMembers])
          cases hpd : processDepthFirst ST fuel c ⟨nid :: s.visited, s.resolved, s.unresolved⟩ with
          | none => rw [hpd] at h; exact absurd h (by simp)
          | some pr =>
            obtain ⟨t, rc⟩ := pr
            rw [hpd] at h
            dsimp only at h
            have hcp := ih c _ t rc hpd hcl hi1
            cases hopt : nd.optional with
            | true =>
              rw [hopt, if_pos rfl] at h
              injection h with h
              injection h with h1 h2
              subst h1
              subst h2
              exact pdfPost_resolve_build ST s t nid true hnin hcp.inv hcp.rsub hcp.usub
                hcp.vsub hcp.rfresh hcp.ufresh hcp.vtrack hrf huf
                ⟨nd, hg, by rw [hk]; exact Or.inl ⟨rfl, Or.inl hopt⟩⟩
            | false =>
              rw [hopt, if_neg (fun hh => Bool.noConfusion hh)] at h
              cases rc with
              | some b =>
                dsimp only at h
                injection h with h
                injection h with h1 h2
                subst h1
                subst h2
                have hrf2 : assocGet t.resolved nid = none := by
                  rw [hcp.rfresh nid (List.mem_cons_self _ _)]
                  exact hrf
                have hcv2 : assocGet (assocSet t.resolved nid b) c = some b :=
                  rsub_set t.resolved nid b hrf2 c b (hcp.rval b rfl)
                refine pdfPost_resolve_build ST s t nid b hnin hcp.inv hcp.rsub hcp.usub
                  hcp.vsub hcp.rfresh hcp.ufresh hcp.vtrack hrf huf ⟨nd, hg, ?_⟩
                rw [hk]
                cases b with
                | true => exact Or.inl ⟨rfl, Or.inr hcv2⟩
                | false => exact Or.inr ⟨rfl, hopt, hcv2⟩
              | none =>
                dsimp only at h
                injection h with h
                injection h with h1 h2
                subst h1
                subst h2
                refine pdfPost_unresolve_build ST s t nid [c] hnin hcp.inv hcp.rsub hcp.usub
                  hcp.vsub hcp.rfresh hcp.ufresh hcp.vtrack hrf huf
                  ⟨nd, hg, hopt, by rw [hk]; trivial, ?_⟩ ?_
                · unfold DepsOK
                  rw [show BMembers nd.kind = [c] from by rw [hk]; rfl]
                  exact ⟨fun d hd => hd, fun m hm => Or.inr hm⟩
                · intro d hd
                  rw [List.mem_singleton] at hd
                  subst hd
                  exact hcp.vmem
        | rep c =>
          rw [hk] at h
          dsimp only at h
          have hcl : c < ST.length := hclosed nid nd hg c (by rw [hk]; simp [BMembers])
          cases hpd : processDepthFirst ST fuel c ⟨nid :: s.visited, s.resolved, s.unresolved⟩ with
          | none => rw [hpd] at h; exact absurd h (by simp)
          | some pr =>
            obtain ⟨t, rc⟩ := pr
            rw [hpd] at h
            dsimp only at h
            have hcp := ih c _ t rc hpd hcl hi1
            cases hopt : nd.optional with
            | true =>
              rw [hopt, if_pos rfl] at h
              injection h with h
              injection h with h1 h2
              subst h1
              subst h2
              exact pdfPost_resolve_build ST s t nid true hnin hcp.inv hcp.rsub hcp.usub
                hcp.vsub hcp.rfresh hcp.ufresh hcp.vtrack hrf huf
                ⟨nd, hg, by rw [hk]; exact Or.inl ⟨rfl, Or.inl hopt⟩⟩
            | false =>
              rw [hopt, if_neg (fun hh => Bool.noConfusion hh)] at h
              cases rc with
              | some b =>
                dsimp only at h
                injection h with h
                injection h with h1 h2
                subst h1
                subst h2
                have hrf2 : assocGet t.resolved nid = none := by
                  rw [hcp.rfresh nid (List.mem_cons_self _ _)]
                  exact hrf
                have hcv2 : assocGet (assocSet t.resolved nid b) c = some b :=
                  rsub_set t.resolved nid b hrf2 c b (hcp.rval b rfl)
                refine pdfPost_resolve_build ST s t nid b hnin hcp.inv hcp.rsub hcp.usub
                  hcp.vsub hcp.rfresh hcp.ufresh hcp.vtrack hrf huf ⟨nd, hg, ?_⟩
                rw [hk]
                cases b with
                | true => exact Or.inl ⟨rfl, Or.inr hcv2⟩
                | false => exact Or.inr ⟨rfl, hopt, hcv2⟩
              | none =>
                dsimp only at h
                injection h with h
                injection h with h1 h2
                subst h1
                subst h2
                refine pdfPost_unresolve_build ST s t nid [c] hnin hcp.inv hcp.rsub hcp.usub
                  hcp.vsub hcp.rfresh hcp.ufresh hcp.vtrack hrf huf
                  ⟨nd, hg, hopt, by rw [hk]; trivial, ?_⟩ ?_
                · unfold DepsOK
                  rw [show BMembers nd.kind = [c] from by rw [hk]; rfl]
                  exact ⟨fun d hd => hd, fun m hm => Or.inr hm⟩
                · intro d hd
                  rw [List.mem_singleton] at hd
                  subst hd
                  exact hcp.vmem
        | seq ms =>
          rw [hk] at h
          dsimp only at h
          have hms : ∀ m ∈ ms, m < ST.length := fun m hm =>
            hclosed nid nd hg m (by rw [hk]; simpa [BMembers] using hm)
          cases hpm : pmLoop (processDepthFirst ST fuel) ms
              ⟨nid :: s.visited, s.resolved, s.unresolved⟩ [] true with
          | none => rw [hpm] at h; exact absurd h (by simp)
          | some trip =>
            obtain ⟨t, deps, allOpt⟩ := trip
            rw [hpm] at h
            dsimp only at h
            have hmp := pmLoop_spec ST (processDepthFirst ST fuel)
              (fun nid2 s3 s4 r2 h2 hn2 hi2 => ih nid2 s3 s4 r2 h2 hn2 hi2)
              ms _ [] true t deps allOpt hpm hms hi1
              (fun d hd => absurd hd (List.not_mem_nil d))
            cases hopt : nd.optional with
            | true =>
              rw [hopt, if_pos rfl] at h
              injection h with h
              injection h with h1 h2
              subst h1
              subst h2
              exact pdfPost_resolve_build ST s t nid true hnin hmp.inv hmp.rsub hmp.usub
                hmp.vsub hmp.rfresh hmp.ufresh hmp.vtrack hrf huf
                ⟨nd, hg, by rw [hk]; exact Or.inl ⟨rfl, Or.inl hopt⟩⟩
            | false =>
              rw [hopt, if_neg (fun hh => Bool.noConfusion hh)] at h
              have hrf2 : assocGet t.resolved nid = none := by
                rw [hmp.rfresh nid (List.mem_cons_self _ _)]
                exact hrf
              cases hde : (deps.isEmpty || !allOpt) with
              | true =>
                rw [hde, if_pos rfl] at h
                injection h with h
                injection h with h1 h2
                subst h1
                subst h2
                refine pdfPost_resolve_build ST s t nid allOpt hnin hmp.inv hmp.rsub hmp.usub
                  hmp.vsub hmp.rfresh hmp.ufresh hmp.vtrack hrf huf ⟨nd, hg, ?_⟩
                rw [hk]
                cases hao : allOpt with
                | true =>
                  refine Or.inl ⟨rfl, Or.inr ?_⟩
                  intro m hm
                  have hdemp : deps = [] := by
                    cases deps with
                    | nil => rfl
                    | cons a b => rw [hao] at hde; simp at hde
                  rcases hmp.allTrue hao m hm with hv | hv
                  · exact rsub_set t.resolved nid true hrf2 m true hv
                  · rw [hdemp] at hv
                    exact absurd hv (List.not_mem_nil m)
                | false =>
                  refine Or.inr ⟨rfl, hopt, ?_⟩
                  rcases hmp.allFalse hao with hf | ⟨m, hm, hv⟩
                  · exact Bool.noConfusion hf
                  · exact ⟨m, hm, rsub_set t.resolved nid false hrf2 m false hv⟩
              | false =>
                rw [hde, if_neg (fun hh => Bool.noConfusion hh)] at h
                injection h with h
                injection h with h1 h2
                subst h1
                subst h2
                have hao : allOpt = true := by
                  have hde2 := hde
                  simp at hde2
                  exact hde2.2
                refine pdfPost_unresolve_build ST s t nid deps hnin hmp.inv hmp.rsub hmp.usub
                  hmp.vsub hmp.rfresh hmp.ufresh hmp.vtrack hrf huf
                  ⟨nd, hg, hopt, by rw [hk]; trivial, ?_⟩ hmp.dvis2
                unfold DepsOK
                rw [show BMembers nd.kind = ms from by rw [hk]; rfl]
                constructor
                · intro d hd
                  rcases hmp.dsub d hd with hd2 | hd2
                  · exact absurd hd2 (List.not_mem_nil d)
                  · exact hd2
                · intro m hm
                  exact hmp.allTrue hao m hm
        | choice ms exh =>
          rw [hk] at h
          dsimp only at h
          have hms : ∀ m ∈ ms, m < ST.length := fun m hm =>
            hclosed nid nd hg m (by rw [hk]; simpa [BMembers] using hm)
          cases hpm : pmLoop (processDepthFirst ST fuel) ms
              ⟨nid :: s.visited, s.resolved, s.unresolved⟩ [] true with
          | none => rw [hpm] at h; exact absurd h (by simp)
          | some trip =>
            obtain ⟨t, deps, allOpt⟩ := trip
            rw [hpm] at h
            dsimp only at h
            have hmp := pmLoop_spec ST (processDepthFirst ST fuel)
              (fun nid2 s3 s4 r2 h2 hn2 hi2 => ih nid2 s3 s4 r2 h2 hn2 hi2)
              ms _ [] true t deps allOpt hpm hms hi1
              (fun d hd => absurd hd (List.not_mem_nil d))
            cases hopt : nd.optional with
            | true =>
              rw [hopt, if_pos rfl] at h
              injection h with h
              injection h with h1 h2
              subst h1
              subst h2
              exact pdfPost_resolve_build ST s t nid true hnin hmp.inv hmp.rsub hmp.usub
                hmp.vsub hmp.rfresh hmp.ufresh hmp.vtrack hrf huf
                ⟨nd, hg, by rw [hk]; exact Or.inl ⟨rfl, Or.inl hopt⟩⟩
            | false =>
              rw [hopt, if_neg (fun hh => Bool.noConfusion hh)] at h
              have hrf2 : assocGet t.resolved nid = none := by
                rw [hmp.rfresh nid (List.mem_cons_self _ _)]
                exact hrf
              cases hde : (deps.isEmpty || !allOpt) with
              | true =>
                rw [hde, if_pos rfl] at h
                injection h with h
                injection h with h1 h2
                subst h1
                subst h2
                refine pdfPost_resolve_build ST s t nid allOpt hnin hmp.inv hmp.rsub hmp.usub
                  hmp.vsub hmp.rfresh hmp.ufresh hmp.vtrack hrf huf ⟨nd, hg, ?_⟩
                rw [hk]
                cases hao : allOpt with
                | true =>
                  refine Or.inl ⟨rfl, Or.inr ?_⟩
                  intro m hm
                  have hdemp : deps = [] := by
                    cases deps with
                    | nil => rfl
                    | cons a b => rw [hao] at hde; simp at hde
                  rcases hmp.allTrue hao m hm with hv | hv
                  · exact rsub_set t.resolved nid true hrf2 m true hv
                  · rw [hdemp] at hv
                    exact absurd hv (List.not_mem_nil m)
                | false =>
                  refine Or.inr ⟨rfl, hopt, ?_⟩
                  rcases hmp.allFalse hao with hf | ⟨m, hm, hv⟩
                  · exact Bool.noConfusion hf
                  · exact ⟨m, hm, rsub_set t.resolved nid false hrf2 m false hv⟩
              | false =>
                rw [hde, if_neg (fun hh => Bool.noConfusion hh)] at h
                injection h with h
                injection h with h1 h2
                subst h1
                subst h2
                have hao : allOpt = true := by
                  have hde2 := hde
                  simp at hde2
                  exact hde2.2
                refine pdfPost_unresolve_build ST s t nid deps hnin hmp.inv hmp.rsub hmp.usub
                  hmp.vsub hmp.rfresh hmp.ufresh hmp.vtrack hrf huf
                  ⟨nd, hg, hopt, by rw [hk]; trivial, ?_⟩ hmp.dvis2
                unfold DepsOK
                rw [show BMembers nd.kind = ms from by rw [hk]; rfl]
                constructor
                · intro d hd
                  rcases hmp.dsub d hd with hd2 | hd2
                  · exact absurd hd2 (List.not_mem_nil d)
                  · exact hd2
                · intro m hm
                  exact hmp.allTrue hao m hm

/-- Keys after an association set are old keys or the set key. -/
theorem mem_keys_assocSet {α : Type} (l : List (Nat × α)) (k : Nat) (v : α)
    (n : Nat) (h : n ∈ (assocSet l k v).map Prod.fst) :
    n ∈ l.map Prod.fst ∨ n = k := by
  induction l with
  | nil =>
    simp only [assocSet, List.map_cons, List.map_nil, List.mem_singleton] at h
    exact Or.inr h
  | cons p rest ih =>
    obtain ⟨pk, pv⟩ := p
    simp only [assocSet] at h
    by_cases hk : k = pk
    · rw [if_pos hk] at h
      simp only [List.map_cons, List.mem_cons] at h
      rcases h with h | h
      · subst hk
        exact Or.inr h
      · exact Or.inl (List.mem_cons_of_mem _ h)
    · rw [if_neg hk] at h
      simp only [List.map_cons, List.mem_cons] at h
      rcases h with h | h
      · exact Or.inl (by simp [h])
      · rcases ih h with h2 | h2
        · exact Or.inl (List.mem_cons_of_mem _ h2)
        · exact Or.inr h2

/-- Association set keeps the key list duplicate-free. -/
theorem assocSet_keys_nodup {α : Type} (l : List (Nat × α)) (k : Nat) (v : α)
    (h : (l.map Prod.fst).Nodup) : ((assocSet l k v).map Prod.fst).Nodup := by
  induction l with
  | nil => simp [assocSet]
  | cons p rest ih =>
    obtain ⟨pk, pv⟩ := p
    simp only [assocSet]
    by_cases hk : k = pk
    · rw [if_pos hk]
      subst hk
      simpa using h
    · rw [if_neg hk]
      simp only [List.map_cons, List.nodup_cons] at h ⊢
      refine ⟨?_, ih h.2⟩
      intro hmem
      rcases mem_keys_assocSet rest k v pk hmem with h2 | h2
      · exact h.1 h2
      · exact hk h2.symm

/-- From a `false` dependency, a composite non-optional node resolves to
`false` justifiedly. -/
theorem resolvedOK_of_false_dep (ST : BStore) (R : List (Nat × Bool)) (n : Nat)
    (nd : BNode) (deps : List Nat) (d : Nat)
    (hget : ST.get? n = some nd) (hopt : nd.optional = false)
    (hcomp : CompositeKind nd.kind) (hdep : DepsOK R nd deps)
    (hd : d ∈ deps) (hv : assocGet R d = some false) :
    ResolvedOK ST R n false := by
  refine ⟨nd, hget, ?_⟩
  have hmem := hdep.1 d hd
  cases hk : nd.kind with
  | stringT c =>
    rw [hk] at hcomp
    exact absurd hcomp (by simp [CompositeKind])
  | patternT c =>
    rw [hk] at hcomp
    exact absurd hcomp (by simp [CompositeKind])
  | nt nm c =>
    rw [hk] at hmem
    simp only [BMembers, List.mem_singleton] at hmem
    subst hmem
    exact Or.inr ⟨rfl, hopt, hv⟩
  | rep c =>
    rw [hk] at hmem
    simp only [BMembers, List.mem_singleton] at hmem
    subst hmem
    exact Or.inr ⟨rfl, hopt, hv⟩
  | seq ms =>
    rw [hk] at hmem
    simp only [BMembers] at hmem
    exact Or.inr ⟨rfl, hopt, d, hmem, hv⟩
  | choice ms exh =>
    rw [hk] at hmem
    simp only [BMembers] at hmem
    exact Or.inr ⟨rfl, hopt, d, hmem, hv⟩

/-- With all children resolved `true`, a composite node resolves to
`true` justifiedly. -/
theorem resolvedOK_of_all_true (ST : BStore) (R : List (Nat × Bool)) (n : Nat)
    (nd : BNode) (hget : ST.get? n = some nd) (hcomp : CompositeKind nd.kind)
    (hall : ∀ m ∈ BMembers nd.kind, assocGet R m = some true) :
    ResolvedOK ST R n true := by
  refine ⟨nd, hget, ?_⟩
  cases hk : nd.kind with
  | stringT c =>
    rw [hk] at hcomp
    exact absurd hcomp (by simp [CompositeKind])
  | patternT c =>
    rw [hk] at hcomp
    exact absurd hcomp (by simp [CompositeKind])
  | nt nm c =>
    refine Or.inl ⟨rfl, Or.inr ?_⟩
    have := hall c (by rw [hk]; simp [BMembers])
    exact this
  | rep c =>
    refine Or.inl ⟨rfl, Or.inr ?_⟩
    have := hall c (by rw [hk]; simp [BMembers])
    exact this
  | seq ms =>
    refine Or.inl ⟨rfl, Or.inr ?_⟩
    intro m hm
    exact hall m (by rw [hk]; simpa [BMembers] using hm)
  | choice ms exh =>
    refine Or.inl ⟨rfl, Or.inr ?_⟩
    intro m hm
    exact hall m (by rw [hk]; simpa [BMembers] using hm)

/-- What the dependency scan reports. -/
theorem scanDeps_spec (R : List (Nat × Bool)) :
    ∀ ds acc prog ds2 nonOpt prog2,
      scanDeps R ds acc prog = (ds2, nonOpt, prog2) →
      (nonOpt = true → ∃ d ∈ ds, assocGet R d = some false) ∧
      (nonOpt = false →
        (∀ d ∈ ds2, d ∈ acc ∨ d ∈ ds) ∧
        (∀ d ∈ acc, d ∈ ds2) ∧
        (∀ d ∈ ds, assocGet R d = some true ∨ d ∈ ds2)) ∧
      (prog2 = false → prog = false ∧ ∀ d ∈ ds, assocGet R d = none) := by
  intro ds
  induction ds with
  | nil =>
    intro acc prog ds2 nonOpt prog2 h
    simp only [scanDeps] at h
    injection h with h1 h
    injection h with h2 h3
    subst h1
    subst h2
    subst h3
    refine ⟨fun ht => Bool.noConfusion ht, fun _ => ?_, fun hf => ⟨hf, ?_⟩⟩
    · exact ⟨fun d hd => Or.inl hd, fun d hd => hd,
        fun d hd => absurd hd (List.not_mem_nil d)⟩
    · intro d hd
      exact absurd hd (List.not_mem_nil d)
  | cons d0 rest ih =>
    intro acc prog ds2 nonOpt prog2 h
    simp only [scanDeps] at h
    cases hg : assocGet R d0 with
    | some v =>
      cases v with
      | false =>
        rw [hg] at h
        dsimp only at h
        injection h with h1 h
        injection h with h2 h3
        subst h1
        subst h2
        subst h3
        refine ⟨fun _ => ⟨d0, List.mem_cons_self _ _, hg⟩,
          fun hf => Bool.noConfusion hf,
          fun hf => Bool.noConfusion hf⟩
      | true =>
        rw [hg] at h
        dsimp only at h
        have hrec := ih acc true ds2 nonOpt prog2 h
        refine ⟨?_, ?_, ?_⟩
        · intro ht
          obtain ⟨d, hd, hv⟩ := hrec.1 ht
          exact ⟨d, List.mem_cons_of_mem _ hd, hv⟩
        · intro hf
          obtain ⟨ha, hb, hc⟩ := hrec.2.1 hf
          refine ⟨fun d hd => (ha d hd).imp id (List.mem_cons_of_mem _), hb, ?_⟩
          intro d hd
          rcases List.mem_cons.mp hd with hd2 | hd2
          · subst hd2
            exact Or.inl hg
          · exact hc d hd2
        · intro hf
          have := (hrec.2.2 hf).1
          exact absurd this (by simp)
    | none =>
      rw [hg] at h
      dsimp only at h
      have hrec := ih (acc ++ [d0]) prog ds2 nonOpt prog2 h
      refine ⟨?_, ?_, ?_⟩
      · intro ht
        obtain ⟨d, hd, hv⟩ := hrec.1 ht
        exact ⟨d, List.mem_cons_of_mem _ hd, hv⟩
      · intro hf
        obtain ⟨ha, hb, hc⟩ := hrec.2.1 hf
        refine ⟨?_, fun d hd => hb d (List.mem_append_left _ hd), ?_⟩
        · intro d hd
          rcases ha d hd with hd2 | hd2
          · rcases List.mem_append.mp hd2 with hd3 | hd3
            · exact Or.inl hd3
            · rw [List.mem_singleton] at hd3
              subst hd3
              exact Or.inr (List.mem_cons_self _ _)
          · exact Or.inr (List.mem_cons_of_mem _ hd2)
        · intro d hd
          rcases List.mem_cons.mp hd with hd2 | hd2
          · subst hd2
            exact Or.inr (hb d (List.mem_append_right _ (List.mem_singleton.mpr rfl)))
          · exact hc d hd2
      · intro hf
        obtain ⟨hp, hall⟩ := hrec.2.2 hf
        refine ⟨hp, ?_⟩
        intro d hd
        rcases List.mem_cons.mp hd with hd2 | hd2
        · subst hd2
          exact hg
        · exact hall d hd2

/-- One elimination pass establishes its postcondition. -/
theorem elimPass_spec (ST : BStore) :
    ∀ U R prog U2 R2 prog2,
      elimPass U R prog = (U2, R2, prog2) → EOk ST R U →
      EPPost ST U R prog U2 R2 prog2 := by
  intro U
  induction U with
  | nil =>
    intro R prog U2 R2 prog2 h he
    simp only [elimPass] at h
    injection h with h1 h
    injection h with h2 h3
    subst h1
    subst h2
    subst h3
    exact ⟨⟨he.1, fun p hp => absurd hp (List.not_mem_nil p),
        fun p hp => absurd hp (List.not_mem_nil p), List.nodup_nil⟩,
      rsub_refl _, fun n hn => hn, fun n b hb => Or.inl hb,
      fun n hn => Or.inl hn, fun hp => hp,
      fun _ n b hb => Or.inl hb,
      fun _ p hp => absurd hp (List.not_mem_nil p),
      fun p hp => absurd hp (List.not_mem_nil p)⟩
  | cons p0 rest ih =>
    obtain ⟨n, deps⟩ := p0
    intro R prog U2 R2 prog2 h he
    simp only [elimPass] at h
    obtain ⟨hrok, huok, hdis, hund⟩ := he
    obtain ⟨nd, hget, hopt, hcomp, hdeps⟩ := huok (n, deps) (List.mem_cons_self _ _)
    have hfresh : assocGet R n = none := hdis (n, deps) (List.mem_cons_self _ _)
    have hnKeys : n ∉ rest.map Prod.fst := by
      have := hund
      simp only [List.map_cons, List.nodup_cons] at this
      exact this.1
    have hundr : (rest.map Prod.fst).Nodup := by
      have := hund
      simp only [List.map_cons, List.nodup_cons] at this
      exact this.2
    cases hsd : scanDeps R deps [] prog with
    | mk deps2 pr =>
      obtain ⟨nonOpt, progm⟩ := pr
      rw [hsd] at h
      dsimp only at h
      have hscan := scanDeps_spec R deps [] prog deps2 nonOpt progm hsd
      have hprogmono : prog = true → progm = true := by
        intro hp
        cases hpm : progm with
        | true => rfl
        | false => exact absurd hp (by simp [(hscan.2.2 hpm).1])
      cases hno : (nonOpt || deps2.isEmpty) with
      | true =>
        rw [hno, if_pos rfl] at h
        have hokNew : ResolvedOK ST (assocSet R n !nonOpt) n !nonOpt := by
          cases hnon : nonOpt with
          | true =>
            obtain ⟨d, hd, hv⟩ := hscan.1 hnon
            exact resolvedOK_mono ST (rsub_set R n _ hfresh) n false
              (resolvedOK_of_false_dep ST R n nd deps d hget hopt hcomp hdeps hd hv)
          | false =>
            have hde : deps2 = [] := by
              rw [hnon] at hno
              simp only [Bool.false_or] at hno
              cases deps2 with
              | nil => rfl
              | cons a b => simp at hno
            obtain ⟨ha, hb, hc⟩ := hscan.2.1 hnon
            refine resolvedOK_mono ST (rsub_set R n _ hfresh) n true
              (resolvedOK_of_all_true ST R n nd hget hcomp ?_)
            intro m hm
            rcases hdeps.2 m hm with hv | hv
            · exact hv
            · rcases hc m hv with hv2 | hv2
              · exact hv2
              · rw [hde] at hv2
                exact absurd hv2 (List.not_mem_nil m)
        have heok2 : EOk ST (assocSet R n !nonOpt) rest := by
          refine ⟨?_, ?_, ?_, hundr⟩
          · intro n2 b hb
            by_cases hn2 : n2 = n
            · subst hn2
              rw [assocGet_set, if_pos rfl] at hb
              injection hb with hb
              subst hb
              exact hokNew
            · rw [assocGet_set, if_neg hn2] at hb
              exact resolvedOK_mono ST (rsub_set R n _ hfresh) n2 b (hrok n2 b hb)
          · intro p hp
            obtain ⟨nd2, hg2, ho2, hc2, hd2⟩ := huok p (List.mem_cons_of_mem _ hp)
            exact ⟨nd2, hg2, ho2, hc2, depsOK_mono (rsub_set R n _ hfresh) nd2 p.2 hd2⟩
          · intro p hp
            have hne : p.1 ≠ n := by
              intro heq
              exact hnKeys (heq ▸ List.mem_map_of_mem Prod.fst hp)
            rw [assocGet_set, if_neg hne]
            exact hdis p (List.mem_cons_of_mem _ hp)
        have ihrec := ih (assocSet R n !nonOpt) progm U2 R2 prog2 h heok2
        refine ⟨ihrec.eok, rsub_trans (rsub_set R n _ hfresh) ihrec.rsub,
          ?_, ?_, ?_, ?_, ?_, ?_, ?_⟩
        · intro n2 hn2
          exact List.mem_cons_of_mem _ (ihrec.ukeys n2 hn2)
        · intro n2 b hb
          rcases ihrec.resokeys n2 b hb with hb2 | hb2
          · by_cases hn2 : n2 = n
            · subst hn2
              exact Or.inr (by simp)
            · rw [assocGet_set, if_neg hn2] at hb2
              exact Or.inl hb2
          · exact Or.inr (List.mem_cons_of_mem _ hb2)
        · intro n2 hn2
          simp only [List.map_cons, List.mem_cons] at hn2
          rcases hn2 with hn2 | hn2
          · subst hn2
            refine Or.inr ?_
            have h5 : assocGet (assocSet R n2 !nonOpt) n2 = some (!nonOpt) := by
              rw [assocGet_set, if_pos rfl]
            rw [ihrec.rsub n2 (!nonOpt) h5]
            simp
          · exact ihrec.uresolved n2 hn2
        · intro hp
          exact ihrec.progmono (hprogmono hp)
        · intro hf n2 b hb
          rcases ihrec.newtrue hf n2 b hb with hb2 | hb2
          · by_cases hn2 : n2 = n
            · subst hn2
              rw [assocGet_set, if_pos rfl] at hb2
              injection hb2 with hb2
              cases hnon : nonOpt with
              | false =>
                subst hb2
                rw [hnon]
                exact Or.inr rfl
              | true =>
                exfalso
                obtain ⟨d, hd, hv⟩ := hscan.1 hnon
                have hpm : progm = true := by
                  cases hpm2 : progm with
                  | true => rfl
                  | false =>
                    have := (hscan.2.2 hpm2).2 d hd
                    rw [this] at hv
                    exact Option.noConfusion hv
                have := ihrec.progmono hpm
                rw [this] at hf
                exact Bool.noConfusion hf
            · rw [assocGet_set, if_neg hn2] at hb2
              exact Or.inl hb2
          · exact Or.inr hb2
        · intro hf p hp d hd
          have := ihrec.keptnone hf p hp d hd
          cases hg2 : assocGet R d with
          | none => rfl
          | some v =>
            exfalso
            have := rsub_set R n (!nonOpt) hfresh d v hg2
            simp_all
        · intro p hp
          obtain ⟨q, hq, hq1, hq2⟩ := ihrec.depsub p hp
          exact ⟨q, List.mem_cons_of_mem _ hq, hq1, hq2⟩
      | false =>
        rw [hno, if_neg (fun hh => Bool.noConfusion hh)] at h
        have hnon : nonOpt = false := by
          cases hnn : nonOpt with
          | false => rfl
          | true => rw [hnn] at hno; simp at hno
        obtain ⟨ha, hb, hc⟩ := hscan.2.1 hnon
        have hd2sub : ∀ d ∈ deps2, d ∈ deps := by
          intro d hd
          rcases ha d hd with hd2 | hd2
          · exact absurd hd2 (List.not_mem_nil d)
          · exact hd2
        cases hep : elimPass rest R progm with
        | mk rest3 pr3 =>
          obtain ⟨R3, prog3⟩ := pr3
          rw [hep] at h
          dsimp only at h
          injection h with h1 h
          injection h with h2 h3
          subst h1
          subst h2
          subst h3
          have ihrec := ih R progm rest3 R3 prog3 hep
            ⟨hrok, fun p hp => huok p (List.mem_cons_of_mem _ hp),
             fun p hp => hdis p (List.mem_cons_of_mem _ hp), hundr⟩
          have hR3n : assocGet R3 n = none := by
            cases hg3 : assocGet R3 n with
            | none => rfl
            | some b =>
              exfalso
              rcases ihrec.resokeys n b hg3 with hb2 | hb2
              · rw [hfresh] at hb2
                exact Option.noConfusion hb2
              · exact hnKeys hb2
          refine ⟨⟨ihrec.eok.1, ?_, ?_, ?_⟩, ihrec.rsub, ?_, ?_, ?_, ?_, ?_, ?_, ?_⟩
          · intro p hp
            rcases List.mem_cons.mp hp with hp2 | hp2
            · subst hp2
              refine ⟨nd, hget, hopt, hcomp, depsOK_mono ihrec.rsub nd deps2 ?_⟩
              refine ⟨fun d hd => hdeps.1 d (hd2sub d hd), ?_⟩
              intro m hm
              rcases hdeps.2 m hm with hv | hv
              · exact Or.inl hv
              · rcases hc m hv with hv2 | hv2
                · exact Or.inl hv2
                · exact Or.inr hv2
            · exact ihrec.eok.2.1 p hp2
          · intro p hp
            rcases List.mem_cons.mp hp with hp2 | hp2
            · subst hp2
              exact hR3n
            · exact ihrec.eok.2.2.1 p hp2
          · simp only [List.map_cons, List.nodup_cons]
            refine ⟨?_, ihrec.eok.2.2.2⟩
            intro hmem
            exact hnKeys (ihrec.ukeys n hmem)
          · intro n2 hn2
            simp only [List.map_cons, List.mem_cons] at hn2 ⊢
            rcases hn2 with hn2 | hn2
            · exact Or.inl hn2
            · exact Or.inr (ihrec.ukeys n2 hn2)
          · intro n2 b hb
            rcases ihrec.resokeys n2 b hb with hb2 | hb2
            · exact Or.inl hb2
            · exact Or.inr (List.mem_cons_of_mem _ hb2)
          · intro n2 hn2
            simp only [List.map_cons, List.mem_cons] at hn2
            rcases hn2 with hn2 | hn2
            · subst hn2
              exact Or.inl (by simp)
            · rcases ihrec.uresolved n2 hn2 with hn3 | hn3
              · exact Or.inl (by simp [hn3])
              · exact Or.inr hn3
          · intro hp
            exact ihrec.progmono (hprogmono hp)
          · intro hf n2 b hb
            exact ihrec.newtrue hf n2 b hb
          · intro hf p hp d hd
            rcases List.mem_cons.mp hp with hp2 | hp2
            · subst hp2
              have hpm : progm = false := by
                cases hpm2 : progm with
                | false => rfl
                | true =>
                  have := ihrec.progmono hpm2
                  rw [this] at hf
                  exact Bool.noConfusion hf
              exact (hscan.2.2 hpm).2 d (hd2sub d hd)
            · exact ihrec.keptnone hf p hp2 d hd
          · intro p hp
            rcases List.mem_cons.mp hp with hp2 | hp2
            · subst hp2
              exact ⟨(n, deps), List.mem_cons_self _ _, rfl, hd2sub⟩
            · obtain ⟨q, hq, hq1, hq2⟩ := ihrec.depsub p hp2
              exact ⟨q, List.mem_cons_of_mem _ hq, hq1, hq2⟩

/-- The residual loop resolves exactly the remaining keys, to `true`. -/
theorem residual_get (U : List (Nat × List Nat)) :
    ∀ R, (∀ p ∈ U, assocGet R p.1 = none) → (U.map Prod.fst).Nodup →
    ∀ n, assocGet (residualResolve U R) n =
      if n ∈ U.map Prod.fst then some true else assocGet R n := by
  induction U with
  | nil =>
    intro R hdis hnd n
    simp [residualResolve]
  | cons p rest ih =>
    obtain ⟨k, deps⟩ := p
    intro R hdis hnd n
    have hkfresh : assocGet R k = none := hdis (k, deps) (List.mem_cons_self _ _)
    have hknotin : k ∉ rest.map Prod.fst := by
      simp only [List.map_cons, List.nodup_cons] at hnd
      exact hnd.1
    have hndr : (rest.map Prod.fst).Nodup := by
      simp only [List.map_cons, List.nodup_cons] at hnd
      exact hnd.2
    have hstep : residualResolve ((k, deps) :: rest) R
        = residualResolve rest (assocSet R k true) := rfl
    rw [hstep]
    have hdis2 : ∀ p ∈ rest, assocGet (assocSet R k true) p.1 = none := by
      intro p hp
      have hne : p.1 ≠ k := by
        intro heq
        exact hknotin (heq ▸ List.mem_map_of_mem Prod.fst hp)
      rw [assocGet_set, if_neg hne]
      exact hdis p (List.mem_cons_of_mem _ hp)
    rw [ih (assocSet R k true) hdis2 hndr n]
    by_cases h1 : n ∈ rest.map Prod.fst
    · rw [if_pos h1, if_pos (by simp [h1])]
    · rw [if_neg h1, assocGet_set]
      by_cases h2 : n = k
      · subst h2
        rw [if_pos rfl, if_pos (by simp)]
      · rw [if_neg h2, if_neg (by simp [h1, h2])]

/-- The elimination loop delivers a self-justified resolution map. -/
theorem elimLoop_spec (ST : BStore) : ∀ fuel U R RF,
    elimLoop fuel U R = some RF → EOk ST R U →
    (∀ p ∈ U, ∀ d ∈ p.2, d ∈ U.map Prod.fst ∨ assocGet R d ≠ none) →
    (∀ n b, assocGet RF n = some b → ResolvedOK ST RF n b) ∧ RSub R RF := by
  intro fuel
  induction fuel with
  | zero =>
    intro U R RF h he htr
    simp [elimLoop] at h
  | succ fuel ih =>
    intro U R RF h he htr
    simp only [elimLoop] at h
    cases hU : U.isEmpty with
    | true =>
      rw [hU, if_pos rfl] at h
      injection h with h
      subst h
      exact ⟨he.1, rsub_refl _⟩
    | false =>
      rw [hU, if_neg (fun hh => Bool.noConfusion hh)] at h
      cases hep : elimPass U R false with
      | mk U2 pr =>
        obtain ⟨R2, prog⟩ := pr
        rw [hep] at h
        dsimp only at h
        have hpp := elimPass_spec ST U R false U2 R2 prog hep he
        cases hprog : prog with
        | true =>
          rw [hprog, if_pos rfl] at h
          have htr2 : ∀ p ∈ U2, ∀ d ∈ p.2,
              d ∈ U2.map Prod.fst ∨ assocGet R2 d ≠ none := by
            intro p hp d hd
            obtain ⟨q, hq, hq1, hq2⟩ := hpp.depsub p hp
            rcases htr q hq d (hq2 d hd) with h2 | h2
            · rcases hpp.uresolved d h2 with h3 | h3
              · exact Or.inl h3
              · exact Or.inr h3
            · refine Or.inr ?_
              cases hg : assocGet R d with
              | none => exact absurd hg h2
              | some v =>
                rw [hpp.rsub d v hg]
                simp
          obtain ⟨hrok, hsub⟩ := ih U2 R2 RF h hpp.eok htr2
          exact ⟨hrok, rsub_trans hpp.rsub hsub⟩
        | false =>
          rw [hprog, if_neg (fun hh => Bool.noConfusion hh)] at h
          injection h with h
          subst h
          have hd2 : ∀ p ∈ U2, assocGet R2 p.1 = none := hpp.eok.2.2.1
          have hnd2 : (U2.map Prod.fst).Nodup := hpp.eok.2.2.2
          have hres := residual_get U2 R2 hd2 hnd2
          have hdd : ∀ p ∈ U2, ∀ d ∈ p.2,
              d ∈ U2.map Prod.fst ∨ assocGet R2 d = some true := by
            intro p hp d hd
            have hdnone : assocGet R d = none := hpp.keptnone hprog p hp d hd
            obtain ⟨q, hq, hq1, hq2⟩ := hpp.depsub p hp
            rcases htr q hq d (hq2 d hd) with h2 | h2
            · rcases hpp.uresolved d h2 with h3 | h3
              · exact Or.inl h3
              · cases hg : assocGet R2 d with
                | none => exact absurd hg h3
                | some b =>
                  rcases hpp.newtrue hprog d b hg with h4 | h4
                  · rw [hdnone] at h4
                    exact Option.noConfusion h4
                  · exact Or.inr (by rw [h4])
            · exact absurd hdnone h2
          have hsub2 : RSub R2 (residualResolve U2 R2) := by
            intro m v hv
            rw [hres m]
            by_cases hm : m ∈ U2.map Prod.fst
            · exfalso
              obtain ⟨p, hp, hp1⟩ := List.mem_map.mp hm
              have hnone := hd2 p hp
              rw [hp1] at hnone
              rw [hnone] at hv
              exact Option.noConfusion hv
            · rw [if_neg hm]
              exact hv
          refine ⟨?_, rsub_trans hpp.rsub hsub2⟩
          intro m b hb
          rw [hres m] at hb
          by_cases hm : m ∈ U2.map Prod.fst
          · rw [if_pos hm] at hb
            injection hb with hb
            subst hb
            obtain ⟨p, hp, hp1⟩ := List.mem_map.mp hm
            obtain ⟨nd, hget, hopt, hcomp, hdeps⟩ := hpp.eok.2.1 p hp
            subst hp1
            refine resolvedOK_of_all_true ST _ p.1 nd hget hcomp ?_
            intro mm hmm
            rw [hres mm]
            rcases hdeps.2 mm hmm with hv | hv
            · by_cases hk : mm ∈ U2.map Prod.fst
              · rw [if_pos hk]
              · rw [if_neg hk]
                exact hv
            · rcases hdd p hp mm hv with hk | hk
              · rw [if_pos hk]
              · by_cases hk2 : mm ∈ U2.map Prod.fst
                · rw [if_pos hk2]
                · rw [if_neg hk2]
                  exact hk
          · rw [if_neg hm] at hb
            exact resolvedOK_mono ST hsub2 m b (hpp.eok.1 m b hb)

/-- The member loop keeps the resolution keys duplicate-free. -/
theorem pmLoop_rnodup (step : Nat → OptState → Option (OptState × Option Bool))
    (hstep : ∀ nid s s2 r, step nid s = some (s2, r) →
      (s.resolved.map Prod.fst).Nodup → (s2.resolved.map Prod.fst).Nodup) :
    ∀ ms s deps allOpt s2 deps2 allOpt2,
      pmLoop step ms s deps allOpt = some (s2, deps2, allOpt2) →
      (s.resolved.map Prod.fst).Nodup → (s2.resolved.map Prod.fst).Nodup := by
  intro ms
  induction ms with
  | nil =>
    intro s deps allOpt s2 deps2 allOpt2 h hnd
    simp only [pmLoop] at h
    injection h with h
    injection h with h1 h
    subst h1
    exact hnd
  | cons m rest ih =>
    intro s deps allOpt s2 deps2 allOpt2 h hnd
    simp only [pmLoop] at h
    cases hm : step m s with
    | none => rw [hm] at h; exact absurd h (by simp)
    | some pr =>
      obtain ⟨s1, r⟩ := pr
      rw [hm] at h
      dsimp only at h
      have hnd1 := hstep m s s1 r hm hnd
      cases r with
      | some b => exact ih s1 deps (allOpt && b) s2 deps2 allOpt2 h hnd1
      | none => exact ih s1 _ allOpt s2 deps2 allOpt2 h hnd1

/-- The analyzer visit keeps the resolution keys duplicate-free. -/
theorem pdf_rnodup (ST : BStore) : ∀ fuel nid s s2 r,
    processDepthFirst ST fuel nid s = some (s2, r) →
    (s.resolved.map Prod.fst).Nodup → (s2.resolved.map Prod.fst).Nodup := by
  intro fuel
  induction fuel with
  | zero =>
    intro nid s s2 r h hnd
    simp [processDepthFirst] at h
  | succ fuel ih =>
    intro nid s s2 r h hnd
    simp only [processDepthFirst] at h
    cases hvin : s.visited.contains nid with
    | true =>
      rw [hvin, if_pos rfl] at h
      injection h with h
      injection h with h1 h2
      subst h1
      exact hnd
    | false =>
      rw [hvin, if_neg (fun hh => Bool.noConfusion hh)] at h
      cases hg : ST.get? nid with
      | none =>
        rw [hg] at h
        injection h with h
        injection h with h1 h2
        subst h1
        exact hnd
      | some nd =>
        rw [hg] at h
        dsimp only at h
        cases hk : nd.kind with
        | stringT c =>
          rw [hk] at h
          dsimp only at h
          injection h with h
          injection h with h1 h2
          subst h1
          exact assocSet_keys_nodup _ _ _ hnd
        | patternT c =>
          rw [hk] at h
          dsimp only at h
          injection h with h
          injection h with h1 h2
          subst h1
          exact assocSet_keys_nodup _ _ _ hnd
        | nt nm c =>
          rw [hk] at h
          dsimp only at h
          cases hpd : processDepthFirst ST fuel c ⟨nid :: s.visited, s.resolved, s.unresolved⟩ with
          | none => rw [hpd] at h; exact absurd h (by simp)
          | some pr =>
            obtain ⟨t, rc⟩ := pr
            rw [hpd] at h
            dsimp only at h
            have hndt := ih c _ t rc hpd hnd
            cases hopt : nd.optional with
            | true =>
              rw [hopt, if_pos rfl] at h
              injection h with h
              injection h with h1 h2
              subst h1
              exact assocSet_keys_nodup _ _ _ hndt
            | false =>
              rw [hopt, if_neg (fun hh => Bool.noConfusion hh)] at h
              cases rc with
              | some b =>
                dsimp only at h
                injection h with h
                injection h with h1 h2
                subst h1
                exact assocSet_keys_nodup _ _ _ hndt
              | none =>
                dsimp only at h
                injection h with h
                injection h with h1 h2
                subst h1
                exact hndt
        | rep c =>
          rw [hk] at h
          dsimp only at h
          cases hpd : processDepthFirst ST fuel c ⟨nid :: s.visited, s.resolved, s.unresolved⟩ with
          | none => rw [hpd] at h; exact absurd h (by simp)
          | some pr =>
            obtain ⟨t, rc⟩ := pr
            rw [hpd] at h
            dsimp only at h
            have hndt := ih c _ t rc hpd hnd
            cases hopt : nd.optional with
            | true =>
              rw [hopt, if_pos rfl] at h
              injection h with h
              injection h with h1 h2
              subst h1
              exact assocSet_keys_nodup _ _ _ hndt
            | false =>
              rw [hopt, if_neg (fun hh => Bool.noConfusion hh)] at h
              cases rc with
              | some b =>
                dsimp only at h
                injection h with h
                injection h with h1 h2
                subst h1
                exact assocSet_keys_nodup _ _ _ hndt
              | none =>
                dsimp only at h
                injection h with h
                injection h with h1 h2
                subst h1
                exact hndt
        | seq ms =>
          rw [hk] at h
          dsimp only at h
          cases hpm : pmLoop (processDepthFirst ST fuel) ms
              ⟨nid :: s.visited, s.resolved, s.unresolved⟩ [] true with
          | none => rw [hpm] at h; exact absurd h (by simp)
          | some trip =>
            obtain ⟨t, deps, allOpt⟩ := trip
            rw [hpm] at h
            dsimp only at h
            have hndt := pmLoop_rnodup (processDepthFirst ST fuel)
              (fun nid2 s3 s4 r2 h2 hnd2 => ih nid2 s3 s4 r2 h2 hnd2)
              ms _ [] true t deps allOpt hpm hnd
            cases hopt : nd.optional with
            | true =>
              rw [hopt, if_pos rfl] at h
              injection h with h
              injection h with h1 h2
              subst h1
              exact assocSet_keys_nodup _ _ _ hndt
            | false =>
              rw [hopt, if_neg (fun hh => Bool.noConfusion hh)] at h
              cases hde : (deps.isEmpty || !allOpt) with
              | true =>
                rw [hde, if_pos rfl] at h
                injection h with h
                injection h with h1 h2
                subst h1
                exact assocSet_keys_nodup _ _ _ hndt
              | false =>
                rw [hde, if_neg (fun hh => Bool.noConfusion hh)] at h
                injection h with h
                injection h with h1 h2
                subst h1
                exact hndt
        | choice ms exh =>
          rw [hk] at h
          dsimp only at h
          cases hpm : pmLoop (processDepthFirst ST fuel) ms
              ⟨nid :: s.visited, s.resolved, s.unresolved⟩ [] true with
          | none => rw [hpm] at h; exact absurd h (by simp)
          | some trip =>
            obtain ⟨t, deps, allOpt⟩ := trip
            rw [hpm] at h
            dsimp only at h
            have hndt := pmLoop_rnodup (processDepthFirst ST fuel)
              (fun nid2 s3 s4 r2 h2 hnd2 => ih nid2 s3 s4 r2 h2 hnd2)
              ms _ [] true t deps allOpt hpm hnd
            cases hopt : nd.optional with
            | true =>
              rw [hopt, if_pos rfl] at h
              injection h with h
              injection h with h1 h2
              subst h1
              exact assocSet_keys_nodup _ _ _ hndt
            | false =>
              rw [hopt, if_neg (fun hh => Bool.noConfusion hh)] at h
              cases hde : (deps.isEmpty || !allOpt) with
              | true =>
                rw [hde, if_pos rfl] at h
                injection h with h
                injection h with h1 h2
                subst h1
                exact assocSet_keys_nodup _ _ _ hndt
              | false =>
                rw [hde, if_neg (fun hh => Bool.noConfusion hh)] at h
                injection h with h
                injection h with h1 h2
                subst h1
                exact hndt

/-- One elimination pass keeps the resolution keys duplicate-free. -/
theorem elimPass_rnodup : ∀ (U : List (Nat × List Nat)) R prog U2 R2 prog2,
    elimPass U R prog = (U2, R2, prog2) →
    (R.map Prod.fst).Nodup → (R2.map Prod.fst).Nodup := by
  intro U
  induction U with
  | nil =>
    intro R prog U2 R2 prog2 h hnd
    simp only [elimPass] at h
    injection h with h1 h
    injection h with h2 h3
    subst h2
    exact hnd
  | cons p rest ih =>
    obtain ⟨n, deps⟩ := p
    intro R prog U2 R2 prog2 h hnd
    simp only [elimPass] at h
    cases hsd : scanDeps R deps [] prog with
    | mk deps2 pr =>
      obtain ⟨nonOpt, progm⟩ := pr
      rw [hsd] at h
      dsimp only at h
      cases hno : (nonOpt || deps2.isEmpty) with
      | true =>
        rw [hno, if_pos rfl] at h
        exact ih _ progm U2 R2 prog2 h (assocSet_keys_nodup _ _ _ hnd)
      | false =>
        rw [hno, if_neg (fun hh => Bool.noConfusion hh)] at h
        cases hep : elimPass rest R progm with
        | mk rest3 pr3 =>
          obtain ⟨R3, prog3⟩ := pr3
          rw [hep] at h
          dsimp only at h
          injection h with h1 h
          injection h with h2 h3
          subst h2
          exact ih R progm rest3 R3 prog3 hep hnd

/-- The residual loop keeps the resolution keys duplicate-free. -/
theorem residual_rnodup : ∀ (U : List (Nat × List Nat)) (R : List (Nat × Bool)),
    (R.map Prod.fst).Nodup → ((residualResolve U R).map Prod.fst).Nodup := by
  intro U
  induction U with
  | nil => intro R hnd; exact hnd
  | cons p rest ih =>
    intro R hnd
    exact ih (assocSet R p.1 true) (assocSet_keys_nodup _ _ _ hnd)

/-- The elimination loop keeps the resolution keys duplicate-free. -/
theorem elimLoop_rnodup : ∀ fuel (U : List (Nat × List Nat)) R RF,
    elimLoop fuel U R = some RF →
    (R.map Prod.fst).Nodup → (RF.map Prod.fst).Nodup := by
  intro fuel
  induction fuel with
  | zero =>
    intro U R RF h hnd
    simp [elimLoop] at h
  | succ fuel ih =>
    intro U R RF h hnd
    simp only [elimLoop] at h
    cases hU : U.isEmpty with
    | true =>
      rw [hU, if_pos rfl] at h
      injection h with h
      subst h
      exact hnd
    | false =>
      rw [hU, if_neg (fun hh => Bool.noConfusion hh)] at h
      cases hep : elimPass U R false with
      | mk U2 pr =>
        obtain ⟨R2, prog⟩ := pr
        rw [hep] at h
        dsimp only at h
        have hnd2 := elimPass_rnodup U R false U2 R2 prog hep hnd
        cases hprog : prog with
        | true =>
          rw [hprog, if_pos rfl] at h
          exact ih U2 R2 RF h hnd2
        | false =>
          rw [hprog, if_neg (fun hh => Bool.noConfusion hh)] at h
          injection h with h
          subst h
          exact residual_rnodup U2 R2 hnd2

/-- Where the final write-back loop gets each node: the resolved flag if
any, the original node otherwise. -/
theorem applyResolved_get (st : BStore) : ∀ R : List (Nat × Bool),
    (R.map Prod.fst).Nodup → ∀ n,
      (applyResolved st R).get? n =
        match st.get? n, assocGet R n with
        | some nd, some b => some ⟨nd.kind, b, nd.uniqueId⟩
        | some nd, none => some nd
        | none, _ => none := by
  intro R
  induction R generalizing st with
  | nil =>
    intro hnd n
    show st.get? n = _
    cases hg : st.get? n <;> rfl
  | cons p rest ih =>
    obtain ⟨k, b⟩ := p
    intro hnd n
    have hknotin : k ∉ rest.map Prod.fst := by
      simp only [List.map_cons, List.nodup_cons] at hnd
      exact hnd.1
    have hndr : (rest.map Prod.fst).Nodup := by
      simp only [List.map_cons, List.nodup_cons] at hnd
      exact hnd.2
    have hrestk : assocGet rest k = none := by
      cases hq : assocGet rest k with
      | none => rfl
      | some v =>
        exact absurd (List.mem_map_of_mem Prod.fst (assocGet_mem _ _ _ hq)) hknotin
    have hstep : applyResolved st ((k, b) :: rest)
        = applyResolved (match st.get? k with
            | some nd => st.set k ⟨nd.kind, b, nd.uniqueId⟩
            | none => st) rest := rfl
    rw [hstep]
    cases hgk : st.get? k with
    | none =>
      dsimp only
      rw [ih st hndr n]
      by_cases hn : n = k
      · subst hn
        rw [hrestk, hgk,
          show assocGet ((n, b) :: rest) n = some b from by simp [assocGet]]
      · rw [show assocGet ((k, b) :: rest) n = assocGet rest n from by
          simp [assocGet, hn]]
    | some nd =>
      dsimp only
      rw [ih _ hndr n]
      by_cases hn : n = k
      · subst hn
        rw [hrestk,
          show assocGet ((n, b) :: rest) n = some b from by simp [assocGet],
          List.get?_set_eq, hgk]
        rfl
      · rw [show assocGet ((k, b) :: rest) n = assocGet rest n from by
          simp [assocGet, hn],
          List.get?_set_ne _ _ (fun heq => hn heq.symm)]

/-- C6: for every node the optionality analyzer resolved whose kind is
`Choice` (or `Sequence` — the code treats both identically), the final
`optional` mark is `true` iff the node's header flag was already set or
every member's final `optional` mark is `true`; in particular a `Choice`
with a non-optional member and no header flag is marked non-optional even
when other members are optional. -/
theorem c6_choice_optionality (ST : BStore) (root fuel : Nat)
    (st2 : BStore) (RF : List (Nat × Bool))
    (hclosed : ClosedB ST) (hroot : root < ST.length)
    (h : annotateOptional ST root fuel = some (st2, RF))
    (n : Nat) (b : Bool) (hr : assocGet RF n = some b)
    (nd : BNode) (ms : List Nat) (hget : ST.get? n = some nd)
    (hkind : (∃ exh, nd.kind = .choice ms exh) ∨ nd.kind = .seq ms) :
    ∃ nd2, st2.get? n = some nd2 ∧
      (nd2.optional = true ↔ (nd.optional = true ∨
        ∀ m ∈ ms, ∃ nd3, st2.get? m = some nd3 ∧ nd3.optional = true)) := by
  unfold annotateOptional at h
  cases hpd : processDepthFirst ST fuel root emptyOptState with
  | none => rw [hpd] at h; exact absurd h (by simp)
  | some pr =>
    obtain ⟨s0, r0⟩ := pr
    rw [hpd] at h
    dsimp only at h
    cases hel : elimLoop fuel s0.unresolved s0.resolved with
    | none => rw [hel] at h; exact absurd h (by simp)
    | some RF2 =>
      rw [hel] at h
      dsimp only at h
      injection h with h
      injection h with h1 h2
      subst h2
      subst h1
      have hpost := pdf_spec ST hclosed fuel root emptyOptState s0 r0 hpd hroot
        (optInv_empty ST)
      have hinv := hpost.inv
      have heok : EOk ST s0.resolved s0.unresolved :=
        ⟨hinv.rok, hinv.uok, hinv.dis, hinv.und⟩
      have htr : ∀ p ∈ s0.unresolved, ∀ d ∈ p.2,
          d ∈ s0.unresolved.map Prod.fst ∨ assocGet s0.resolved d ≠ none := by
        intro p hp d hd
        have hdv := hinv.dvis p hp d hd
        rcases hpost.vtrack d hdv with h2 | h2 | h2
        · exact absurd h2 (List.not_mem_nil d)
        · exact Or.inr h2
        · cases hg : assocGet s0.unresolved d with
          | none => exact absurd hg h2
          | some v =>
            exact Or.inl (List.mem_map_of_mem Prod.fst (assocGet_mem _ _ _ hg))
      obtain ⟨hrokF, hsubF⟩ :=
        elimLoop_spec ST fuel s0.unresolved s0.resolved RF2 hel heok htr
      have hndF : (RF2.map Prod.fst).Nodup := by
        have hnd0 := pdf_rnodup ST fuel root emptyOptState s0 r0 hpd
          (by simp [emptyOptState])
        exact elimLoop_rnodup fuel s0.unresolved s0.resolved RF2 hel hnd0
      have happ := applyResolved_get ST RF2 hndF
      obtain ⟨nd0, hget0, hprop⟩ := hrokF n b hr
      rw [hget] at hget0
      injection hget0 with hget0
      subst hget0
      have hn2 : (applyResolved ST RF2).get? n = some ⟨nd.kind, b, nd.uniqueId⟩ := by
        rw [happ n, hget, hr]
      refine ⟨⟨nd.kind, b, nd.uniqueId⟩, hn2, ?_⟩
      have hmemTrue : ∀ m, assocGet RF2 m = some true →
          ∃ nd3, (applyResolved ST RF2).get? m = some nd3 ∧ nd3.optional = true := by
        intro m hvm
        obtain ⟨ndm, hgm, _⟩ := hrokF m true hvm
        refine ⟨⟨ndm.kind, true, ndm.uniqueId⟩, ?_, rfl⟩
        rw [happ m, hgm, hvm]
      have hmemFalse : ∀ m, assocGet RF2 m = some false →
          ¬∃ nd3, (applyResolved ST RF2).get? m = some nd3 ∧ nd3.optional = true := by
        intro m hvm
        rintro ⟨nd3, hg3, ho3⟩
        obtain ⟨ndm, hgm, _⟩ := hrokF m false hvm
        rw [happ m, hgm, hvm] at hg3
        injection hg3 with hg3
        rw [← hg3] at ho3
        simp at ho3
      rcases hkind with ⟨exh, hk⟩ | hk
      · rw [hk] at hprop
        dsimp only at hprop
        rcases hprop with ⟨hb, hcase⟩ | ⟨hb, hopt, m, hm, hv⟩
        · subst hb
          refine iff_of_true rfl ?_
          rcases hcase with hopt | hall
          · exact Or.inl hopt
          · exact Or.inr (fun m hm => hmemTrue m (hall m hm))
        · subst hb
          refine iff_of_false (by simp) ?_
          rintro (hopt2 | hall)
          · rw [hopt] at hopt2
            exact Bool.noConfusion hopt2
          · exact hmemFalse m hv (hall m hm)
      · rw [hk] at hprop
        dsimp only at hprop
        rcases hprop with ⟨hb, hcase⟩ | ⟨hb, hopt, m, hm, hv⟩
        · subst hb
          refine iff_of_true rfl ?_
          rcases hcase with hopt | hall
          · exact Or.inl hopt
          · exact Or.inr (fun m hm => hmemTrue m (hall m hm))
        · subst hb
          refine iff_of_false (by simp) ?_
          rintro (hopt2 | hall)
          · rw [hopt] at hopt2
            exact Bool.noConfusion hopt2
          · exact hmemFalse m hv (hall m hm)

/-- C6 (witness): the choice `anyOf(possibly('a'), 'b')` on the concrete
store: resolved non-optional because member `'b'` is non-optional. -/
theorem c6_witness :
    ∃ nd2, ([⟨.stringT "a", true, none⟩, ⟨.stringT "b", false, none⟩,
        ⟨.choice [0, 1] false, false, none⟩] : BStore).get? 2 = some nd2 ∧
      (nd2.optional = true ↔ ((⟨.choice [0, 1] false, false, none⟩ : BNode).optional = true ∨
        ∀ m ∈ [0, 1], ∃ nd3, ([⟨.stringT "a", true, none⟩, ⟨.stringT "b", false, none⟩,
          ⟨.choice [0, 1] false, false, none⟩] : BStore).get? m = some nd3 ∧
          nd3.optional = true)) :=
  c6_choice_optionality c6Store 2 9
    [⟨.stringT "a", true, none⟩, ⟨.stringT "b", false, none⟩,
     ⟨.choice [0, 1] false, false, none⟩]
    [(0, true), (1, false), (2, false)]
    (by
      intro n2 nd2 hx c hc
      match n2 with
      | 0 =>
        rw [show c6Store.get? 0 = some ⟨.stringT "a", true, none⟩ from rfl] at hx
        injection hx with hx
        subst hx
        simp [BMembers] at hc
      | 1 =>
        rw [show c6Store.get? 1 = some ⟨.stringT "b", false, none⟩ from rfl] at hx
        injection hx with hx
        subst hx
        simp [BMembers] at hc
      | 2 =>
        rw [show c6Store.get? 2 = some ⟨.choice [0, 1] false, false, none⟩ from rfl] at hx
        injection hx with hx
        subst hx
        simp [BMembers] at hc
        rcases hc with hc | hc <;> subst hc <;> decide
      | (k + 3) =>
        rw [show c6Store.get? (k + 3) = none from rfl] at hx
        exact Option.noConfusion hx)
    (by decide) rfl 2 false rfl ⟨.choice [0, 1] false, false, none⟩ [0, 1] rfl
    (Or.inl ⟨false, rfl⟩)

end GrammarComposer
